import Mathlib

/-!
# batchgcd: a shallow embedding of the batch-GCD engines

Big integers (`*gmp.Int`, `big.Int`) are natural numbers: every value the
engines handle is a non-negative modulus, product, remainder, quotient or gcd.
The arithmetic of the big-integer libraries is the arithmetic of `Nat`, except
that `Quo` and `Rem` by zero raise a run-time panic, which the embedding
records as a value of `Panic`.

A Go channel of records is the list of the records sent on it. In
mul_accum.go and smoothparts.go the goroutines of one phase write different
memory cells and read cells that no goroutine of the phase writes to (the one
cell read and written in one phase, a promoted node, is read and written by one
worker), so the records sent are the same under every schedule, up to their
order; the embedding runs the workers one after the other, in the order they
are launched. In smoothparts_lowmem.go two goroutines receive from one
channel, and there the schedule is a parameter.
-/

namespace batchgcd

/-! ## Run-time failures -/

/-- The ways a run of the Go code can abort. -/
inductive Panic where
  /-- `Quo` or `Rem` with a zero divisor. -/
  | divisionByZero
  /-- A method called through a nil `*gmp.Int`. -/
  | nilDereference
  /-- A slice indexed outside its bounds. -/
  | indexOutOfRange
  /-- An explicit `log.Panic` of the code. -/
  | logPanic
  deriving DecidableEq, Repr

deriving instance DecidableEq for Except

/-! ## common.go -/

/-- The record `Collision` of common.go: `P` and `Q` are pointers that may be nil. -/
structure Collision where
  Modulus : Nat
  P : Option Nat
  Q : Option Nat
  deriving DecidableEq, Repr

/-- `Collision.HavePrivate`: `x.P != nil || x.Q != nil`. -/
def Collision.HavePrivate (x : Collision) : Bool :=
  x.P.isSome || x.Q.isSome

/-- The `%x` verb of `fmt` on a non-negative big integer: lower-case hexadecimal. -/
def hex (n : Nat) : String :=
  String.mk (Nat.toDigits 16 n)

/-- `Collision.Csv`: the line `N,P,Q` with the smaller factor first. There is
no test of `HavePrivate`: comparing through a nil pointer aborts. -/
def Collision.Csv (x : Collision) : Except Panic String :=
  match x.P, x.Q with
  | some p, some q =>
    if p < q then .ok (hex x.Modulus ++ "," ++ hex p ++ "," ++ hex q)
    else .ok (hex x.Modulus ++ "," ++ hex q ++ "," ++ hex p)
  | _, _ => .error .nilDereference

/-- `Collision.String`: the canonical key of a record. Comparing through a nil
pointer (`x.P.Cmp(x.Q)` with one of the two absent) aborts. -/
def Collision.String (x : Collision) : Except Panic String :=
  if x.HavePrivate then
    match x.P, x.Q with
    | some p, some q =>
      if p < q then
        .ok ("COLLISION: N=" ++ hex x.Modulus ++ " \nP=" ++ hex p ++ " \nQ=" ++ hex q)
      else
        .ok ("COLLISION: N=" ++ hex x.Modulus ++ " \nP=" ++ hex q ++ " \nQ=" ++ hex p)
    | _, _ => .error .nilDereference
  else
    .ok ("DUPLICATE: " ++ hex x.Modulus)

/-- `Collision.Test`: a record without factors passes; otherwise `P * Q` is
compared with `Modulus`. Multiplying through a nil pointer aborts. -/
def Collision.Test (x : Collision) : Except Panic Bool :=
  if !x.HavePrivate then
    .ok true
  else
    match x.P, x.Q with
    | some p, some q => .ok (decide (p * q = x.Modulus))
    | _, _ => .error .nilDereference

/-- Modelled from the spec: `GCD` of the big-integer library, which is not part
of the repository. It is the greatest common divisor, with `GCD 0 m = m`: the
spec (4.4) has the leaf step of two equal moduli produce `g = M_i`, the gcd of
`0` and the modulus. -/
def GCD (a b : Nat) : Nat :=
  Nat.gcd a b

/-- The bits of `n` counted by repeated halving, at most `fuel` of them. -/
def bitLenAux : Nat → Nat → Nat
  | 0, _ => 0
  | fuel + 1, n => if n = 0 then 0 else bitLenAux fuel (n / 2) + 1

/-- `BitLen` of a non-negative big integer: the number of bits of its
magnitude, `0` for zero. A number has no more bits than its value, so the
fuel `n` is never exhausted. -/
def BitLen (n : Nat) : Nat :=
  bitLenAux n n

/-! ## mul_accum.go

`moduli []big.Int` is a slice of values that no function of this file writes
to, so it is a list of numbers. The divisors of `Quo` and `Rem` in `findDivisors`
and `findGCD` are gcds that the callers have compared with `1` and with the
modulus; the functions are written with the total division of `Nat`. -/

/-- `findDivisors`: report `moduli[i]` with the factor `gcd`, then scan every
other index `j`: an equal modulus is reported as a duplicate, a modulus that
`gcd` divides is reported with that factor. -/
def findDivisors (moduli : List Nat) (i : Nat) (gcd : Nat) : List Collision :=
  let m := moduli.getD i 0
  { Modulus := m, P := some gcd, Q := some (m / gcd) } ::
    (List.range moduli.length).flatMap fun j =>
      if j = i then []
      else
        let n := moduli.getD j 0
        if n = m then [{ Modulus := m, P := none, Q := none }]
        else if BitLen (n % gcd) = 0 then
          [{ Modulus := n, P := some gcd, Q := some (n / gcd) }]
        else []

/-- `findGCD`: scan the indices `j` before `i` (the loop breaks at `j == i`): an
equal modulus is reported as a duplicate, a modulus with a non-trivial gcd
gives the factorisation of both. -/
def findGCD (moduli : List Nat) (i : Nat) : List Collision :=
  let m := moduli.getD i 0
  (List.range (min i moduli.length)).flatMap fun j =>
    let n := moduli.getD j 0
    if n = m then [{ Modulus := m, P := none, Q := none }]
    else
      let gcd := GCD m n
      if BitLen gcd ≠ 1 then
        [{ Modulus := m, P := some gcd, Q := some (m / gcd) },
         { Modulus := n, P := some gcd, Q := some (n / gcd) }]
      else []

/-- One iteration of the loop of `MulAccumGCD` on the state (accumulator,
records sent so far). When the gcd is the whole modulus the iteration
`continue`s before the multiplication; in the two other cases the modulus is
multiplied into the accumulator. -/
def mulAccumStep (moduli : List Nat) (st : Nat × List Collision) (i : Nat) :
    Nat × List Collision :=
  let n := moduli.getD i 0
  let gcd := GCD st.1 n
  if BitLen gcd ≠ 1 then
    if gcd = n then (st.1, st.2 ++ findGCD moduli i)
    else (st.1 * n, st.2 ++ findDivisors moduli i gcd)
  else (st.1 * n, st.2)

/-- The state of `MulAccumGCD` after the iterations `0 .. k-1`. -/
def mulAccumState (moduli : List Nat) (k : Nat) : Nat × List Collision :=
  (List.range k).foldl (mulAccumStep moduli) (1, [])

/-- `MulAccumGCD`: the records sent on `collisions`, the rescans in the order
they are launched. -/
def MulAccumGCD (moduli : List Nat) : List Collision :=
  (mulAccumState moduli moduli.length).2

/-! ## smoothparts.go

`moduli []*gmp.Int` and the levels of the tree are slices of pointers, and the
remainder descent writes through them (`x.Rem(y, tmp)`), so the integers live
in a heap of cells and a slice is a list of addresses, nil included. -/

/-- A slice `[]*gmp.Int`: an entry is the address of a `gmp.Int`, a number, or
`none` for nil. -/
abbrev Slice := List (Option Nat)

/-- The heap of big integers: the value of every cell and the next free address. -/
structure Heap where
  cells : Nat → Nat
  next : Nat

/-- `new(gmp.Int)` set to `v`: a cell that no pointer held so far refers to. -/
def Heap.alloc (h : Heap) (v : Nat) : Heap × Nat :=
  ({ cells := Function.update h.cells h.next v, next := h.next + 1 }, h.next)

/-- Overwrite the cell at `p` (the receiver of `x.Rem(..)`). -/
def Heap.store (h : Heap) (p : Nat) (v : Nat) : Heap :=
  { h with cells := Function.update h.cells p v }

/-- Read the integer behind a pointer; a nil pointer aborts. -/
def Heap.load (h : Heap) : Option Nat → Except Panic Nat
  | none => .error .nilDereference
  | some p => .ok (h.cells p)

/-- The receiver of a write: a nil pointer aborts. -/
def deref : Option Nat → Except Panic Nat
  | none => .error .nilDereference
  | some p => .ok p

/-- The expression `s[i]`. -/
def index {α : Type} (s : List α) (i : Nat) : Except Panic α :=
  match s.get? i with
  | some a => .ok a
  | none => .error .indexOutOfRange

/-- The statement `s[i] = a`. -/
def assign {α : Type} (s : List α) (i : Nat) (a : α) : Except Panic (List α) :=
  if i < s.length then .ok (s.set i a) else .error .indexOutOfRange

/-- `Rem`: a zero divisor aborts. -/
def Rem (a b : Nat) : Except Panic Nat :=
  if b = 0 then .error .divisionByZero else .ok (a % b)

/-- `Quo`: a zero divisor aborts. -/
def Quo (a b : Nat) : Except Panic Nat :=
  if b = 0 then .error .divisionByZero else .ok (a / b)

/-- The loop `for i := start; i < bound; i += step { body }` of a worker.
`fuel` bounds the number of iterations; `bound` of them are enough when
`step` is positive. -/
def strideLoop {σ ε : Type} (body : Nat → σ → Except ε σ) (step bound : Nat) :
    Nat → Nat → σ → Except ε σ
  | 0, _, s => .ok s
  | fuel + 1, i, s =>
    if i < bound then
      match body i s with
      | .ok s' => strideLoop body step bound fuel (i + step) s'
      | .error e => .error e
    else .ok s

/-- The workers `go worker(.., i, nThreads)` of the starts `i` of a list,
followed by `wg.Wait()`: run one after the other. -/
def workers {σ ε : Type} (worker : Nat → Nat → σ → Except ε σ) (nThreads : Nat) :
    List Nat → σ → Except ε σ
  | [], s => .ok s
  | start :: rest, s =>
    match worker start nThreads s with
    | .ok s' => workers worker nThreads rest s'
    | .error e => .error e

/-- The body of the loop of `productTreeLevel`:
`output[i] = new(gmp.Int).Mul(input[j], input[j+1])` with `j = i * 2`. -/
def productTreeBody (input : Slice) (i : Nat) (s : Heap × Slice) :
    Except Panic (Heap × Slice) := do
  let j := i * 2
  let a ← index input j
  let b ← index input (j + 1)
  let x ← s.1.load a
  let y ← s.1.load b
  let hp := s.1.alloc (x * y)
  let out ← assign s.2 i (some hp.2)
  pure (hp.1, out)

/-- `productTreeLevel`: one worker over `i = start, start+step, ..` below
`len(input) / 2`. -/
def productTreeLevel (input : Slice) (start step : Nat) (s : Heap × Slice) :
    Except Panic (Heap × Slice) :=
  strideLoop (productTreeBody input) step (input.length / 2) (input.length / 2) start s

/-- The body of the loop of `remainderTreeLevel`: `x := thisLevel[i]`,
`y := prevLevel[i/2]`, `tmp.Mul(x, x)`, `x.Rem(y, tmp)`. The cell of `x` is
overwritten in place. -/
def remainderTreeBody (prevLevel thisLevel : Slice) (i : Nat) (h : Heap) :
    Except Panic Heap := do
  let x ← index thisLevel i
  let y ← index prevLevel (i / 2)
  let xv ← h.load x
  let tmp := xv * xv
  let yv ← h.load y
  let r ← Rem yv tmp
  let px ← deref x
  pure (h.store px r)

/-- `remainderTreeLevel`: one worker over the nodes of `tree[level]`. -/
def remainderTreeLevel (tree : List Slice) (level : Nat) (start step : Nat) (h : Heap) :
    Except Panic Heap := do
  let prevLevel ← index tree (level + 1)
  let thisLevel ← index tree level
  strideLoop (remainderTreeBody prevLevel thisLevel) step thisLevel.length thisLevel.length
    start h

/-- The leaf step of `remainderTreeFinal` for the index `i`: the record sent,
if any. `tmp` ends as `gcd((y mod modulus^2) / modulus, modulus)`. -/
def leafStep (h : Heap) (lastLevel moduli : Slice) (i : Nat) :
    Except Panic (Option Collision) := do
  let modulus ← index moduli i
  let y ← index lastLevel (i / 2)
  let m ← h.load modulus
  let yv ← h.load y
  let tmp ← Rem yv (m * m)
  let tmp ← Quo tmp m
  let tmp := GCD tmp m
  if BitLen tmp ≠ 1 then
    let q ← Quo m tmp
    pure (some { Modulus := m, P := some tmp, Q := some q })
  else
    pure none

/-- The body of the loop of `remainderTreeFinal` on the records sent so far.
An abort carries the records that were sent before it. -/
def remainderTreeFinalBody (h : Heap) (lastLevel moduli : Slice) (i : Nat)
    (out : List Collision) : Except (Panic × List Collision) (List Collision) :=
  match leafStep h lastLevel moduli i with
  | .ok none => .ok out
  | .ok (some c) => .ok (out ++ [c])
  | .error e => .error (e, out)

/-- `remainderTreeFinal`: one worker over the moduli. -/
def remainderTreeFinal (h : Heap) (lastLevel moduli : Slice) (start step : Nat)
    (out : List Collision) : Except (Panic × List Collision) (List Collision) :=
  strideLoop (remainderTreeFinalBody h lastLevel moduli) step moduli.length moduli.length
    start out

/-- The sizes of the levels of the tree: `ceil(n/2)` of the size below, down
to a level of size one (`for n := (len(moduli)+1)/2; ; n = (n+1)/2`). -/
def levelSizes : Nat → Nat → List Nat
  | 0, _ => []
  | fuel + 1, n => n :: (if n = 1 then [] else levelSizes fuel ((n + 1) / 2))

/-- The tree as allocated: every level a slice of nil pointers. -/
def makeTree (len : Nat) : List Slice :=
  (levelSizes ((len + 1) / 2) ((len + 1) / 2)).map fun n => List.replicate n none

/-- The promotion of the odd last node:
`if (len(input) & 1) == 1 { output[len(output)-1] = input[len(input)-1] }`.
The pointer is copied, not the integer. -/
def promoteLast (input output : Slice) : Except Panic Slice :=
  if input.length % 2 = 1 then do
    let a ← index input (input.length - 1)
    if output.length = 0 then .error .indexOutOfRange
    else assign output (output.length - 1) a
  else .ok output

/-- The state of the product-tree loop: heap, tree, and the slice `input`. -/
structure ProductState where
  heap : Heap
  tree : List Slice
  input : Slice

/-- One iteration of the loop that creates the product tree. -/
def productLevel (nThreads : Nat) (level : Nat) (s : ProductState) :
    Except Panic ProductState := do
  let output ← index s.tree level
  let r ← workers (productTreeLevel s.input) nThreads (List.range nThreads) (s.heap, output)
  let output ← promoteLast s.input r.2
  let tree ← assign s.tree level output
  pure { heap := r.1, tree := tree, input := output }

/-- The loop `for level := 0; level < len(tree); level++`. -/
def productLevels (nThreads : Nat) : List Nat → ProductState → Except Panic ProductState
  | [], s => .ok s
  | level :: rest, s =>
    match productLevel nThreads level s with
    | .ok s' => productLevels nThreads rest s'
    | .error e => .error e

/-- One iteration of the loop that creates the remainder tree. -/
def remainderLevel (nThreads : Nat) (tree : List Slice) (level : Nat) (h : Heap) :
    Except Panic Heap :=
  workers (remainderTreeLevel tree level) nThreads (List.range nThreads) h

/-- The loop `for level := len(tree) - 2; level >= 0; level--`, over the list
of its levels in that order. -/
def remainderLevels (nThreads : Nat) (tree : List Slice) : List Nat → Heap → Except Panic Heap
  | [], h => .ok h
  | level :: rest, h =>
    match remainderLevel nThreads tree level h with
    | .ok h' => remainderLevels nThreads tree rest h'
    | .error e => .error e

/-- The memory a caller hands to `SmoothPartsGCD`: one cell per modulus, and
the slice of their addresses. -/
def loadModuli (M : List Nat) : Heap × Slice :=
  ({ cells := fun p => M.getD p 0, next := M.length }, (List.range M.length).map some)

/-- The first two phases of `SmoothPartsGCD` on at least two moduli: the
product tree, then the remainder descent. The result is the memory and the
tree when the leaf step starts. -/
def treePhases (nThreads : Nat) (h : Heap) (moduli : Slice) :
    Except Panic (Heap × List Slice) := do
  let tree := makeTree moduli.length
  let s ← productLevels nThreads (List.range tree.length)
    { heap := h, tree := tree, input := moduli }
  let h ← remainderLevels nThreads s.tree (List.range (s.tree.length - 1)).reverse s.heap
  pure (h, s.tree)

/-- What a run of an engine leaves: the records sent on the output channel,
the panic that aborted it (if any), and whether the channel was closed. -/
structure Run where
  out : List Collision
  panic : Option Panic
  closed : Bool
  deriving DecidableEq, Repr

/-- `SmoothPartsGCD` on the memory `h` and the slice `moduli`, with
`nThreads = runtime.NumCPU()` workers per phase. -/
def SmoothPartsGCD.run (nThreads : Nat) (h : Heap) (moduli : Slice) : Run :=
  if moduli.length < 2 then { out := [], panic := none, closed := true }
  else
    match treePhases nThreads h moduli with
    | .error e => { out := [], panic := some e, closed := false }
    | .ok (h, tree) =>
      match index tree 0 with
      | .error e => { out := [], panic := some e, closed := false }
      | .ok lastLevel =>
        match workers (remainderTreeFinal h lastLevel moduli) nThreads
            (List.range nThreads) [] with
        | .ok out => { out := out, panic := none, closed := true }
        | .error (e, out) => { out := out, panic := some e, closed := false }

/-- `SmoothPartsGCD` on the moduli `M`. -/
def SmoothPartsGCD (nThreads : Nat) (M : List Nat) : Run :=
  SmoothPartsGCD.run nThreads (loadModuli M).1 (loadModuli M).2

/-- The first phase of `SmoothPartsGCD` on at least two moduli: the tree is
allocated and the loop `for level := 0; level < len(tree); level++` fills it. -/
def productPhase (nThreads : Nat) (h : Heap) (moduli : Slice) : Except Panic ProductState :=
  productLevels nThreads (List.range (makeTree moduli.length).length)
    { heap := h, tree := makeTree moduli.length, input := moduli }

/-- The memory when `SmoothPartsGCD` returns. The leaf step writes to its own
`tmp` and `q` only, so the memory is the one that the descent leaves. -/
def SmoothPartsGCD.memory (nThreads : Nat) (h : Heap) (moduli : Slice) : Except Panic Heap :=
  if moduli.length < 2 then .ok h
  else
    match treePhases nThreads h moduli with
    | .error e => .error e
    | .ok (h, tree) =>
      match index tree 0 with
      | .error e => .error e
      | .ok lastLevel =>
        match workers (remainderTreeFinal h lastLevel moduli) nThreads
            (List.range nThreads) [] with
        | .ok _ => .ok h
        | .error (e, _) => .error e

/-! ## smoothparts_lowmem.go

The stages are goroutines joined by channels. A channel with one sender and
one receiver is the list of the values sent on it, with a flag that tells
whether the sender closes it after the last one: what a stage computes from
such channels does not depend on the schedule. The integers read back from a
temporary file are fresh copies, so the stages work on values.

One channel has two receivers: the spilled input of level `1` is handed both
to the loop of `lowmemRemainderTreeLevel(1, ..)` and, as `moduli`, to
`lowmemRemainderTreeFinal`. Which of the two gets the next value is decided by
the scheduler; the embedding runs the two loops as one machine, stepped by an
explicit schedule. -/

/-- The values sent on a channel, and whether it is closed after them. -/
structure Chan where
  vals : List Nat
  closed : Bool
  deriving DecidableEq, Repr

/-- `tmpfileReadWriter`: the values of `inChan` are written to the file until
`inChan` is closed; then they are read back, sent on `outChan`, and `outChan`
is closed. -/
def tmpfileReadWriter (inChan : Chan) : Chan :=
  if inChan.closed then { vals := inChan.vals, closed := true }
  else { vals := [], closed := false }

/-- The values a product stage sends on `resultChan`: the product of every two
consecutive inputs, and the odd last input as it is (`hold` after the loop). -/
def lowmemProducts : List Nat → List Nat
  | hold :: m :: rest => hold * m :: lowmemProducts rest
  | [hold] => [hold]
  | [] => []

/-- What a loop run to its end leaves: the values sent, the panic that ended
it, if any, and whether the loop left its `for .. range` (it has not when it
aborted or when it is blocked on a receive). -/
structure LoopResult where
  vals : List Nat
  panic : Option Panic
  finished : Bool
  deriving DecidableEq, Repr

/-- The loop of `lowmemRemainderTreeLevel` when it is the only receiver of
`products`: for every `y` of `input`, a first product must arrive (`log.Panic`
otherwise) and a second one is taken if there is one; each is replaced by
`y mod x*x` and sent on. When `products` is empty and not closed the receive
blocks. -/
def remainderLoop (productsClosed : Bool) : List Nat → List Nat → LoopResult
  | [], _ => { vals := [], panic := none, finished := true }
  | _ :: _, [] =>
    { vals := [], panic := if productsClosed then some .logPanic else none, finished := false }
  | y :: ys, [x] =>
    if x * x = 0 then { vals := [], panic := some .divisionByZero, finished := false }
    else if productsClosed then
      let r := remainderLoop productsClosed ys []
      { r with vals := y % (x * x) :: r.vals }
    else { vals := [y % (x * x)], panic := none, finished := false }
  | y :: ys, x1 :: x2 :: rest =>
    if x1 * x1 = 0 then { vals := [], panic := some .divisionByZero, finished := false }
    else if x2 * x2 = 0 then
      { vals := [y % (x1 * x1)], panic := some .divisionByZero, finished := false }
    else
      let r := remainderLoop productsClosed ys rest
      { r with vals := y % (x1 * x1) :: y % (x2 * x2) :: r.vals }

/-- Where the loop of `lowmemRemainderTreeLevel` stands. -/
inductive RemCtl where
  /-- At `for y := range input`. -/
  | recvY
  /-- At `x, ok := <-products`, holding `y`. -/
  | recvFirst (y : Nat)
  /-- At the first `output <- x`, holding `y` and the value to send. -/
  | sendFirst (y v : Nat)
  /-- At `x, ok = <-products`, holding `y`. -/
  | recvSecond (y : Nat)
  /-- At the second `output <- x`, holding the value to send. -/
  | sendSecond (v : Nat)
  /-- After `close(output)`. -/
  | finished
  deriving DecidableEq, Repr

/-- Where the loop of `lowmemRemainderTreeFinal` stands. -/
inductive FinCtl where
  /-- At `for y := range input`. -/
  | recvY
  /-- At `modulus, ok := <-moduli` in the iteration `i` of the inner loop, holding `y`. -/
  | recvModulus (y i : Nat)
  /-- After `close(output)`. -/
  | finished
  deriving DecidableEq, Repr

/-- The state of the two loops that receive from the spilled moduli. -/
structure RaceState where
  /-- The values not yet received from `input` of the remainder stage. -/
  input : List Nat
  inputClosed : Bool
  /-- The values not yet received from the channel of the spilled moduli. -/
  products : List Nat
  productsClosed : Bool
  /-- The values in the channel between the two loops, of capacity one. -/
  pipe : List Nat
  pipeClosed : Bool
  rem : RemCtl
  fin : FinCtl
  /-- The records sent on the output channel. -/
  out : List Collision
  outClosed : Bool
  panic : Option Panic
  deriving DecidableEq, Repr

/-- One step of the loop of `lowmemRemainderTreeLevel(1, ..)`; the state is
unchanged when the loop is blocked or the process has aborted. -/
def stepRem (s : RaceState) : RaceState :=
  if s.panic.isSome then s
  else
    match s.rem with
    | .recvY =>
      match s.input with
      | y :: rest => { s with input := rest, rem := .recvFirst y }
      | [] => if s.inputClosed then { s with pipeClosed := true, rem := .finished } else s
    | .recvFirst y =>
      match s.products with
      | x :: rest =>
        if x * x = 0 then { s with products := rest, panic := some .divisionByZero }
        else { s with products := rest, rem := .sendFirst y (y % (x * x)) }
      | [] => if s.productsClosed then { s with panic := some .logPanic } else s
    | .sendFirst y v =>
      if s.pipe.length < 1 then { s with pipe := s.pipe ++ [v], rem := .recvSecond y } else s
    | .recvSecond y =>
      match s.products with
      | x :: rest =>
        if x * x = 0 then { s with products := rest, panic := some .divisionByZero }
        else { s with products := rest, rem := .sendSecond (y % (x * x)) }
      | [] => if s.productsClosed then { s with rem := .recvY } else s
    | .sendSecond v =>
      if s.pipe.length < 1 then { s with pipe := s.pipe ++ [v], rem := .recvY } else s
    | .finished => s

/-- The leaf computation of `lowmemRemainderTreeFinal` on `y` and `modulus`:
the record sent, if any. -/
def lowmemLeaf (y modulus : Nat) : Except Panic (Option Collision) := do
  let tmp ← Rem y (modulus * modulus)
  let tmp ← Quo tmp modulus
  let tmp := GCD tmp modulus
  if BitLen tmp ≠ 1 then
    let q ← Quo modulus tmp
    pure (some { Modulus := modulus, P := some tmp, Q := some q })
  else
    pure none

/-- One step of the loop of `lowmemRemainderTreeFinal`. -/
def stepFin (s : RaceState) : RaceState :=
  if s.panic.isSome then s
  else
    match s.fin with
    | .recvY =>
      match s.pipe with
      | y :: rest => { s with pipe := rest, fin := .recvModulus y 0 }
      | [] => if s.pipeClosed then { s with outClosed := true, fin := .finished } else s
    | .recvModulus y i =>
      if i < 2 then
        match s.products with
        | modulus :: rest =>
          match lowmemLeaf y modulus with
          | .ok none => { s with products := rest, fin := .recvModulus y (i + 1) }
          | .ok (some c) =>
            { s with products := rest, out := s.out ++ [c], fin := .recvModulus y (i + 1) }
          | .error e => { s with products := rest, panic := some e }
        | [] => if s.productsClosed then { s with fin := .recvModulus y (i + 1) } else s
      else { s with fin := .recvY }
    | .finished => s

/-- The two loops run under a schedule: `true` lets the remainder stage take a
step, `false` the leaf stage. -/
def race (sched : List Bool) (s : RaceState) : RaceState :=
  sched.foldl (fun s b => if b then stepRem s else stepFin s) s

/-- `lowmemRemainderTreeLevel` and the stages it spawns, on the list of the
spilled levels in reverse order: `products` is the last of them. A stage of a
level other than `1` is the only receiver of its products; the stage of
level `1` shares them with `lowmemRemainderTreeFinal`. -/
def remainderStages (sched : List Bool) : Int → Chan → List Chan → Run
  | _, _, [] => { out := [], panic := some .indexOutOfRange, closed := false }
  | level, input, products :: productTree =>
    if level ≠ 1 then
      let r := remainderLoop products.closed input.vals products.vals
      let output : Chan := { vals := r.vals, closed := input.closed && r.finished }
      let below := remainderStages sched (level - 1) output productTree
      { below with panic := below.panic.orElse fun _ => r.panic }
    else if productTree.length ≠ 0 then
      { out := [], panic := some .logPanic, closed := false }
    else
      let s := race sched
        { input := input.vals, inputClosed := input.closed, products := products.vals,
          productsClosed := products.closed, pipe := [], pipeClosed := false,
          rem := .recvY, fin := .recvY, out := [], outClosed := false, panic := none }
      { out := s.out, panic := s.panic, closed := s.outClosed }

/-- `lowmemRemainderTreeLevel`: `products := productTree[len(productTree)-1]`. -/
def lowmemRemainderTreeLevel (sched : List Bool) (level : Int) (input : Chan)
    (productTree : List Chan) : Run :=
  remainderStages sched level input productTree.reverse

/-- `lowmemProductTreeLevel` on a closed input. With fewer than two inputs the
stage is the top of the tree: it starts the remainder stages and sends them
`hold` on a channel that it does not close. Otherwise it spills its inputs,
sends their products to the stage of the next level, and closes both channels.
`fuel` bounds the number of levels; a level is shorter than the one below. -/
def lowmemProductTreeLevel (sched : List Bool) : Nat → Int → List Nat → List Chan → Run
  | 0, _, _, _ => { out := [], panic := none, closed := false }
  | fuel + 1, level, input, channels =>
    match input with
    | [] =>
      -- `hold` is nil: the remainder stage aborts on its empty list, or on the nil
      match channels.reverse with
      | [] => lowmemRemainderTreeLevel sched (level - 1) { vals := [], closed := false } channels
      | _ :: _ => { out := [], panic := some .nilDereference, closed := false }
    | [hold] =>
      lowmemRemainderTreeLevel sched (level - 1) { vals := [hold], closed := false } channels
    | _ :: _ :: _ =>
      let fileReadChan := tmpfileReadWriter { vals := input, closed := true }
      lowmemProductTreeLevel sched fuel (level + 1) (lowmemProducts input)
        (channels ++ [fileReadChan])

/-- `LowMemSmoothPartsGCD` on the moduli sent on its input channel, which the
driver closes after the last one, under a schedule of the two loops that
share the spilled moduli. -/
def LowMemSmoothPartsGCD (sched : List Bool) (M : List Nat) : Run :=
  lowmemProductTreeLevel sched (M.length + 1) 1 M []

/-! ## batchgcd/main.go

A Go string and a `[]byte` are lists of bytes, numbers below `256`. A file is
the list of the lines that `scanner.Scan()` yields. `int` has 64 bits: the
offsets of the loader, sums of lengths below `2^32`, are natural numbers. -/

/-- The loop `for c := range in` of `uniqifyProc` on the records still to be
received, with the keys `seen` so far and the records sent so far on `out`.
`c.String()` aborts on a record with one factor only. When `in` is drained,
`out` is closed. -/
def uniqifyLoop : List Collision → List String → List Collision → Run
  | [], _, out => { out := out, panic := none, closed := true }
  | c :: rest, seen, out =>
    match c.String with
    | .error e => { out := out, panic := some e, closed := false }
    | .ok s =>
      if s ∈ seen then uniqifyLoop rest seen out
      else uniqifyLoop rest (s :: seen) (out ++ [c])

/-- `uniqifyProc` on the records that are sent on `in` before it is closed. -/
def uniqifyProc (input : List Collision) : Run :=
  uniqifyLoop input [] []

/-- A slice `[]byte`: the bytes of its array from the first byte of the slice
up to the capacity, and the length of the slice. -/
structure Bytes where
  arr : List Nat
  len : Nat
  deriving DecidableEq, Repr

/-- The slice expression `b[lo:hi]` on a slice: the indices are in range when
`lo <= hi <= cap(b)`. -/
def Bytes.slice (b : Bytes) (lo hi : Nat) : Except Panic Bytes :=
  if lo ≤ hi ∧ hi ≤ b.arr.length then .ok { arr := b.arr.drop lo, len := hi - lo }
  else .error .indexOutOfRange

/-- `binary.BigEndian.Uint32`: the first four bytes, after the bounds check
`_ = b[3]`. -/
def Uint32 (b : Bytes) : Except Panic Nat :=
  if 3 < b.len then
    .ok (b.arr.getD 0 0 * 2 ^ 24 + b.arr.getD 1 0 * 2 ^ 16 + b.arr.getD 2 0 * 2 ^ 8 +
      b.arr.getD 3 0)
  else .error .indexOutOfRange

/-- `read_int`: the four bytes from `start` as a length, and the offset after them. -/
def read_int (data : Bytes) (start : Nat) : Except Panic (Nat × Nat) := do
  let stop := start + 4
  let b ← data.slice start stop
  let noBytes ← Uint32 b
  pure (noBytes, stop)

/-- `read_chunk`: the chunk whose length is read at `i`, and the offset after it. -/
def read_chunk (buffer : Bytes) (i : Nat) : Except Panic (Bytes × Nat) := do
  let (length, start) ← read_int buffer i
  let s ← buffer.slice start (start + length)
  pure (s, start + length)

/-- `SetBytes`: the bytes of the slice as a big-endian magnitude. -/
def SetBytes (b : Bytes) : Nat :=
  (b.arr.take b.len).foldl (fun acc byte => acc * 256 + byte) 0

/-- The table `decodeMap` of the standard base-64 alphabet; `none` for `0xff`. -/
def decodeMap (c : Nat) : Option Nat :=
  if 65 ≤ c ∧ c ≤ 90 then some (c - 65)
  else if 97 ≤ c ∧ c ≤ 122 then some (c - 97 + 26)
  else if 48 ≤ c ∧ c ≤ 57 then some (c - 48 + 52)
  else if c = 43 then some 62
  else if c = 47 then some 63
  else none

/-- Skip the characters `\n` and `\r`. -/
def skipNewlines (src : List Nat) : List Nat :=
  src.dropWhile fun c => c = 10 ∨ c = 13

/-- The first `dlen - 1` bytes of the 24 bits of a quantum of `dlen` sextets. -/
def quantumBytes (dbuf : List Nat) (dlen : Nat) : List Nat :=
  let val := dbuf.getD 0 0 * 2 ^ 18 + dbuf.getD 1 0 * 2 ^ 12 + dbuf.getD 2 0 * 2 ^ 6 +
    dbuf.getD 3 0
  [val / 2 ^ 16 % 256, val / 2 ^ 8 % 256, val % 256].take (dlen - 1)

/-- `decodeQuantum` of encoding/base64 with padding, on the source still to be
read and the sextets `dbuf` of the quantum read so far: what is left of the
source, the bytes written, and whether the input is corrupt. -/
def decodeQuantum : List Nat → List Nat → List Nat × List Nat × Bool
  | [], dbuf => ([], [], decide (dbuf.length ≠ 0))
  | c :: src, dbuf =>
    match decodeMap c with
    | some v =>
      if dbuf.length = 3 then (src, quantumBytes (dbuf ++ [v]) 4, false)
      else decodeQuantum src (dbuf ++ [v])
    | none =>
      if c = 10 ∨ c = 13 then decodeQuantum src dbuf
      else if c ≠ 61 then (src, [], true)
      else if dbuf.length < 2 then (src, [], true)
      else if dbuf.length = 2 then
        match skipNewlines src with
        | [] => ([], [], true)
        | c' :: src' =>
          if c' ≠ 61 then (src', [], true)
          else (skipNewlines src', quantumBytes dbuf 2, decide (skipNewlines src' ≠ []))
      else (skipNewlines src, quantumBytes dbuf 3, decide (skipNewlines src ≠ []))

/-- The loop of `Decode`: quantum after quantum until the source is read or
corrupt. Every quantum takes a character, so `len(src)` rounds are enough. -/
def decodeLoop : Nat → List Nat → List Nat
  | 0, _ => []
  | _, [] => []
  | fuel + 1, c :: src =>
    match decodeQuantum (c :: src) [] with
    | (_, bytes, true) => bytes
    | (rest, bytes, false) => bytes ++ decodeLoop fuel rest

/-- `DecodedLen` of an encoding with padding. -/
def DecodedLen (n : Nat) : Nat :=
  n / 4 * 3

/-- `base64.StdEncoding.DecodeString`, the error dropped as by
`data, _ := ..`: the decoded bytes are written into a zeroed buffer of
`DecodedLen(len(s))` bytes, and the result is that buffer cut to the number of
bytes written. -/
def DecodeString (s : List Nat) : Bytes :=
  let decoded := decodeLoop s.length s
  { arr := (decoded ++ List.replicate (DecodedLen s.length) 0).take (DecodedLen s.length),
    len := decoded.length }

/-- The state of the loop of `readModuli`: the fields seen so far and the
moduli sent on `ch`. -/
structure Loader where
  seen : List (List Nat)
  sent : List Nat
  deriving DecidableEq, Repr

/-- One iteration of the loop of `readModuli` on the line `text`: the field
before the first comma is skipped when it was seen before; otherwise it is
decoded, three chunks are read, and the third one is sent as a modulus. -/
def readLine (st : Loader) (text : List Nat) : Except Panic Loader :=
  let s := text.takeWhile fun c => c ≠ 44
  if s ∈ st.seen then .ok st
  else do
    let data := DecodeString s
    let (_, i) ← read_chunk data 0
    let (_, i) ← read_chunk data i
    let (chunk, _) ← read_chunk data i
    pure { seen := s :: st.seen, sent := st.sent ++ [SetBytes chunk] }

/-- The loop `for scanner.Scan()` of `readModuli` over the lines of a file. -/
def readLines : List (List Nat) → Loader → Except Panic Loader
  | [], st => .ok st
  | text :: rest, st =>
    match readLine st text with
    | .ok st' => readLines rest st'
    | .error e => .error e

/-- `readModuli`: the moduli sent on `ch` for the lines of a file. -/
def readModuli (lines : List (List Nat)) : Except Panic (List Nat) :=
  match readLines lines { seen := [], sent := [] } with
  | .ok st => .ok st.sent
  | .error e => .error e

/-! ## Predicates used in the statements -/

/-- A record is well formed when it is a duplicate report or a factorisation
of its modulus. -/
def Collision.Sound (r : Collision) : Prop :=
  (r.P = none ∧ r.Q = none) ∨ ∃ p q, r.P = some p ∧ r.Q = some q ∧ p * q = r.Modulus

/-- A modulus that is the product of two distinct primes. -/
def TwoPrimes (n : Nat) : Prop :=
  ∃ p q, Nat.Prime p ∧ Nat.Prime q ∧ p ≠ q ∧ n = p * q

/-- The engine sent a record that factors `m` properly. -/
def ProperlyFactored (out : List Collision) (m : Nat) : Prop :=
  ∃ r ∈ out, r.Modulus = m ∧
    ∃ p q, r.P = some p ∧ r.Q = some q ∧ p * q = r.Modulus ∧ 1 < p ∧ p < r.Modulus

/-- A property of the outcome of a fallible step: `I` of the state it returns,
`E` of the failure it raises. -/
def Outcome {σ ε : Type} (E : ε → Prop) (I : σ → Prop) : Except ε σ → Prop
  | .ok s => I s
  | .error e => E e

/-- What every record of the leaf step satisfies: both factors are present,
their product is the modulus, `P` is a divisor greater than one. -/
def Collision.Leaf (r : Collision) : Prop :=
  ∃ p q, r.P = some p ∧ r.Q = some q ∧ p * q = r.Modulus ∧
    1 < p ∧ p ≤ r.Modulus ∧ 1 ≤ q ∧ q < r.Modulus

/-! ## The product tree and the remainder tree as values, and the layout of the pointers -/

/-! ## The loops of the workers as lists of indices -/

/-- Run `body` on the indices of a list, in order, stopping at the first failure. -/
def runIdx {σ ε : Type} (body : Nat → σ → Except ε σ) : List Nat → σ → Except ε σ
  | [], s => .ok s
  | i :: l, s =>
    match body i s with
    | .ok s' => runIdx body l s'
    | .error e => .error e

/-- The indices `i, i + step, ..` below `bound` that a worker visits. -/
def strideIdx (step bound : Nat) : Nat → Nat → List Nat
  | 0, _ => []
  | fuel + 1, i => if i < bound then i :: strideIdx step bound fuel (i + step) else []

/-- The indices visited by the workers `0 .. nThreads-1`, worker after worker. -/
def allIdx (nThreads bound : Nat) : List Nat :=
  (List.range nThreads).flatMap fun w => strideIdx nThreads bound bound w

/-- The products of adjacent pairs of a level, an odd last element kept as it
is: the values of the level above. -/
def pairProducts : List Nat → List Nat
  | a :: b :: rest => a * b :: pairProducts rest
  | [a] => [a]
  | [] => []

/-- The values of the product tree, level by level: level `0` is the list of
moduli, level `l + 1` is `tree[l]`. -/
def levelValues (M : List Nat) (l : Nat) : List Nat :=
  pairProducts^[l] M

/-- The value of the node `i` of level `l` of the product tree (`1` outside the level). -/
def nodeValue (M : List Nat) (l i : Nat) : Nat :=
  (levelValues M l).getD i 1

/-- The size of level `l`: `len(moduli)` for level `0`. -/
def levelSize (M : List Nat) (l : Nat) : Nat :=
  (levelValues M l).length

/-- The number of levels of the tree that `SmoothPartsGCD` allocates. -/
def depth (M : List Nat) : Nat :=
  (makeTree M.length).length

/-- The pointer held by slot `i` of level `l`, where level `0` is `moduli` and
level `l + 1` is `tree[l]`. -/
def ptrAt (lv : List Slice) (l i : Nat) : Nat :=
  (((lv.getD l []).getD i none).getD 0)

/-- What the workers of `productTreeLevel` have built of level `L + 1` once
they have visited the indices of `D`, starting from the heap `h0`: the cells
of `h0` are untouched, and every visited slot holds a new cell with the
product of its two children. -/
structure BuildInv (M : List Nat) (L : Nat) (h0 : Heap) (D : Set Nat) (st : Heap × Slice) :
    Prop where
  len : st.2.length = levelSize M (L + 1)
  frame : ∀ q, q < h0.next → st.1.cells q = h0.cells q
  next_le : h0.next ≤ st.1.next
  fresh : ∀ i ∈ D, ∃ p, st.2[i]? = some (some p) ∧ h0.next ≤ p ∧ p < st.1.next ∧
    st.1.cells p = nodeValue M (L + 1) i
  inj : ∀ i ∈ D, ∀ j ∈ D, st.2[i]? = st.2[j]? → i = j

/-- The slice `input` holds level `L` in the heap `h0`. -/
def HoldsLevel (M : List Nat) (L : Nat) (h0 : Heap) (input : Slice) : Prop :=
  input.length = levelSize M L ∧
  ∀ j, j < levelSize M L → ∃ a, input[j]? = some (some a) ∧ a < h0.next ∧
    h0.cells a = nodeValue M L j

/-- The pointers of the levels `0 .. top` of `lv` (level `0` the moduli, level
`l + 1` the slice `tree[l]`): every slot holds a pointer; the slots of one level
hold different pointers; a pointer of a level occurs in the level above only as
the promoted odd last node; and a pointer that occurs in a higher level
occurs in every level between. -/
structure Layout (M : List Nat) (lv : List Slice) (top : Nat) : Prop where
  size : ∀ l, l ≤ top → (lv.getD l []).length = levelSize M l
  slot : ∀ l, l ≤ top → ∀ i, i < levelSize M l →
    (lv.getD l [])[i]? = some (some (ptrAt lv l i))
  inj : ∀ l, l ≤ top → ∀ i j, i < levelSize M l → j < levelSize M l →
    ptrAt lv l i = ptrAt lv l j → i = j
  adj : ∀ l, l < top → ∀ i k, i < levelSize M l → k < levelSize M (l + 1) →
    ptrAt lv l i = ptrAt lv (l + 1) k →
    i + 1 = levelSize M l ∧ k + 1 = levelSize M (l + 1) ∧ levelSize M l % 2 = 1
  chain : ∀ l l', l < l' → l' ≤ top → ∀ i k, i < levelSize M l → k < levelSize M l' →
    ptrAt lv l i = ptrAt lv l' k → ∃ k', k' < levelSize M (l + 1) ∧
      ptrAt lv l i = ptrAt lv (l + 1) k'
  promo : ∀ l, l < top → levelSize M l % 2 = 1 →
    ptrAt lv (l + 1) (levelSize M (l + 1) - 1) = ptrAt lv l (levelSize M l - 1)

/-- The state of the loop that creates the product tree when the levels
`0 .. L` (the moduli and `tree[0 .. L-1]`) are built: every node of these
levels holds the product of the moduli below it. -/
structure ProductInv (M : List Nat) (moduli : Slice) (L : Nat) (s : ProductState) : Prop where
  treeLen : s.tree.length = depth M
  treeSize : ∀ l, l < depth M → (s.tree.getD l []).length = levelSize M (l + 1)
  input : s.input = (moduli :: s.tree).getD L []
  layout : Layout M (moduli :: s.tree) L
  bound : ∀ l, l ≤ L → ∀ i, i < levelSize M l → ptrAt (moduli :: s.tree) l i < s.heap.next
  value : ∀ l, l ≤ L → ∀ i, i < levelSize M l →
    s.heap.cells (ptrAt (moduli :: s.tree) l i) = nodeValue M l i

/-- The slice `out` is level `L + 1` as built above level `L` of `lv`, from the
heap `h0` to the heap `h1`: a slot below `len(input) / 2` holds a new cell, the
slot of an odd last node holds the pointer of that node. -/
structure NewLevel (M : List Nat) (lv : List Slice) (L : Nat) (h0 h1 : Heap) (out : Slice) :
    Prop where
  len : out.length = levelSize M (L + 1)
  frame : ∀ q, q < h0.next → h1.cells q = h0.cells q
  next_le : h0.next ≤ h1.next
  node : ∀ i, i < levelSize M (L + 1) → ∃ p, out[i]? = some (some p) ∧ p < h1.next ∧
    h1.cells p = nodeValue M (L + 1) i ∧
    ((i < levelSize M L / 2 ∧ h0.next ≤ p) ∨
      (i = levelSize M L / 2 ∧ levelSize M L % 2 = 1 ∧ p = ptrAt lv L (levelSize M L - 1)))
  inj : ∀ i j, i < levelSize M L / 2 → j < levelSize M L / 2 → out[i]? = out[j]? → i = j

/-- The remainder a node holds after the descent: the product of all the
moduli modulo the square of the node of the product tree. -/
def remainderValue (M : List Nat) (l i : Nat) : Nat :=
  M.prod % (nodeValue M l i * nodeValue M l i)

/-- The only cause of an abort on moduli greater than one: a node whose
remainder is zero, that is, whose square divides the product of all the
moduli. -/
def AbortCause (M : List Nat) : Prop :=
  ∃ l i, l ≤ depth M ∧ i < levelSize M l ∧ remainderValue M l i = 0

/-- An odd last node of a level `l` from `lo` on, below the root, whose square
divides the product of all the moduli. The node is promoted by reference, so
the descent leaves the remainder zero in its cell when it handles the level
above, and the node is then used as a divisor. -/
def PromotedZero (M : List Nat) (lo : Nat) : Prop :=
  ∃ l, l < depth M ∧ lo ≤ l ∧ levelSize M l % 2 = 1 ∧
    remainderValue M l (levelSize M l - 1) = 0

instance (M : List Nat) (lo : Nat) : Decidable (PromotedZero M lo) := by
  unfold PromotedZero
  infer_instance

/-- The abort of a run on moduli greater than one: a division by zero, at a
promoted node of a level from `lo` on whose remainder is zero. -/
def ZeroDivisor (M : List Nat) (lo : Nat) (e : Panic) : Prop :=
  e = .divisionByZero ∧ PromotedZero M lo

/-- The memory during the remainder descent, when the levels above `L` are
done: their cells hold the remainders, and a cell of a lower level that no
pointer of a done level refers to still holds its product. -/
structure DescentInv (M : List Nat) (lv : List Slice) (L : Nat) (h : Heap) : Prop where
  done : ∀ l, L < l → l ≤ depth M → ∀ i, i < levelSize M l →
    h.cells (ptrAt lv l i) = remainderValue M l i
  todo : ∀ l, l ≤ L → ∀ i, i < levelSize M l →
    (∀ l', L < l' → l' ≤ depth M → ∀ k, k < levelSize M l' → ptrAt lv l' k ≠ ptrAt lv l i) →
    h.cells (ptrAt lv l i) = nodeValue M l i

/-- The memory while the workers of `remainderTreeLevel` are on level `L` and
have visited the indices of `D`. -/
structure DescentLevelInv (M : List Nat) (lv : List Slice) (L : Nat) (D : Set Nat) (h : Heap) :
    Prop where
  above : ∀ l, L < l → l ≤ depth M → ∀ i, i < levelSize M l →
    h.cells (ptrAt lv l i) = remainderValue M l i
  visited : ∀ i, i ∈ D → i < levelSize M L → h.cells (ptrAt lv L i) = remainderValue M L i
  rest : ∀ l, l ≤ L → ∀ i, i < levelSize M l → (l = L → i ∉ D) →
    (∀ l', L < l' → l' ≤ depth M → ∀ k, k < levelSize M l' → ptrAt lv l' k ≠ ptrAt lv l i) →
    (∀ j, j ∈ D → j < levelSize M L → ptrAt lv L j ≠ ptrAt lv l i) →
    h.cells (ptrAt lv l i) = nodeValue M l i

/-- The product of all the moduli but the one at index `i`. -/
def cofactor (M : List Nat) (i : Nat) : Nat :=
  (M.eraseIdx i).prod

/-- The record that the leaf step of a completed run sends for the index `i`:
none for an odd last modulus, whose cell the descent has overwritten, and
otherwise the gcd of the modulus with the product of the others, when that
gcd is not `1`. -/
def leafRecord (M : List Nat) (i : Nat) : Option Collision :=
  if M.length % 2 = 1 ∧ i + 1 = M.length then none
  else if Nat.gcd (M.getD i 0) (cofactor M i) ≠ 1 then
    some { Modulus := M.getD i 0, P := some (Nat.gcd (M.getD i 0) (cofactor M i)),
           Q := some (M.getD i 0 / Nat.gcd (M.getD i 0) (cofactor M i)) }
  else none

/-- No modulus of the list divides the product of the others. -/
def NoModulusDividesRest (M : List Nat) : Prop :=
  ∀ j, j < M.length → ¬ M.getD j 0 ∣ cofactor M j

/-- The record that reports the modulus at index `i` with the gcd it shares
with the product of the others. -/
def sharedRecord (M : List Nat) (i : Nat) : Collision :=
  { Modulus := M.getD i 0, P := some (Nat.gcd (M.getD i 0) (cofactor M i)),
    Q := some (M.getD i 0 / Nat.gcd (M.getD i 0) (cofactor M i)) }

/-- The canonical keys of a list of records. -/
def keys (out : List Collision) : List (Except Panic String) :=
  out.map Collision.String

/-- What every schedule keeps of the two loops that share the spilled moduli
`P0`: a record sent names a modulus after the first one; and either nothing
has been received from the spilled moduli yet, and then the leaf stage holds no
`y`, or what is left of them is an end of the moduli after the first one. -/
def RaceInv (P0 : List Nat) (s : RaceState) : Prop :=
  (∀ r ∈ s.out, r.Modulus ∈ P0.tail) ∧
  ((s.products = P0 ∧ s.pipe = [] ∧ (∀ y i, s.fin ≠ .recvModulus y i) ∧
      (s.rem = .recvY ∨ (∃ y, s.rem = .recvFirst y) ∨ s.rem = .finished)) ∨
    s.products <:+ P0.tail)

/-- What every schedule keeps when the input of the remainder stage is never
closed: no stage reaches its `close`. -/
def OpenInv (s : RaceState) : Prop :=
  s.inputClosed = false ∧ s.pipeClosed = false ∧ s.outClosed = false ∧
    s.rem ≠ .finished ∧ s.fin ≠ .finished

/-- The first occurrences by key of a list of records: the record at the index
`i` is kept when no record before it has its key. -/
def firstOccurrences (s : List Collision) : List Collision :=
  (List.range s.length).filterMap fun i =>
    match s[i]? with
    | some c => if c.String ∈ (s.take i).map Collision.String then none else some c
    | none => none

/-- A record with both factors or with none: `String` does not abort on it. -/
def Collision.WellFormed (c : Collision) : Prop :=
  c.P.isSome = c.Q.isSome

/-- The product of the moduli below the node `i` of level `l`, those at the
indices `i * 2^l .. (i + 1) * 2^l - 1`. -/
def subtreeProduct (M : List Nat) (l i : Nat) : Nat :=
  ((M.drop (i * 2 ^ l)).take (2 ^ l)).prod

/-! # Theorems -/

/-! ## Facts about `BitLen` -/

theorem bitLenAux_zero_iff (fuel n : Nat) (h : 0 < fuel) : bitLenAux fuel n = 0 ↔ n = 0 := by
  cases fuel with
  | zero => omega
  | succ f =>
    by_cases hn : n = 0 <;> simp [bitLenAux, hn]

theorem BitLen_eq_zero_iff (n : Nat) : BitLen n = 0 ↔ n = 0 := by
  unfold BitLen
  cases n with
  | zero => simp [bitLenAux]
  | succ k => simp [bitLenAux]

theorem BitLen_eq_one_iff (n : Nat) : BitLen n = 1 ↔ n = 1 := by
  unfold BitLen
  match n with
  | 0 => simp [bitLenAux]
  | 1 => simp [bitLenAux]
  | k + 2 =>
    have h1 : (k + 2) / 2 ≠ 0 := by omega
    simp [bitLenAux, h1]

/-! ## The accumulator engine -/

theorem mulAccumState_succ (M : List Nat) (k : Nat) :
    mulAccumState M (k + 1) = mulAccumStep M (mulAccumState M k) k := by
  simp [mulAccumState, List.range_succ, List.foldl_append]

/-- The records sent so far are never taken back. -/
theorem mulAccumStep_out_mono (M : List Nat) (st : Nat × List Collision) (i : Nat)
    (r : Collision) (hr : r ∈ st.2) : r ∈ (mulAccumStep M st i).2 := by
  unfold mulAccumStep GCD
  simp only
  split_ifs <;> simp [hr]

theorem mulAccumState_out_mono (M : List Nat) (r : Collision) (k k' : Nat) (hk : k ≤ k')
    (hr : r ∈ (mulAccumState M k).2) : r ∈ (mulAccumState M k').2 := by
  induction k' with
  | zero =>
    have : k = 0 := by omega
    subst this; exact hr
  | succ n ih =>
    by_cases h : k = n + 1
    · subst h; exact hr
    · rw [mulAccumState_succ]
      exact mulAccumStep_out_mono M _ n r (ih (by omega))

/-- Every modulus met so far divides the accumulator, whether or not it was
multiplied in. -/
theorem dvd_mulAccumState (M : List Nat) (k j : Nat) (hj : j < k) :
    M.getD j 0 ∣ (mulAccumState M k).1 := by
  induction k with
  | zero => omega
  | succ n ih =>
    rw [mulAccumState_succ]
    unfold mulAccumStep GCD
    simp only
    by_cases hjn : j = n
    · subst hjn
      split_ifs with h1 h2
      · rw [← h2]; exact Nat.gcd_dvd_left _ _
      · exact Dvd.intro_left _ rfl
      · exact Dvd.intro_left _ rfl
    · have := ih (by omega)
      split_ifs
      · exact this
      · exact Dvd.dvd.mul_right this _
      · exact Dvd.dvd.mul_right this _

/-- The rescan that iteration `j` launches when the gcd is the whole modulus. -/
theorem findGCD_sent (M : List Nat) (j : Nat) (hj : j < M.length)
    (h1 : Nat.gcd (mulAccumState M j).1 (M.getD j 0) = M.getD j 0)
    (h2 : M.getD j 0 ≠ 1) (r : Collision) (hr : r ∈ findGCD M j) : r ∈ MulAccumGCD M := by
  unfold MulAccumGCD
  apply mulAccumState_out_mono M r (j + 1) _ (by omega)
  rw [mulAccumState_succ]
  unfold mulAccumStep GCD
  simp only
  rw [h1]
  have : BitLen (M.getD j 0) ≠ 1 := by rw [Ne, BitLen_eq_one_iff]; exact h2
  rw [if_pos this, if_pos rfl]
  exact List.mem_append_right _ hr

/-- The rescan that iteration `j` launches when the gcd is a proper factor. -/
theorem findDivisors_sent (M : List Nat) (j : Nat) (hj : j < M.length)
    (h1 : Nat.gcd (mulAccumState M j).1 (M.getD j 0) ≠ M.getD j 0)
    (h2 : Nat.gcd (mulAccumState M j).1 (M.getD j 0) ≠ 1) (r : Collision)
    (hr : r ∈ findDivisors M j (Nat.gcd (mulAccumState M j).1 (M.getD j 0))) :
    r ∈ MulAccumGCD M := by
  unfold MulAccumGCD
  apply mulAccumState_out_mono M r (j + 1) _ (by omega)
  rw [mulAccumState_succ]
  unfold mulAccumStep GCD
  simp only
  have : BitLen (Nat.gcd (mulAccumState M j).1 (M.getD j 0)) ≠ 1 := by
    rw [Ne, BitLen_eq_one_iff]; exact h2
  rw [if_pos this, if_neg h1]
  exact List.mem_append_right _ hr

/-- Where a record of the accumulator engine comes from. -/
theorem mem_mulAccumState (M : List Nat) (k : Nat) (r : Collision)
    (hr : r ∈ (mulAccumState M k).2) :
    ∃ j, j < k ∧ (r ∈ findGCD M j ∨
      (Nat.gcd (mulAccumState M j).1 (M.getD j 0) ≠ M.getD j 0 ∧
       Nat.gcd (mulAccumState M j).1 (M.getD j 0) ≠ 1 ∧
       r ∈ findDivisors M j (Nat.gcd (mulAccumState M j).1 (M.getD j 0)))) := by
  induction k with
  | zero => simp [mulAccumState] at hr
  | succ n ih =>
    rw [mulAccumState_succ] at hr
    unfold mulAccumStep GCD at hr
    simp only at hr
    split_ifs at hr with h1 h2
    · rcases List.mem_append.1 hr with h | h
      · obtain ⟨j, hj, hh⟩ := ih h
        exact ⟨j, by omega, hh⟩
      · exact ⟨n, by omega, Or.inl h⟩
    · rcases List.mem_append.1 hr with h | h
      · obtain ⟨j, hj, hh⟩ := ih h
        exact ⟨j, by omega, hh⟩
      · refine ⟨n, by omega, Or.inr ⟨h2, ?_, h⟩⟩
        rw [Ne, ← BitLen_eq_one_iff]; exact h1
    · obtain ⟨j, hj, hh⟩ := ih hr
      exact ⟨j, by omega, hh⟩

theorem getD_mem (M : List Nat) (j : Nat) (hj : j < M.length) : M.getD j 0 ∈ M := by
  rw [List.getD_eq_getElem M 0 hj]
  exact List.getElem_mem hj

theorem Collision.Sound.test {r : Collision} (h : r.Sound) : r.Test = .ok true := by
  rcases h with ⟨hp, hq⟩ | ⟨p, q, hp, hq, hpq⟩
  · simp [Collision.Test, Collision.HavePrivate, hp, hq]
  · simp [Collision.Test, Collision.HavePrivate, hp, hq, hpq]

theorem findGCD_sound (M : List Nat) (i : Nat) (r : Collision) (hr : r ∈ findGCD M i) :
    r.Sound := by
  unfold findGCD GCD at hr
  simp only [List.mem_flatMap] at hr
  obtain ⟨j, _, hj⟩ := hr
  split_ifs at hj with h1 h2
  · rw [List.mem_singleton] at hj
    subst hj
    exact Or.inl ⟨rfl, rfl⟩
  · simp only [List.mem_cons, List.mem_singleton, List.not_mem_nil, or_false] at hj
    rcases hj with rfl | rfl
    · exact Or.inr ⟨_, _, rfl, rfl, Nat.mul_div_cancel' (Nat.gcd_dvd_left _ _)⟩
    · exact Or.inr ⟨_, _, rfl, rfl, Nat.mul_div_cancel' (Nat.gcd_dvd_right _ _)⟩
  · simp at hj

theorem findDivisors_sound (M : List Nat) (i g : Nat) (hg : g ∣ M.getD i 0) (r : Collision)
    (hr : r ∈ findDivisors M i g) : r.Sound := by
  unfold findDivisors at hr
  simp only [List.mem_cons, List.mem_flatMap] at hr
  rcases hr with rfl | ⟨j, _, hj⟩
  · exact Or.inr ⟨_, _, rfl, rfl, Nat.mul_div_cancel' hg⟩
  · split_ifs at hj with h1 h2 h3
    · simp at hj
    · rw [List.mem_singleton] at hj
      subst hj
      exact Or.inl ⟨rfl, rfl⟩
    · rw [List.mem_singleton] at hj
      subst hj
      rw [BitLen_eq_zero_iff] at h3
      exact Or.inr ⟨_, _, rfl, rfl, Nat.mul_div_cancel' (Nat.dvd_of_mod_eq_zero h3)⟩
    · simp at hj

theorem MulAccumGCD_sound (M : List Nat) (r : Collision) (hr : r ∈ MulAccumGCD M) :
    r.Sound := by
  obtain ⟨j, _, h | ⟨_, _, h⟩⟩ := mem_mulAccumState M _ r hr
  · exact findGCD_sound M j r h
  · exact findDivisors_sound M j _ (Nat.gcd_dvd_right _ _) r h

theorem TwoPrimes.one_lt {n : Nat} (h : TwoPrimes n) : 1 < n := by
  obtain ⟨p, q, hp, hq, _, rfl⟩ := h
  have := hp.two_le
  have := hq.two_le
  nlinarith

theorem TwoPrimes.not_prime {n : Nat} (h : TwoPrimes n) : ¬ Nat.Prime n := by
  obtain ⟨p, q, hp, hq, _, rfl⟩ := h
  exact Nat.not_prime_mul hp.ne_one hq.ne_one

/-- A divisor of a product of two primes that is neither `1` nor the product is
one of the two primes. -/
theorem TwoPrimes.prime_of_dvd {b g : Nat} (hb : TwoPrimes b) (hg : g ∣ b) (h1 : g ≠ 1)
    (h2 : g ≠ b) : Nat.Prime g := by
  obtain ⟨r, s, hr, hs, _, rfl⟩ := hb
  obtain ⟨k1, k2, hk1, hk2, rfl⟩ := (Nat.dvd_mul).1 hg
  rcases (Nat.dvd_prime hr).1 hk1 with rfl | rfl <;>
    rcases (Nat.dvd_prime hs).1 hk2 with rfl | rfl
  · simp at h1
  · simpa using hs
  · simpa using hr
  · exact absurd rfl h2

/-- Two different products of two distinct primes do not divide one another. -/
theorem TwoPrimes.not_dvd {a b : Nat} (ha : TwoPrimes a) (hb : TwoPrimes b) (hne : a ≠ b) :
    ¬ a ∣ b := by
  intro hab
  obtain ⟨p, q, hp, hq, hpq, rfl⟩ := ha
  obtain ⟨r, s, hr, hs, _, rfl⟩ := hb
  have hp' : p = r ∨ p = s := by
    rcases (Nat.Prime.dvd_mul hp).1 (Dvd.dvd.trans (Dvd.intro _ rfl) hab) with h | h
    · exact Or.inl ((Nat.prime_dvd_prime_iff_eq hp hr).1 h)
    · exact Or.inr ((Nat.prime_dvd_prime_iff_eq hp hs).1 h)
  have hq' : q = r ∨ q = s := by
    rcases (Nat.Prime.dvd_mul hq).1 (Dvd.dvd.trans (Dvd.intro_left _ rfl) hab) with h | h
    · exact Or.inl ((Nat.prime_dvd_prime_iff_eq hq hr).1 h)
    · exact Or.inr ((Nat.prime_dvd_prime_iff_eq hq hs).1 h)
  rcases hp' with rfl | rfl <;> rcases hq' with rfl | rfl
  · exact hpq rfl
  · exact hne rfl
  · exact hne (Nat.mul_comm _ _)
  · exact hpq rfl

theorem gcd_lt_of_not_dvd {a b : Nat} (ha : 0 < a) (h : ¬ a ∣ b) : Nat.gcd a b < a := by
  have h1 : Nat.gcd a b ≤ a := Nat.le_of_dvd ha (Nat.gcd_dvd_left a b)
  rcases Nat.lt_or_ge (Nat.gcd a b) a with h2 | h2
  · exact h2
  · exfalso
    apply h
    have : Nat.gcd a b = a := le_antisymm h1 h2
    rw [← this]
    exact Nat.gcd_dvd_right a b

theorem MulAccumGCD_complete_lt (M : List Nat) (hM : ∀ m ∈ M, TwoPrimes m) (i j : Nat)
    (hij : i < j) (hj : j < M.length) (hne : M.getD i 0 ≠ M.getD j 0)
    (hg : 1 < Nat.gcd (M.getD i 0) (M.getD j 0)) :
    ProperlyFactored (MulAccumGCD M) (M.getD i 0) ∧
      ProperlyFactored (MulAccumGCD M) (M.getD j 0) := by
  have hi : i < M.length := by omega
  have ha : TwoPrimes (M.getD i 0) := hM _ (getD_mem M i hi)
  have hb : TwoPrimes (M.getD j 0) := hM _ (getD_mem M j hj)
  generalize hA : M.getD i 0 = a at *
  generalize hB : M.getD j 0 = b at *
  have hapos : 0 < a := by have := ha.one_lt; omega
  have hbpos : 0 < b := by have := hb.one_lt; omega
  have hacc : a ∣ (mulAccumState M j).1 := by
    rw [← hA]; exact dvd_mulAccumState M j i hij
  have hdg : Nat.gcd a b ∣ Nat.gcd (mulAccumState M j).1 b :=
    Nat.dvd_gcd (Dvd.dvd.trans (Nat.gcd_dvd_left a b) hacc) (Nat.gcd_dvd_right a b)
  by_cases hgb : Nat.gcd (mulAccumState M j).1 b = b
  · -- the whole modulus divides the accumulator: the prefix scan meets index `i`
    have hd1 : 1 < Nat.gcd b a := by rw [Nat.gcd_comm]; exact hg
    have hdb : Nat.gcd b a < b := gcd_lt_of_not_dvd hbpos (hb.not_dvd ha (Ne.symm hne))
    have hda : Nat.gcd b a < a := by
      rw [Nat.gcd_comm]; exact gcd_lt_of_not_dvd hapos (ha.not_dvd hb hne)
    have hsent : ∀ r, r ∈ findGCD M j → r ∈ MulAccumGCD M := fun r hr =>
      findGCD_sent M j hj (by rw [hB]; exact hgb) (by rw [hB]; omega) r hr
    have hmem : ∀ r, r ∈ [({ Modulus := b, P := some (Nat.gcd b a), Q := some (b / Nat.gcd b a) } : Collision),
        { Modulus := a, P := some (Nat.gcd b a), Q := some (a / Nat.gcd b a) }] →
        r ∈ findGCD M j := by
      intro r hr
      unfold findGCD GCD
      simp only [List.mem_flatMap]
      refine ⟨i, by rw [List.mem_range]; omega, ?_⟩
      rw [hA, hB, if_neg hne, if_pos]
      · exact hr
      · rw [Ne, BitLen_eq_one_iff]; omega
    constructor
    · refine ⟨_, hsent _ (hmem _ (List.mem_cons_of_mem _ (List.mem_singleton.2 rfl))), rfl,
        _, _, rfl, rfl, Nat.mul_div_cancel' (Nat.gcd_dvd_right _ _), hd1, hda⟩
    · refine ⟨_, hsent _ (hmem _ (List.mem_cons_self _ _)), rfl,
        _, _, rfl, rfl, Nat.mul_div_cancel' (Nat.gcd_dvd_left _ _), hd1, hdb⟩
  · -- a proper factor: the full scan meets index `i`
    generalize hG : Nat.gcd (mulAccumState M j).1 b = g at *
    have hgdvd : g ∣ b := by rw [← hG]; exact Nat.gcd_dvd_right _ _
    have hg1 : g ≠ 1 := by
      rintro rfl
      have := Nat.eq_one_of_dvd_one hdg
      omega
    have hgprime : Nat.Prime g := hb.prime_of_dvd hgdvd hg1 hgb
    have hdeq : Nat.gcd a b = g := by
      rcases (Nat.dvd_prime hgprime).1 hdg with h | h
      · omega
      · exact h
    have hga : g ∣ a := by rw [← hdeq]; exact Nat.gcd_dvd_left a b
    have hgltb : g < b := lt_of_le_of_ne (Nat.le_of_dvd hbpos hgdvd) hgb
    have hglta : g < a := by
      refine lt_of_le_of_ne (Nat.le_of_dvd hapos hga) ?_
      rintro rfl
      exact ha.not_prime hgprime
    have hsent : ∀ r, r ∈ findDivisors M j g → r ∈ MulAccumGCD M := by
      intro r hr
      apply findDivisors_sent M j hj (by rw [hB, hG]; exact hgb) (by rw [hB, hG]; exact hg1) r
      rw [hB, hG]; exact hr
    constructor
    · refine ⟨{ Modulus := a, P := some g, Q := some (a / g) }, hsent _ ?_, rfl,
        _, _, rfl, rfl, Nat.mul_div_cancel' hga, hgprime.one_lt, hglta⟩
      unfold findDivisors
      simp only [List.mem_cons, List.mem_flatMap]
      right
      refine ⟨i, by rw [List.mem_range]; omega, ?_⟩
      rw [if_neg (by omega), hA, hB, if_neg hne, if_pos]
      · exact List.mem_singleton.2 rfl
      · rw [BitLen_eq_zero_iff]; exact Nat.mod_eq_zero_of_dvd hga
    · refine ⟨{ Modulus := b, P := some g, Q := some (b / g) }, hsent _ ?_, rfl,
        _, _, rfl, rfl, Nat.mul_div_cancel' hgdvd, hgprime.one_lt, hgltb⟩
      unfold findDivisors
      rw [hB]
      exact List.mem_cons_self _ _

/-! ## Reasoning about the loops of the workers -/

theorem bind_eq_ok {ε α β : Type} {x : Except ε α} {f : α → Except ε β} {b : β} :
    (x >>= f) = .ok b ↔ ∃ a, x = .ok a ∧ f a = .ok b := by
  cases x with
  | error e => simp [bind, Except.bind]
  | ok a => simp [bind, Except.bind]

theorem strideLoop_outcome {σ ε : Type} (body : Nat → σ → Except ε σ) (step bound : Nat)
    (E : ε → Prop) (I : σ → Prop) (hbody : ∀ i s, I s → Outcome E I (body i s)) :
    ∀ fuel i s, I s → Outcome E I (strideLoop body step bound fuel i s) := by
  intro fuel
  induction fuel with
  | zero => intro i s hs; exact hs
  | succ f ih =>
    intro i s hs
    unfold strideLoop
    split_ifs with h
    · have := hbody i s hs
      cases hb : body i s with
      | ok s' => rw [hb] at this; exact ih _ _ this
      | error e => rw [hb] at this; exact this
    · exact hs

theorem workers_outcome {σ ε : Type} (worker : Nat → Nat → σ → Except ε σ) (nThreads : Nat)
    (E : ε → Prop) (I : σ → Prop)
    (hworker : ∀ start s, I s → Outcome E I (worker start nThreads s)) :
    ∀ ws s, I s → Outcome E I (workers worker nThreads ws s) := by
  intro ws
  induction ws with
  | nil => intro s hs; exact hs
  | cons w rest ih =>
    intro s hs
    unfold workers
    have := hworker w s hs
    cases hb : worker w nThreads s with
    | ok s' => rw [hb] at this; exact ih _ this
    | error e => rw [hb] at this; exact this

theorem Rem_eq_ok {a b r : Nat} (h : Rem a b = .ok r) : b ≠ 0 ∧ r = a % b := by
  unfold Rem at h
  split_ifs at h with hb
  exact ⟨hb, by injection h with h; exact h.symm⟩

theorem Quo_eq_ok {a b r : Nat} (h : Quo a b = .ok r) : b ≠ 0 ∧ r = a / b := by
  unfold Quo at h
  split_ifs at h with hb
  exact ⟨hb, by injection h with h; exact h.symm⟩

theorem leafStep_leaf (h : Heap) (lastLevel moduli : Slice) (i : Nat) (c : Collision)
    (hc : leafStep h lastLevel moduli i = .ok (some c)) : c.Leaf := by
  unfold leafStep GCD at hc
  simp only [bind_eq_ok] at hc
  obtain ⟨modulus, _, y, _, m, _, yv, _, t1, ht1, t2, _, hc⟩ := hc
  split_ifs at hc with hb
  · simp only [bind_eq_ok] at hc
    obtain ⟨q, hq, hc⟩ := hc
    obtain ⟨hm2, _⟩ := Rem_eq_ok ht1
    obtain ⟨hg0, rfl⟩ := Quo_eq_ok hq
    have hm : 0 < m := by
      rcases Nat.eq_zero_or_pos m with h0 | h0
      · subst h0; simp at hm2
      · exact h0
    have hg1 : Nat.gcd t2 m ≠ 1 := by rw [Ne, ← BitLen_eq_one_iff]; exact hb
    have hgd : Nat.gcd t2 m ∣ m := Nat.gcd_dvd_right _ _
    have hgle : Nat.gcd t2 m ≤ m := Nat.le_of_dvd hm hgd
    have hgt : 1 < Nat.gcd t2 m := by omega
    simp only [pure, Except.pure, Except.ok.injEq, Option.some.injEq] at hc
    subst hc
    refine ⟨_, _, rfl, rfl, Nat.mul_div_cancel' hgd, hgt, hgle, ?_, ?_⟩
    · exact Nat.div_pos hgle (by omega)
    · exact Nat.div_lt_self hm hgt
  · simp [pure, Except.pure] at hc

/-- Every record `SmoothPartsGCD` sends, in a run that completes or in one
that aborts, comes from the leaf step. -/
theorem SmoothPartsGCD_run_leaf (nThreads : Nat) (h : Heap) (moduli : Slice) (r : Collision)
    (hr : r ∈ (SmoothPartsGCD.run nThreads h moduli).out) : r.Leaf := by
  unfold SmoothPartsGCD.run at hr
  split_ifs at hr with hlen
  · simp at hr
  · split at hr
    · simp at hr
    · rename_i h' tree _
      split at hr
      · simp at hr
      · rename_i lastLevel _
        have key := workers_outcome (remainderTreeFinal h' lastLevel moduli) nThreads
          (fun e => ∀ r ∈ e.2, r.Leaf) (fun out => ∀ r ∈ out, r.Leaf)
          (by
            intro start s0 hs0
            unfold remainderTreeFinal
            apply strideLoop_outcome _ _ _ _ _ _ _ _ _ hs0
            intro i s hs
            unfold remainderTreeFinalBody
            cases hl : leafStep h' lastLevel moduli i with
            | error e => exact hs
            | ok o =>
              cases o with
              | none => exact hs
              | some c =>
                intro r hr
                rcases List.mem_append.1 hr with h1 | h1
                · exact hs r h1
                · rw [List.mem_singleton] at h1
                  subst h1
                  exact leafStep_leaf _ _ _ _ _ hl)
          (List.range nThreads) [] (by simp)
        split at hr
        · rename_i out heq
          rw [heq] at key
          exact key r hr
        · rename_i e out heq
          rw [heq] at key
          exact key r hr

/-! ## The smooth-parts engine -/

theorem runIdx_append {σ ε : Type} (body : Nat → σ → Except ε σ) (l₁ l₂ : List Nat) (s : σ) :
    runIdx body (l₁ ++ l₂) s =
      match runIdx body l₁ s with
      | .ok s' => runIdx body l₂ s'
      | .error e => .error e := by
  induction l₁ generalizing s with
  | nil => rfl
  | cons i l ih =>
    simp only [List.cons_append, runIdx]
    cases body i s with
    | ok s' => exact ih s'
    | error e => rfl

theorem strideLoop_eq_runIdx {σ ε : Type} (body : Nat → σ → Except ε σ) (step bound : Nat) :
    ∀ fuel i s, strideLoop body step bound fuel i s =
      runIdx body (strideIdx step bound fuel i) s := by
  intro fuel
  induction fuel with
  | zero => intro i s; rfl
  | succ f ih =>
    intro i s
    unfold strideLoop strideIdx
    split_ifs with h
    · simp only [runIdx]
      cases body i s with
      | ok s' => exact ih _ _
      | error e => rfl
    · rfl

theorem workers_eq_runIdx {σ ε : Type} (worker : Nat → Nat → σ → Except ε σ)
    (body : Nat → σ → Except ε σ) (nThreads bound : Nat)
    (hworker : ∀ start s, worker start nThreads s =
      strideLoop body nThreads bound bound start s) :
    ∀ ws s, workers worker nThreads ws s =
      runIdx body (ws.flatMap fun w => strideIdx nThreads bound bound w) s := by
  intro ws
  induction ws with
  | nil => intro s; rfl
  | cons w rest ih =>
    intro s
    unfold workers
    rw [List.flatMap_cons, runIdx_append, hworker, strideLoop_eq_runIdx]
    cases runIdx body (strideIdx nThreads bound bound w) s with
    | ok s' => exact ih s'
    | error e => rfl

theorem le_of_mem_strideIdx (step bound : Nat) :
    ∀ fuel i j, j ∈ strideIdx step bound fuel i → i ≤ j ∧ j < bound ∧ ∃ k, j = i + k * step := by
  intro fuel
  induction fuel with
  | zero => intro i j h; simp [strideIdx] at h
  | succ f ih =>
    intro i j h
    unfold strideIdx at h
    split_ifs at h with hb
    · rcases List.mem_cons.1 h with rfl | h
      · exact ⟨le_refl _, hb, 0, by simp⟩
      · obtain ⟨h1, h2, k, hk⟩ := ih _ _ h
        exact ⟨by omega, h2, k + 1, by rw [hk]; ring⟩
    · simp at h

/-- With a positive step, `bound - i` iterations reach every index of the
stride: the fuel is not exhausted before the loop condition fails. -/
theorem mem_strideIdx (step bound : Nat) (hstep : 0 < step) :
    ∀ fuel i j, bound - i ≤ fuel → j < bound → (∃ k, j = i + k * step) →
      j ∈ strideIdx step bound fuel i := by
  intro fuel
  induction fuel with
  | zero =>
    intro i j hf hj hk
    obtain ⟨k, rfl⟩ := hk
    omega
  | succ f ih =>
    intro i j hf hj hk
    obtain ⟨k, rfl⟩ := hk
    unfold strideIdx
    have hi : i < bound := by omega
    rw [if_pos hi]
    cases k with
    | zero => simp
    | succ k =>
      apply List.mem_cons_of_mem
      apply ih
      · omega
      · exact hj
      · exact ⟨k, by ring⟩

theorem nodup_strideIdx (step bound : Nat) (hstep : 0 < step) :
    ∀ fuel i, (strideIdx step bound fuel i).Nodup := by
  intro fuel
  induction fuel with
  | zero => intro i; simp [strideIdx]
  | succ f ih =>
    intro i
    unfold strideIdx
    split_ifs with hb
    · rw [List.nodup_cons]
      refine ⟨?_, ih _⟩
      intro h
      have := (le_of_mem_strideIdx step bound f (i + step) i h).1
      omega
    · simp

theorem mem_allIdx (nThreads bound : Nat) (hK : 0 < nThreads) (j : Nat) :
    j ∈ allIdx nThreads bound ↔ j < bound := by
  unfold allIdx
  rw [List.mem_flatMap]
  constructor
  · rintro ⟨w, _, hw⟩
    exact (le_of_mem_strideIdx _ _ _ _ _ hw).2.1
  · intro hj
    refine ⟨j % nThreads, List.mem_range.2 (Nat.mod_lt _ hK), ?_⟩
    apply mem_strideIdx nThreads bound hK bound _ _ (by omega) hj
    exact ⟨j / nThreads, by rw [Nat.mul_comm]; exact (Nat.mod_add_div j nThreads).symm⟩

theorem nodup_allIdx (nThreads bound : Nat) (hK : 0 < nThreads) :
    (allIdx nThreads bound).Nodup := by
  unfold allIdx
  rw [List.nodup_flatMap]
  refine ⟨fun w _ => nodup_strideIdx _ _ hK _ _, ?_⟩
  apply List.Pairwise.imp_of_mem _ (List.nodup_range nThreads)
  intro w w' hw hw' hne
  intro j hj hj'
  obtain ⟨_, _, k, hk⟩ := le_of_mem_strideIdx _ _ _ _ _ hj
  obtain ⟨_, _, k', hk'⟩ := le_of_mem_strideIdx _ _ _ _ _ hj'
  rw [List.mem_range] at hw hw'
  apply hne
  have h1 : j % nThreads = w := by rw [hk, Nat.add_mul_mod_self_right, Nat.mod_eq_of_lt hw]
  have h2 : j % nThreads = w' := by rw [hk', Nat.add_mul_mod_self_right, Nat.mod_eq_of_lt hw']
  omega

/-- The workers of one phase together run the body once on every index below
the bound. -/
theorem workers_eq (σ ε : Type) (worker : Nat → Nat → σ → Except ε σ)
    (body : Nat → σ → Except ε σ) (nThreads bound : Nat)
    (hworker : ∀ start s, worker start nThreads s =
      strideLoop body nThreads bound bound start s) (s : σ) :
    workers worker nThreads (List.range nThreads) s =
      runIdx body (allIdx nThreads bound) s :=
  workers_eq_runIdx worker body nThreads bound hworker _ s

theorem length_pairProducts : ∀ l : List Nat, (pairProducts l).length = (l.length + 1) / 2
  | [] => by simp [pairProducts]
  | [_] => by simp [pairProducts]
  | a :: b :: rest => by
    simp only [pairProducts, List.length_cons, length_pairProducts rest]
    omega

theorem getD_pairProducts : ∀ (l : List Nat) (i : Nat),
    (pairProducts l).getD i 1 = l.getD (2 * i) 1 * l.getD (2 * i + 1) 1
  | [], i => by simp [pairProducts]
  | [a], i => by
    cases i with
    | zero => simp [pairProducts]
    | succ k => simp [pairProducts, Nat.mul_succ]
  | a :: b :: rest, i => by
    cases i with
    | zero => simp [pairProducts]
    | succ k =>
      have := getD_pairProducts rest k
      simp only [pairProducts, List.getD_cons_succ, Nat.mul_succ]
      exact this

theorem prod_pairProducts : ∀ l : List Nat, (pairProducts l).prod = l.prod
  | [] => rfl
  | [_] => rfl
  | a :: b :: rest => by
    simp only [pairProducts, List.prod_cons, prod_pairProducts rest, Nat.mul_assoc]

theorem one_lt_pairProducts : ∀ l : List Nat, (∀ x ∈ l, 1 < x) → ∀ x ∈ pairProducts l, 1 < x
  | [], _ => by simp [pairProducts]
  | [a], h => by simpa [pairProducts] using h
  | a :: b :: rest, h => by
    intro x hx
    simp only [pairProducts, List.mem_cons] at hx
    rcases hx with rfl | hx
    · have ha := h a (by simp)
      have hb := h b (by simp)
      nlinarith
    · exact one_lt_pairProducts rest (fun y hy => h y (by simp [hy])) x hx

theorem levelValues_succ (M : List Nat) (l : Nat) :
    levelValues M (l + 1) = pairProducts (levelValues M l) := by
  unfold levelValues
  rw [Function.iterate_succ_apply']

theorem levelSize_zero (M : List Nat) : levelSize M 0 = M.length := rfl

theorem levelSize_succ (M : List Nat) (l : Nat) :
    levelSize M (l + 1) = (levelSize M l + 1) / 2 := by
  unfold levelSize
  rw [levelValues_succ, length_pairProducts]

theorem prod_levelValues (M : List Nat) (l : Nat) : (levelValues M l).prod = M.prod := by
  induction l with
  | zero => rfl
  | succ k ih => rw [levelValues_succ, prod_pairProducts, ih]

theorem one_lt_levelValues (M : List Nat) (hM : ∀ m ∈ M, 1 < m) (l : Nat) :
    ∀ x ∈ levelValues M l, 1 < x := by
  induction l with
  | zero => exact hM
  | succ k ih => rw [levelValues_succ]; exact one_lt_pairProducts _ ih

theorem nodeValue_succ (M : List Nat) (l i : Nat) :
    nodeValue M (l + 1) i = nodeValue M l (2 * i) * nodeValue M l (2 * i + 1) := by
  unfold nodeValue
  rw [levelValues_succ, getD_pairProducts]

theorem nodeValue_of_le (M : List Nat) (l i : Nat) (h : levelSize M l ≤ i) :
    nodeValue M l i = 1 := by
  unfold nodeValue
  exact List.getD_eq_default _ _ h

theorem one_lt_nodeValue (M : List Nat) (hM : ∀ m ∈ M, 1 < m) (l i : Nat)
    (h : i < levelSize M l) : 1 < nodeValue M l i := by
  unfold nodeValue
  rw [List.getD_eq_getElem _ _ h]
  exact one_lt_levelValues M hM l _ (List.getElem_mem h)

/-- A node divides its parent. -/
theorem nodeValue_dvd_parent (M : List Nat) (l i : Nat) :
    nodeValue M l i ∣ nodeValue M (l + 1) (i / 2) := by
  rw [nodeValue_succ]
  rcases Nat.mod_two_eq_zero_or_one i with h | h
  · have : 2 * (i / 2) = i := by omega
    rw [this]; exact Dvd.intro _ rfl
  · have : 2 * (i / 2) + 1 = i := by omega
    rw [this]; exact Dvd.intro_left _ rfl

/-- Every node divides the product of all the moduli. -/
theorem nodeValue_dvd_prod (M : List Nat) (l i : Nat) : nodeValue M l i ∣ M.prod := by
  by_cases h : i < levelSize M l
  · unfold nodeValue
    rw [List.getD_eq_getElem _ _ h, ← prod_levelValues M l]
    exact List.dvd_prod (List.getElem_mem h)
  · rw [nodeValue_of_le M l i (by omega)]
    exact one_dvd _

theorem runIdx_outcome {σ ε : Type} (body : Nat → σ → Except ε σ) (E : ε → Prop)
    (I : Set Nat → σ → Prop) :
    ∀ (l : List Nat) (D : Set Nat) (s : σ), l.Nodup → (∀ i ∈ l, i ∉ D) → I D s →
      (∀ D' i s', I D' s' → i ∈ l → i ∉ D' → Outcome E (I (insert i D')) (body i s')) →
      Outcome E (I (D ∪ {i | i ∈ l})) (runIdx body l s) := by
  intro l
  induction l with
  | nil =>
    intro D s _ _ hI _
    have : D ∪ {i | i ∈ ([] : List Nat)} = D := by ext x; simp
    rw [this]
    exact hI
  | cons i l ih =>
    intro D s hnd hD hI hstep
    rw [List.nodup_cons] at hnd
    have hb := hstep D i s hI (List.mem_cons_self _ _) (hD i (List.mem_cons_self _ _))
    unfold runIdx
    cases hbody : body i s with
    | error e => rw [hbody] at hb; exact hb
    | ok s' =>
      rw [hbody] at hb
      have := ih (insert i D) s' hnd.2
        (by
          intro j hj hjD
          rcases hjD with rfl | hjD
          · exact hnd.1 hj
          · exact hD j (List.mem_cons_of_mem _ hj) hjD)
        hb
        (fun D' j s'' hI' hj hjD => hstep D' j s'' hI' (List.mem_cons_of_mem _ hj) hjD)
      have heq : insert i D ∪ {j | j ∈ l} = D ∪ {j | j ∈ i :: l} := by
        ext x
        simp only [Set.mem_union, Set.mem_insert_iff, Set.mem_setOf_eq, List.mem_cons]
        tauto
      rw [heq] at this
      exact this

/-- The outcome of the workers of one phase, from what one iteration does to
an invariant indexed by the set of the indices already visited. -/
theorem workers_outcome_set {σ ε : Type} (worker : Nat → Nat → σ → Except ε σ)
    (body : Nat → σ → Except ε σ) (E : ε → Prop)
    (I : Set Nat → σ → Prop) (nThreads bound : Nat) (hK : 0 < nThreads)
    (hworker : ∀ start s, worker start nThreads s =
      strideLoop body nThreads bound bound start s) (s : σ) (h0 : I ∅ s)
    (hstep : ∀ D i s', I D s' → i < bound → i ∉ D → Outcome E (I (insert i D)) (body i s')) :
    Outcome E (I {i | i < bound}) (workers worker nThreads (List.range nThreads) s) := by
  rw [workers_eq σ ε worker body nThreads bound hworker]
  have := runIdx_outcome body E I (allIdx nThreads bound) ∅ s (nodup_allIdx _ _ hK)
    (by simp) h0
    (fun D' i s' hI hi hD => hstep D' i s' hI ((mem_allIdx _ _ hK i).1 hi) hD)
  have heq : (∅ : Set Nat) ∪ {i | i ∈ allIdx nThreads bound} = {i | i < bound} := by
    ext x
    simp [mem_allIdx _ _ hK]
  rw [heq] at this
  exact this

theorem index_eq_ok {α : Type} (s : List α) (i : Nat) (a : α) :
    index s i = .ok a ↔ s[i]? = some a := by
  unfold index
  rw [List.get?_eq_getElem?]
  cases h : s[i]? with
  | none => simp
  | some b => simp

theorem index_of_getElem? {α : Type} {s : List α} {i : Nat} {a : α} (h : s[i]? = some a) :
    index s i = .ok a := (index_eq_ok s i a).2 h

theorem assign_eq_ok {α : Type} (s : List α) (i : Nat) (a : α) (h : i < s.length) :
    assign s i a = .ok (s.set i a) := by
  unfold assign
  rw [if_pos h]

theorem levelSizes_spec (M : List Nat) :
    ∀ fuel l, 1 ≤ levelSize M l → levelSize M l ≤ fuel →
      1 ≤ (levelSizes fuel (levelSize M l)).length ∧
      (∀ k, k < (levelSizes fuel (levelSize M l)).length →
        (levelSizes fuel (levelSize M l)).getD k 0 = levelSize M (l + k)) ∧
      levelSize M (l + (levelSizes fuel (levelSize M l)).length - 1) = 1 := by
  intro fuel
  induction fuel with
  | zero => intro l h1 h2; omega
  | succ f ih =>
    intro l h1 h2
    unfold levelSizes
    by_cases hm : levelSize M l = 1
    · rw [if_pos hm]
      refine ⟨by simp, ?_, ?_⟩
      · intro k hk
        simp only [List.length_singleton, Nat.lt_one_iff] at hk
        subst hk
        simp [hm]
      · simpa using hm
    · rw [if_neg hm, ← levelSize_succ]
      have h3 : 1 ≤ levelSize M (l + 1) := by rw [levelSize_succ]; omega
      have h4 : levelSize M (l + 1) ≤ f := by rw [levelSize_succ]; omega
      obtain ⟨_, hb, hc⟩ := ih (l + 1) h3 h4
      refine ⟨by simp, ?_, ?_⟩
      · intro k hk
        cases k with
        | zero => simp
        | succ k =>
          simp only [List.length_cons, Nat.add_lt_add_iff_right] at hk
          rw [List.getD_cons_succ, hb k hk]
          congr 1
          omega
      · simp only [List.length_cons]
        have : l + ((levelSizes f (levelSize M (l + 1))).length + 1) - 1 =
            l + 1 + (levelSizes f (levelSize M (l + 1))).length - 1 := by omega
        rw [this]
        exact hc

/-- The tree as allocated has `depth M >= 1` levels, level `l` has the size of
level `l + 1` of the values, and the top level has one node. -/
theorem makeTree_spec (M : List Nat) (hn : 2 ≤ M.length) :
    1 ≤ depth M ∧
    (∀ l, l < depth M → ((makeTree M.length).getD l []).length = levelSize M (l + 1)) ∧
    levelSize M (depth M) = 1 := by
  have h1 : levelSize M 1 = (M.length + 1) / 2 := by rw [levelSize_succ, levelSize_zero]
  have hs := levelSizes_spec M (levelSize M 1) 1 (by rw [h1]; omega) (le_refl _)
  have hd : depth M = (levelSizes (levelSize M 1) (levelSize M 1)).length := by
    unfold depth makeTree
    rw [List.length_map, h1]
  obtain ⟨ha, hb, hc⟩ := hs
  refine ⟨by omega, ?_, ?_⟩
  · intro l hl
    unfold makeTree
    rw [← h1]
    rw [hd] at hl
    have hl' : l < (List.map (fun n => List.replicate n (none : Option Nat))
        (levelSizes (levelSize M 1) (levelSize M 1))).length := by
      rw [List.length_map]; exact hl
    rw [List.getD_eq_getElem _ _ hl', List.getElem_map, List.length_replicate]
    have := hb l hl
    rw [List.getD_eq_getElem _ _ hl] at this
    rw [this, Nat.add_comm]
  · rw [hd]
    have : 1 + (levelSizes (levelSize M 1) (levelSize M 1)).length - 1 =
        (levelSizes (levelSize M 1) (levelSize M 1)).length := by omega
    rw [this] at hc
    exact hc

theorem productTreeBody_spec (M : List Nat) (L : Nat) (h0 : Heap) (input : Slice)
    (hin : HoldsLevel M L h0 input) (D : Set Nat) (st : Heap × Slice)
    (hI : BuildInv M L h0 D st) (i : Nat) (hi : i < levelSize M L / 2) (hD : i ∉ D) :
    Outcome (fun _ => False) (BuildInv M L h0 (insert i D)) (productTreeBody input i st) := by
  obtain ⟨a, ha, ha1, ha2⟩ := hin.2 (i * 2) (by omega)
  obtain ⟨b, hb, hb1, hb2⟩ := hin.2 (i * 2 + 1) (by omega)
  have hlen : i < st.2.length := by rw [hI.len, levelSize_succ]; omega
  have e : productTreeBody input i st =
      .ok ((st.1.alloc (st.1.cells a * st.1.cells b)).1,
        st.2.set i (some (st.1.alloc (st.1.cells a * st.1.cells b)).2)) := by
    unfold productTreeBody
    simp only [index_of_getElem? ha, index_of_getElem? hb, Heap.load, assign_eq_ok _ _ _ hlen,
      bind, Except.bind, pure, Except.pure]
  rw [e]
  have hnext : (st.1.alloc (st.1.cells a * st.1.cells b)).2 = st.1.next := rfl
  have hcells : ∀ q, q ≠ st.1.next →
      (st.1.alloc (st.1.cells a * st.1.cells b)).1.cells q = st.1.cells q := by
    intro q hq
    simp [Heap.alloc, Function.update_noteq hq]
  have hcell : (st.1.alloc (st.1.cells a * st.1.cells b)).1.cells st.1.next =
      st.1.cells a * st.1.cells b := by
    simp [Heap.alloc]
  have hn : (st.1.alloc (st.1.cells a * st.1.cells b)).1.next = st.1.next + 1 := rfl
  have hle := hI.next_le
  refine ⟨?_, ?_, ?_, ?_, ?_⟩
  · simp only [List.length_set]; exact hI.len
  · intro q hq
    simp only
    rw [hcells q (by omega)]
    exact hI.frame q hq
  · simp only; rw [hn]; omega
  · intro j hj
    simp only
    rcases hj with rfl | hj
    · refine ⟨st.1.next, ?_, hle, by rw [hn]; omega, ?_⟩
      · rw [hnext, List.getElem?_set_self hlen]
      · rw [hcell, hI.frame a ha1, hI.frame b hb1, ha2, hb2, nodeValue_succ, Nat.mul_comm 2 j]
    · obtain ⟨p, hp, hp1, hp2, hp3⟩ := hI.fresh j hj
      have hne : i ≠ j := by rintro rfl; exact hD hj
      refine ⟨p, ?_, hp1, by rw [hn]; omega, ?_⟩
      · rw [List.getElem?_set_ne hne]; exact hp
      · rw [hcells p (by omega)]; exact hp3
  · intro j hj k hk hjk
    simp only at hjk
    rcases hj with rfl | hj <;> rcases hk with rfl | hk
    · rfl
    · exfalso
      obtain ⟨p, hp, _, hp2, _⟩ := hI.fresh k hk
      have hne : j ≠ k := by rintro rfl; exact hD hk
      rw [List.getElem?_set_self hlen, List.getElem?_set_ne hne, hp, hnext] at hjk
      simp only [Option.some.injEq] at hjk
      omega
    · exfalso
      obtain ⟨p, hp, _, hp2, _⟩ := hI.fresh j hj
      have hne : k ≠ j := by rintro rfl; exact hD hj
      rw [List.getElem?_set_self hlen, List.getElem?_set_ne hne, hp, hnext] at hjk
      simp only [Option.some.injEq] at hjk
      omega
    · have hne1 : i ≠ j := by rintro rfl; exact hD hj
      have hne2 : i ≠ k := by rintro rfl; exact hD hk
      rw [List.getElem?_set_ne hne1, List.getElem?_set_ne hne2] at hjk
      exact hI.inj j hj k hk hjk

theorem getD_set_self (t : List Slice) (L : Nat) (o : Slice) (h : L < t.length) :
    (t.set L o).getD L [] = o := by
  rw [List.getD_eq_getElem?_getD, List.getElem?_set_self h]
  rfl

theorem getD_set_ne (t : List Slice) (L l : Nat) (o : Slice) (h : L ≠ l) :
    (t.set L o).getD l [] = t.getD l [] := by
  rw [List.getD_eq_getElem?_getD, List.getD_eq_getElem?_getD, List.getElem?_set_ne h]

theorem ptrAt_of_getElem? (lv : List Slice) (l i p : Nat)
    (h : (lv.getD l [])[i]? = some (some p)) : ptrAt lv l i = p := by
  unfold ptrAt
  rw [List.getD_eq_getElem?_getD, h]
  rfl

theorem ptrAt_congr (lv lv' : List Slice) (l : Nat) (h : lv'.getD l [] = lv.getD l []) (i : Nat) :
    ptrAt lv' l i = ptrAt lv l i := by
  unfold ptrAt
  rw [h]

theorem ok_of_outcome {σ ε : Type} {I : σ → Prop} {x : Except ε σ}
    (h : Outcome (fun _ => False) I x) : ∃ s, x = .ok s ∧ I s := by
  cases x with
  | error e => exact absurd h id
  | ok s => exact ⟨s, rfl, h⟩

theorem holdsLevel_of_inv (M : List Nat) (moduli : Slice) (L : Nat) (s : ProductState)
    (hP : ProductInv M moduli L s) : HoldsLevel M L s.heap s.input := by
  constructor
  · rw [hP.input]; exact hP.layout.size L (le_refl _)
  · intro j hj
    refine ⟨ptrAt (moduli :: s.tree) L j, ?_, hP.bound L (le_refl _) j hj,
      hP.value L (le_refl _) j hj⟩
    rw [hP.input]
    exact hP.layout.slot L (le_refl _) j hj

/-- The workers of `productTreeLevel` fill every slot below `len(input) / 2`
and do not abort. -/
theorem productWorkers_spec (M : List Nat) (moduli : Slice) (L : Nat) (s : ProductState)
    (hP : ProductInv M moduli L s) (hL : L < depth M) (nThreads : Nat) (hK : 0 < nThreads) :
    ∃ r, workers (productTreeLevel s.input) nThreads
        (List.range nThreads) (s.heap, s.tree.getD L []) = .ok r ∧
      BuildInv M L s.heap {i | i < levelSize M L / 2} r := by
  have hin := holdsLevel_of_inv M moduli L s hP
  apply ok_of_outcome
  apply workers_outcome_set (productTreeLevel s.input) (productTreeBody s.input)
    (fun _ => False) (fun D st => BuildInv M L s.heap D st) nThreads (levelSize M L / 2) hK
  · intro start st
    unfold productTreeLevel
    rw [hin.1]
  · exact ⟨hP.treeSize L hL, fun _ _ => rfl, le_refl _, fun i hi => absurd hi (by simp),
      fun i hi => absurd hi (by simp)⟩
  · intro D i st hI hi hD
    exact productTreeBody_spec M L s.heap s.input hin D st hI i hi hD

theorem promoteLast_spec (M : List Nat) (moduli : Slice) (L : Nat) (s : ProductState)
    (hP : ProductInv M moduli L s) (r : Heap × Slice)
    (hr : BuildInv M L s.heap {i | i < levelSize M L / 2} r) :
    ∃ out, promoteLast s.input r.2 = .ok out ∧
      NewLevel M (moduli :: s.tree) L s.heap r.1 out := by
  have hin := holdsLevel_of_inv M moduli L s hP
  have hsz := levelSize_succ M L
  by_cases hodd : levelSize M L % 2 = 1
  · -- an odd level: the last pointer is copied into the last slot
    have hlast : levelSize M L - 1 < levelSize M L := by omega
    have hslot := hP.layout.slot L (le_refl _) _ hlast
    rw [← hP.input] at hslot
    have hlen : r.2.length - 1 < r.2.length := by rw [hr.len, hsz]; omega
    have e : promoteLast s.input r.2 =
        .ok (r.2.set (r.2.length - 1) (some (ptrAt (moduli :: s.tree) L (levelSize M L - 1)))) := by
      unfold promoteLast
      rw [hin.1, if_pos hodd]
      have hne : r.2.length ≠ 0 := by omega
      simp only [index_of_getElem? hslot, bind, Except.bind, if_neg hne,
        assign_eq_ok _ _ _ hlen]
    refine ⟨_, e, ?_, hr.frame, hr.next_le, ?_, ?_⟩
    · rw [List.length_set]; exact hr.len
    · intro i hi
      by_cases hfr : i < levelSize M L / 2
      · obtain ⟨p, hp, hp1, hp2, hp3⟩ := hr.fresh i hfr
        refine ⟨p, ?_, hp2, hp3, Or.inl ⟨hfr, hp1⟩⟩
        rw [List.getElem?_set_ne (by rw [hr.len, hsz]; omega)]
        exact hp
      · have hi' : i = levelSize M L / 2 := by omega
        have hidx : r.2.length - 1 = i := by rw [hr.len, hsz]; omega
        refine ⟨ptrAt (moduli :: s.tree) L (levelSize M L - 1), ?_, ?_, ?_,
          Or.inr ⟨hi', hodd, rfl⟩⟩
        · rw [hidx, List.getElem?_set_self (by rw [hr.len]; exact hi)]
        · exact lt_of_lt_of_le (hP.bound L (le_refl _) _ hlast) hr.next_le
        · rw [hr.frame _ (hP.bound L (le_refl _) _ hlast), hP.value L (le_refl _) _ hlast,
            nodeValue_succ]
          have h1 : 2 * i = levelSize M L - 1 := by omega
          rw [h1, nodeValue_of_le M L (levelSize M L - 1 + 1) (by omega), Nat.mul_one]
    · intro i j hi hj hij
      rw [List.getElem?_set_ne (by rw [hr.len, hsz]; omega),
        List.getElem?_set_ne (by rw [hr.len, hsz]; omega)] at hij
      exact hr.inj i hi j hj hij
  · -- an even level: nothing to promote
    have e : promoteLast s.input r.2 = .ok r.2 := by
      unfold promoteLast
      rw [hin.1, if_neg hodd]
    refine ⟨_, e, hr.len, hr.frame, hr.next_le, ?_, fun i j hi hj => hr.inj i hi j hj⟩
    intro i hi
    have hfr : i < levelSize M L / 2 := by omega
    obtain ⟨p, hp, hp1, hp2, hp3⟩ := hr.fresh i hfr
    exact ⟨p, hp, hp2, hp3, Or.inl ⟨hfr, hp1⟩⟩

/-- Storing the level built above level `L` keeps the invariant of the
product-tree loop, one level higher. -/
theorem productInv_step (M : List Nat) (moduli : Slice) (L : Nat) (s : ProductState)
    (hP : ProductInv M moduli L s) (hL : L < depth M) (h1 : Heap) (out : Slice)
    (hN : NewLevel M (moduli :: s.tree) L s.heap h1 out) :
    ProductInv M moduli (L + 1) { heap := h1, tree := s.tree.set L out, input := out } := by
  have hLt : L < s.tree.length := by rw [hP.treeLen]; exact hL
  have hnew : (moduli :: s.tree.set L out).getD (L + 1) [] = out := by
    rw [List.getD_cons_succ]; exact getD_set_self _ _ _ hLt
  have hlow : ∀ l, l ≤ L → (moduli :: s.tree.set L out).getD l [] = (moduli :: s.tree).getD l [] := by
    intro l hl
    cases l with
    | zero => rfl
    | succ k =>
      rw [List.getD_cons_succ, List.getD_cons_succ]
      exact getD_set_ne _ _ _ _ (by omega)
  have hplow : ∀ l, l ≤ L → ∀ i, ptrAt (moduli :: s.tree.set L out) l i =
      ptrAt (moduli :: s.tree) l i := fun l hl i => ptrAt_congr _ _ l (hlow l hl) i
  have hpnew : ∀ i p, out[i]? = some (some p) →
      ptrAt (moduli :: s.tree.set L out) (L + 1) i = p := by
    intro i p hp
    apply ptrAt_of_getElem?
    rw [hnew]; exact hp
  have hsz := levelSize_succ M L
  -- a pointer of the new level that is below the old frontier is the promoted one
  have hold : ∀ k, k < levelSize M (L + 1) →
      ptrAt (moduli :: s.tree.set L out) (L + 1) k < s.heap.next →
      k = levelSize M L / 2 ∧ levelSize M L % 2 = 1 ∧
        ptrAt (moduli :: s.tree.set L out) (L + 1) k =
          ptrAt (moduli :: s.tree) L (levelSize M L - 1) := by
    intro k hk hlt
    obtain ⟨p, hp, _, _, hcase⟩ := hN.node k hk
    rw [hpnew k p hp] at hlt ⊢
    rcases hcase with ⟨_, hge⟩ | ⟨h1, h2, h3⟩
    · omega
    · exact ⟨h1, h2, h3⟩
  refine ⟨?_, ?_, ?_, ⟨?_, ?_, ?_, ?_, ?_, ?_⟩, ?_, ?_⟩
  · simp only [List.length_set]; exact hP.treeLen
  · intro l hl
    simp only
    by_cases h : L = l
    · subst h; rw [getD_set_self _ _ _ hLt]; exact hN.len
    · rw [getD_set_ne _ _ _ _ h]; exact hP.treeSize l hl
  · exact hnew.symm
  · -- size
    intro l hl
    simp only
    rcases Nat.lt_or_ge l (L + 1) with h | h
    · rw [hlow l (by omega)]; exact hP.layout.size l (by omega)
    · have : l = L + 1 := by omega
      subst this; rw [hnew]; exact hN.len
  · -- slot
    intro l hl i hi
    simp only
    rcases Nat.lt_or_ge l (L + 1) with h | h
    · rw [hlow l (by omega), hplow l (by omega)]
      exact hP.layout.slot l (by omega) i hi
    · have : l = L + 1 := by omega
      subst this
      obtain ⟨p, hp, _⟩ := hN.node i hi
      rw [hnew, hpnew i p hp]; exact hp
  · -- inj
    intro l hl i j hi hj hij
    simp only at hij
    rcases Nat.lt_or_ge l (L + 1) with h | h
    · rw [hplow l (by omega), hplow l (by omega)] at hij
      exact hP.layout.inj l (by omega) i j hi hj hij
    · have : l = L + 1 := by omega
      subst this
      obtain ⟨p, hp, _, _, hcp⟩ := hN.node i hi
      obtain ⟨q, hq, _, _, hcq⟩ := hN.node j hj
      rw [hpnew i p hp, hpnew j q hq] at hij
      subst hij
      have hb := hP.bound L (le_refl _) (levelSize M L - 1)
      rcases hcp with ⟨hi1, hi2⟩ | ⟨hi1, hi2, hi3⟩ <;>
        rcases hcq with ⟨hj1, hj2⟩ | ⟨hj1, hj2, hj3⟩
      · exact hN.inj i j hi1 hj1 (by rw [hp, hq])
      · have := hb (by omega); omega
      · have := hb (by omega); omega
      · omega
  · -- adj
    intro l hl i k hi hk hik
    simp only at hik
    rcases Nat.lt_or_ge l L with h | h
    · rw [hplow l (by omega), hplow (l + 1) (by omega)] at hik
      exact hP.layout.adj l h i k hi hk hik
    · have : l = L := by omega
      subst this
      rw [hplow l (le_refl _)] at hik
      have hlt := hP.bound l (le_refl _) i hi
      rw [hik] at hlt
      obtain ⟨hk1, hk2, hk3⟩ := hold k hk hlt
      rw [hk3] at hik
      have := hP.layout.inj l (le_refl _) i (levelSize M l - 1) hi (by omega) hik
      omega
  · -- chain
    intro l l' hll hl' i k hi hk hik
    simp only at hik ⊢
    rcases Nat.lt_or_ge l' (L + 1) with h | h
    · rw [hplow l (by omega), hplow l' (by omega)] at hik
      obtain ⟨k', hk', hkk⟩ := hP.layout.chain l l' hll (by omega) i k hi hk hik
      exact ⟨k', hk', by rw [hplow l (by omega), hplow (l + 1) (by omega)]; exact hkk⟩
    · have : l' = L + 1 := by omega
      subst this
      rcases Nat.lt_or_ge l L with h2 | h2
      · rw [hplow l (by omega)] at hik
        have hlt := hP.bound l (by omega) i hi
        rw [hik] at hlt
        obtain ⟨_, hk2, hk3⟩ := hold k hk hlt
        rw [hk3] at hik
        obtain ⟨k', hk', hkk⟩ := hP.layout.chain l L h2 (le_refl _) i (levelSize M L - 1) hi
          (by omega) hik
        exact ⟨k', hk', by rw [hplow l (by omega), hplow (l + 1) (by omega)]; exact hkk⟩
      · have : l = L := by omega
        subst this
        exact ⟨k, hk, hik⟩
  · -- promo
    intro l hl hodd
    simp only
    rcases Nat.lt_or_ge l L with h | h
    · rw [hplow l (by omega), hplow (l + 1) (by omega)]
      exact hP.layout.promo l h hodd
    · have : l = L := by omega
      subst this
      rw [hplow l (le_refl _)]
      obtain ⟨p, hp, _, _, hcase⟩ := hN.node (levelSize M (l + 1) - 1) (by omega)
      rw [hpnew _ p hp]
      rcases hcase with ⟨h1, _⟩ | ⟨_, _, h3⟩
      · omega
      · exact h3
  · -- bound
    intro l hl i hi
    simp only
    rcases Nat.lt_or_ge l (L + 1) with h | h
    · rw [hplow l (by omega)]
      exact lt_of_lt_of_le (hP.bound l (by omega) i hi) hN.next_le
    · have : l = L + 1 := by omega
      subst this
      obtain ⟨p, hp, hp1, _⟩ := hN.node i hi
      rw [hpnew i p hp]; exact hp1
  · -- value
    intro l hl i hi
    simp only
    rcases Nat.lt_or_ge l (L + 1) with h | h
    · rw [hplow l (by omega), hN.frame _ (hP.bound l (by omega) i hi)]
      exact hP.value l (by omega) i hi
    · have : l = L + 1 := by omega
      subst this
      obtain ⟨p, hp, _, hp2, _⟩ := hN.node i hi
      rw [hpnew i p hp]; exact hp2

/-- One iteration of the loop that creates the product tree does not abort
and builds one more level. -/
theorem productLevel_spec (M : List Nat) (moduli : Slice) (L : Nat) (s : ProductState)
    (hP : ProductInv M moduli L s) (hL : L < depth M) (nThreads : Nat) (hK : 0 < nThreads) :
    ∃ s', productLevel nThreads L s = .ok s' ∧ ProductInv M moduli (L + 1) s' := by
  have hLt : L < s.tree.length := by rw [hP.treeLen]; exact hL
  obtain ⟨r, hr, hB⟩ := productWorkers_spec M moduli L s hP hL nThreads hK
  obtain ⟨out, ho, hN⟩ := promoteLast_spec M moduli L s hP r hB
  have hidx : index s.tree L = .ok (s.tree.getD L []) := by
    apply index_of_getElem?
    rw [List.getD_eq_getElem _ _ hLt]
    exact List.getElem?_eq_getElem hLt
  refine ⟨{ heap := r.1, tree := s.tree.set L out, input := out }, ?_,
    productInv_step M moduli L s hP hL r.1 out hN⟩
  unfold productLevel
  simp only [hidx, hr, ho, assign_eq_ok _ _ _ hLt, bind, Except.bind, pure, Except.pure]

theorem getElem?_loadModuli (M : List Nat) (i : Nat) (hi : i < M.length) :
    (loadModuli M).2[i]? = some (some i) := by
  unfold loadModuli
  simp only [List.getElem?_map, List.getElem?_range hi, Option.map_some']

theorem length_loadModuli (M : List Nat) : (loadModuli M).2.length = M.length := by
  simp [loadModuli]

/-- The memory a caller hands over holds level `0`. -/
theorem productInv_init (M : List Nat) (hn : 2 ≤ M.length) :
    ProductInv M (loadModuli M).2 0
      { heap := (loadModuli M).1, tree := makeTree M.length, input := (loadModuli M).2 } := by
  have hp : ∀ i, i < M.length →
      ptrAt ((loadModuli M).2 :: makeTree M.length) 0 i = i := fun i hi =>
    ptrAt_of_getElem? _ 0 i i (getElem?_loadModuli M i hi)
  refine ⟨rfl, (makeTree_spec M hn).2.1, rfl, ⟨?_, ?_, ?_, ?_, ?_, ?_⟩, ?_, ?_⟩
  · intro l hl
    have : l = 0 := by omega
    subst this
    exact length_loadModuli M
  · intro l hl i hi
    have : l = 0 := by omega
    subst this
    rw [levelSize_zero] at hi
    rw [hp i hi]
    exact getElem?_loadModuli M i hi
  · intro l hl i j hi hj hij
    have : l = 0 := by omega
    subst this
    rw [levelSize_zero] at hi hj
    rw [hp i hi, hp j hj] at hij
    exact hij
  · intro l hl; omega
  · intro l l' hll hl'; omega
  · intro l hl; omega
  · intro l hl i hi
    have : l = 0 := by omega
    subst this
    rw [levelSize_zero] at hi
    rw [hp i hi]
    exact hi
  · intro l hl i hi
    have : l = 0 := by omega
    subst this
    rw [levelSize_zero] at hi
    rw [hp i hi]
    show M.getD i 0 = (levelValues M 0).getD i 1
    show M.getD i 0 = M.getD i 1
    rw [List.getD_eq_getElem _ _ hi, List.getD_eq_getElem _ _ hi]

theorem productLevels_spec (M : List Nat) (moduli : Slice) (nThreads : Nat) (hK : 0 < nThreads) :
    ∀ k L s, L + k = depth M → ProductInv M moduli L s →
      ∃ s', productLevels nThreads (List.range' L k) s = .ok s' ∧
        ProductInv M moduli (depth M) s' := by
  intro k
  induction k with
  | zero =>
    intro L s hL hP
    have : L = depth M := by omega
    subst this
    exact ⟨s, rfl, hP⟩
  | succ k ih =>
    intro L s hL hP
    obtain ⟨s1, h1, hP1⟩ := productLevel_spec M moduli L s hP (by omega) nThreads hK
    obtain ⟨s2, h2, hP2⟩ := ih (L + 1) s1 (by omega) hP1
    refine ⟨s2, ?_, hP2⟩
    rw [List.range'_succ]
    unfold productLevels
    rw [h1]
    exact h2

/-- The product-tree phase does not abort, and it leaves every node of every
level holding the product of the moduli below it. -/
theorem productPhase_spec (M : List Nat) (hn : 2 ≤ M.length) (nThreads : Nat)
    (hK : 0 < nThreads) :
    ∃ s, productLevels nThreads (List.range (makeTree (loadModuli M).2.length).length)
        { heap := (loadModuli M).1, tree := makeTree (loadModuli M).2.length,
          input := (loadModuli M).2 } = .ok s ∧
      ProductInv M (loadModuli M).2 (depth M) s := by
  rw [length_loadModuli, List.range_eq_range']
  exact productLevels_spec M _ nThreads hK (depth M) 0 _ (by unfold depth; omega)
    (productInv_init M hn)

theorem store_self (h : Heap) (p : Nat) : h.store p (h.cells p) = h := by
  unfold Heap.store
  rw [Function.update_eq_self]

theorem store_cells_ne (h : Heap) (p q v : Nat) (hne : q ≠ p) :
    (h.store p v).cells q = h.cells q := by
  unfold Heap.store
  simp [Function.update_noteq hne]

theorem store_cells_self (h : Heap) (p v : Nat) : (h.store p v).cells p = v := by
  unfold Heap.store
  simp

/-- A remainder is a multiple of its node, so it is `0` or at least `2`. -/
theorem remainderValue_cases (M : List Nat) (hM : ∀ m ∈ M, 1 < m) (l i : Nat)
    (hi : i < levelSize M l) :
    remainderValue M l i = 0 ∨ 2 ≤ remainderValue M l i := by
  have h1 := one_lt_nodeValue M hM l i hi
  have hd : nodeValue M l i ∣ remainderValue M l i := by
    unfold remainderValue
    exact (Nat.dvd_mod_iff (Dvd.intro _ rfl)).2 (nodeValue_dvd_prod M l i)
  rcases Nat.eq_zero_or_pos (remainderValue M l i) with h | h
  · exact Or.inl h
  · have := Nat.le_of_dvd h hd
    exact Or.inr (by omega)

theorem mod_self_mul_self (r : Nat) (h : 2 ≤ r) : r % (r * r) = r := by
  apply Nat.mod_eq_of_lt
  nlinarith

/-- The remainder of a child, from the remainder of its parent. -/
theorem remainderValue_child (M : List Nat) (l i : Nat) :
    remainderValue M (l + 1) (i / 2) % (nodeValue M l i * nodeValue M l i) =
      remainderValue M l i := by
  unfold remainderValue
  exact Nat.mod_mod_of_dvd _ (Nat.mul_dvd_mul (nodeValue_dvd_parent M l i)
    (nodeValue_dvd_parent M l i))

/-- A promoted odd last node has the value of the node it is promoted from. -/
theorem nodeValue_promoted (M : List Nat) (l i k : Nat) (hi : i + 1 = levelSize M l)
    (hk : k + 1 = levelSize M (l + 1)) (hodd : levelSize M l % 2 = 1) :
    nodeValue M (l + 1) k = nodeValue M l i := by
  rw [levelSize_succ] at hk
  rw [nodeValue_succ, nodeValue_of_le M l (2 * k + 1) (by omega), Nat.mul_one]
  congr 1
  omega

theorem remainderTreeBody_eq (prevLevel thisLevel : Slice) (i p q : Nat) (h : Heap)
    (hx : thisLevel[i]? = some (some p)) (hy : prevLevel[i / 2]? = some (some q)) :
    remainderTreeBody prevLevel thisLevel i h =
      if h.cells p * h.cells p = 0 then .error .divisionByZero
      else .ok (h.store p (h.cells q % (h.cells p * h.cells p))) := by
  unfold remainderTreeBody
  simp only [index_of_getElem? hx, index_of_getElem? hy, Heap.load, Rem, deref, bind,
    Except.bind, pure, Except.pure]
  split_ifs <;> rfl

/-- One iteration of `remainderTreeLevel` on a node not visited yet: it aborts
on a zero remainder, or the node holds its remainder and the rest of the
memory keeps its meaning. -/
theorem remainderTreeBody_spec (M : List Nat) (hM : ∀ m ∈ M, 1 < m) (lv : List Slice) (L : Nat)
    (hL : L < depth M) (hlay : Layout M lv (depth M)) (D : Set Nat) (h : Heap)
    (hI : DescentLevelInv M lv L D h) (i : Nat) (hi : i < levelSize M L) (hD : i ∉ D) :
    Outcome (ZeroDivisor M L) (DescentLevelInv M lv L (insert i D))
      (remainderTreeBody (lv.getD (L + 1) []) (lv.getD L []) i h) := by
  have hk : i / 2 < levelSize M (L + 1) := by rw [levelSize_succ]; omega
  rw [remainderTreeBody_eq _ _ i (ptrAt lv L i) (ptrAt lv (L + 1) (i / 2)) h
    (hlay.slot L (by omega) i hi) (hlay.slot (L + 1) (by omega) (i / 2) hk)]
  by_cases halias : ∃ l', L < l' ∧ l' ≤ depth M ∧ ∃ k, k < levelSize M l' ∧
      ptrAt lv l' k = ptrAt lv L i
  · -- the node is a promoted one, already written through the level above
    obtain ⟨l', hl1, hl2, k, hk1, hk2⟩ := halias
    obtain ⟨k', hk', hkk⟩ := hlay.chain L l' hl1 hl2 i k hi hk1 hk2.symm
    obtain ⟨e1, e2, e3⟩ := hlay.adj L hL i k' hi hk' hkk
    have hik : i / 2 = k' := by rw [levelSize_succ] at e2; omega
    have hval : h.cells (ptrAt lv L i) = remainderValue M L i := by
      rw [hkk, hI.above (L + 1) (by omega) (by omega) k' hk']
      unfold remainderValue
      rw [nodeValue_promoted M L i k' e1 e2 e3]
    by_cases hz : h.cells (ptrAt lv L i) * h.cells (ptrAt lv L i) = 0
    · rw [if_pos hz]
      rw [hval] at hz
      have hidx : levelSize M L - 1 = i := by omega
      exact ⟨rfl, L, hL, le_refl _, e3, by rw [hidx]; exact mul_self_eq_zero.1 hz⟩
    · rw [if_neg hz]
      show DescentLevelInv M lv L (insert i D) _
      have hr2 : 2 ≤ remainderValue M L i := by
        rcases remainderValue_cases M hM L i hi with h0 | h2
        · rw [hval, h0] at hz; simp at hz
        · exact h2
      rw [hik, ← hkk, hval, mod_self_mul_self _ hr2, ← hval, store_self]
      refine ⟨hI.above, ?_, ?_⟩
      · intro j hj hj'
        rcases hj with rfl | hj
        · exact hval
        · exact hI.visited j hj hj'
      · intro l hl j hj h1 h2 h3
        exact hI.rest l hl j hj (fun e he => h1 e (Or.inr he)) h2
          (fun j' hj' => h3 j' (Or.inr hj'))
  · -- the node still holds its product
    have hno : ∀ l', L < l' → l' ≤ depth M → ∀ k, k < levelSize M l' →
        ptrAt lv l' k ≠ ptrAt lv L i := by
      intro l' h1 h2 k h3 h4
      exact halias ⟨l', h1, h2, k, h3, h4⟩
    have hinj : ∀ j, j ∈ D → j < levelSize M L → ptrAt lv L j ≠ ptrAt lv L i := by
      intro j hj hj' he
      have := hlay.inj L (by omega) j i hj' hi he
      subst this
      exact hD hj
    have hval : h.cells (ptrAt lv L i) = nodeValue M L i :=
      hI.rest L (le_refl _) i hi (fun _ => hD) hno hinj
    have hpar : h.cells (ptrAt lv (L + 1) (i / 2)) = remainderValue M (L + 1) (i / 2) :=
      hI.above (L + 1) (by omega) (by omega) (i / 2) hk
    have hnz : nodeValue M L i * nodeValue M L i ≠ 0 := by
      have := one_lt_nodeValue M hM L i hi
      positivity
    rw [hval, hpar, remainderValue_child, if_neg hnz]
    refine ⟨?_, ?_, ?_⟩
    · intro l hl hl' j hj
      rw [store_cells_ne _ _ _ _ (hno l hl hl' j hj)]
      exact hI.above l hl hl' j hj
    · intro j hj hj'
      rcases hj with rfl | hj
      · exact store_cells_self _ _ _
      · rw [store_cells_ne _ _ _ _ (hinj j hj hj')]
        exact hI.visited j hj hj'
    · intro l hl j hj h1 h2 h3
      have hne : ptrAt lv l j ≠ ptrAt lv L i := fun e => h3 i (Or.inl rfl) hi e.symm
      rw [store_cells_ne _ _ _ _ hne]
      exact hI.rest l hl j hj (fun e he => h1 e (Or.inr he)) h2
        (fun j' hj' => h3 j' (Or.inr hj'))

theorem Outcome.imp {σ ε : Type} {E E' : ε → Prop} {I I' : σ → Prop} {x : Except ε σ}
    (h : Outcome E I x) (hE : ∀ e, E e → E' e) (hI : ∀ s, I s → I' s) : Outcome E' I' x := by
  cases x with
  | error e => exact hE e h
  | ok s => exact hI s h

theorem ZeroDivisor.mono (M : List Nat) {lo lo' : Nat} (h : lo' ≤ lo) {e : Panic}
    (he : ZeroDivisor M lo e) : ZeroDivisor M lo' e := by
  obtain ⟨h1, l, h2, h3, h4⟩ := he
  exact ⟨h1, l, h2, by omega, h4⟩

theorem index_getD (t : List Slice) (l : Nat) (h : l < t.length) :
    index t l = .ok (t.getD l []) := by
  apply index_of_getElem?
  rw [List.getD_eq_getElem _ _ h]
  exact List.getElem?_eq_getElem h

/-- One iteration of the loop that creates the remainder tree: it aborts, or
one more level is done. -/
theorem remainderLevel_spec (M : List Nat) (hM : ∀ m ∈ M, 1 < m) (moduli : Slice)
    (tree : List Slice) (hlen : tree.length = depth M)
    (hlay : Layout M (moduli :: tree) (depth M)) (nThreads : Nat) (hK : 0 < nThreads)
    (t : Nat) (ht : t + 1 < depth M) (h : Heap)
    (hI : DescentInv M (moduli :: tree) (t + 1) h) :
    Outcome (ZeroDivisor M 1) (DescentInv M (moduli :: tree) t)
      (remainderLevel nThreads tree t h) := by
  unfold remainderLevel
  have hsz : (tree.getD t []).length = levelSize M (t + 1) :=
    hlay.size (t + 1) (by omega)
  have key := workers_outcome_set (remainderTreeLevel tree t)
    (remainderTreeBody ((moduli :: tree).getD (t + 1 + 1) []) ((moduli :: tree).getD (t + 1) []))
    (ZeroDivisor M 1) (fun D h' => DescentLevelInv M (moduli :: tree) (t + 1) D h')
    nThreads (levelSize M (t + 1)) hK
    (by
      intro start h'
      unfold remainderTreeLevel
      simp only [index_getD tree (t + 1) (by omega), index_getD tree t (by omega), bind,
        Except.bind, hsz]
      rfl)
    h
    ⟨hI.done, fun i hi => absurd hi (by simp),
      fun l hl i hi _ h2 _ => hI.todo l hl i hi h2⟩
    (fun D i h' hI' hi hD =>
      Outcome.imp (remainderTreeBody_spec M hM (moduli :: tree) (t + 1) ht hlay D h' hI' i hi hD)
        (fun _ he => ZeroDivisor.mono M (by omega) he) (fun _ hs => hs))
  refine Outcome.imp key (fun _ hc => hc) ?_
  intro h' hI'
  refine ⟨?_, ?_⟩
  · intro l hl hl' i hi
    rcases Nat.lt_or_ge (t + 1) l with h1 | h1
    · exact hI'.above l h1 hl' i hi
    · have : l = t + 1 := by omega
      subst this
      exact hI'.visited i hi hi
  · intro l hl i hi hno
    exact hI'.rest l (by omega) i hi (fun e => by omega)
      (fun l' h1 h2 k hk => hno l' (by omega) h2 k hk)
      (fun j _ hj => hno (t + 1) (by omega) (by omega) j hj)

theorem remainderLevels_spec (M : List Nat) (hM : ∀ m ∈ M, 1 < m) (moduli : Slice)
    (tree : List Slice) (hlen : tree.length = depth M)
    (hlay : Layout M (moduli :: tree) (depth M)) (nThreads : Nat) (hK : 0 < nThreads) :
    ∀ k h, k + 1 ≤ depth M → DescentInv M (moduli :: tree) k h →
      Outcome (ZeroDivisor M 1) (DescentInv M (moduli :: tree) 0)
        (remainderLevels nThreads tree (List.range k).reverse h) := by
  intro k
  induction k with
  | zero => intro h _ hI; exact hI
  | succ k ih =>
    intro h hk hI
    rw [List.range_succ, List.reverse_append, List.reverse_singleton, List.singleton_append]
    unfold remainderLevels
    have := remainderLevel_spec M hM moduli tree hlen hlay nThreads hK k (by omega) h hI
    cases hr : remainderLevel nThreads tree k h with
    | error e => rw [hr] at this; exact this
    | ok h' =>
      rw [hr] at this
      exact ih h' (by omega) this

theorem nodeValue_root (M : List Nat) (l : Nat) (h : levelSize M l = 1) :
    nodeValue M l 0 = M.prod := by
  unfold levelSize at h
  obtain ⟨x, hx⟩ := List.length_eq_one.1 h
  unfold nodeValue
  rw [← prod_levelValues M l, hx]
  simp

theorem one_lt_prod (M : List Nat) (hn : 2 ≤ M.length) (hM : ∀ m ∈ M, 1 < m) : 1 < M.prod := by
  have hd := (makeTree_spec M hn).2.2
  rw [← nodeValue_root M (depth M) hd]
  exact one_lt_nodeValue M hM _ 0 (by omega)

/-- When the product tree is built, the root is done. -/
theorem descentInv_init (M : List Nat) (hn : 2 ≤ M.length) (hM : ∀ m ∈ M, 1 < m)
    (moduli : Slice) (s : ProductState) (hP : ProductInv M moduli (depth M) s) :
    DescentInv M (moduli :: s.tree) (depth M - 1) s.heap := by
  have hd := makeTree_spec M hn
  refine ⟨?_, ?_⟩
  · intro l hl hl' i hi
    have : l = depth M := by omega
    subst this
    rw [hd.2.2] at hi
    have : i = 0 := by omega
    subst this
    rw [hP.value _ (le_refl _) 0 (by omega)]
    unfold remainderValue
    rw [nodeValue_root M _ hd.2.2]
    have := one_lt_prod M hn hM
    exact (mod_self_mul_self _ (by omega)).symm
  · intro l hl i hi _
    exact hP.value l (by omega) i hi

/-- The first two phases: they abort, or they leave a tree whose pointers are
laid out as built and whose cells hold the remainders; a modulus that no
node refers to is unchanged. -/
theorem treePhases_spec (M : List Nat) (hn : 2 ≤ M.length) (hM : ∀ m ∈ M, 1 < m)
    (nThreads : Nat) (hK : 0 < nThreads) :
    Outcome (ZeroDivisor M 1)
      (fun r => r.2.length = depth M ∧ Layout M ((loadModuli M).2 :: r.2) (depth M) ∧
        DescentInv M ((loadModuli M).2 :: r.2) 0 r.1)
      (treePhases nThreads (loadModuli M).1 (loadModuli M).2) := by
  obtain ⟨s, hs, hP⟩ := productPhase_spec M hn nThreads hK
  unfold treePhases
  simp only [hs, bind, Except.bind]
  have hI := descentInv_init M hn hM _ s hP
  have hd := makeTree_spec M hn
  have := remainderLevels_spec M hM _ s.tree hP.treeLen hP.layout nThreads hK
    (depth M - 1) s.heap (by omega) hI
  rw [hP.treeLen]
  cases hr : remainderLevels nThreads s.tree (List.range (depth M - 1)).reverse s.heap with
  | error e => rw [hr] at this; exact this
  | ok h' =>
    rw [hr] at this
    exact ⟨hP.treeLen, hP.layout, this⟩

theorem getD_mul_cofactor : ∀ (M : List Nat) (i : Nat), i < M.length →
    M.getD i 0 * cofactor M i = M.prod
  | [], i, h => by simp at h
  | a :: l, 0, _ => by simp [cofactor]
  | a :: l, i + 1, h => by
    have ih := getD_mul_cofactor l i (by simpa using h)
    unfold cofactor at ih ⊢
    rw [List.getD_cons_succ, List.eraseIdx_cons_succ, List.prod_cons, List.prod_cons, ← ih]
    ring

theorem nodeValue_zero (M : List Nat) (i : Nat) (hi : i < M.length) :
    nodeValue M 0 i = M.getD i 0 := by
  show M.getD i 1 = M.getD i 0
  rw [List.getD_eq_getElem _ _ hi, List.getD_eq_getElem _ _ hi]

/-- The arithmetic of the leaf step: from the product of all the moduli
modulo `m * m`, the gcd of `m` with the product of the others. -/
theorem leaf_gcd (m rest : Nat) (hm : 0 < m) :
    Nat.gcd ((m * rest) % (m * m) / m) m = Nat.gcd m rest := by
  rw [Nat.mul_mod_mul_left, Nat.mul_div_cancel_left _ hm, Nat.gcd_comm, Nat.gcd_rec m rest,
    Nat.gcd_comm]

theorem leafStep_eq (h : Heap) (lastLevel moduli : Slice) (i p q : Nat)
    (hx : moduli[i]? = some (some p)) (hy : lastLevel[i / 2]? = some (some q)) :
    leafStep h lastLevel moduli i =
      if h.cells p * h.cells p = 0 then .error .divisionByZero
      else if h.cells p = 0 then .error .divisionByZero
      else if BitLen (Nat.gcd (h.cells q % (h.cells p * h.cells p) / h.cells p) (h.cells p)) ≠ 1
      then
        if Nat.gcd (h.cells q % (h.cells p * h.cells p) / h.cells p) (h.cells p) = 0 then
          .error .divisionByZero
        else .ok (some (Collision.mk (h.cells p)
          (some (Nat.gcd (h.cells q % (h.cells p * h.cells p) / h.cells p) (h.cells p)))
          (some (h.cells p /
            Nat.gcd (h.cells q % (h.cells p * h.cells p) / h.cells p) (h.cells p)))))
      else .ok none := by
  unfold leafStep GCD
  simp only [index_of_getElem? hx, index_of_getElem? hy, Heap.load, Rem, Quo, bind,
    Except.bind, pure, Except.pure]
  by_cases h1 : h.cells p * h.cells p = 0
  · simp only [if_pos h1]
  · have h2 : h.cells p ≠ 0 := fun e => h1 (by rw [e])
    simp only [if_neg h1, if_neg h2]
    by_cases h3 : BitLen (Nat.gcd (h.cells q % (h.cells p * h.cells p) / h.cells p)
        (h.cells p)) ≠ 1
    · simp only [if_pos h3]
      by_cases h4 : Nat.gcd (h.cells q % (h.cells p * h.cells p) / h.cells p) (h.cells p) = 0
      · simp only [if_pos h4]
      · simp only [if_neg h4]
    · simp only [if_neg h3]

/-- The leaf step of `remainderTreeFinal` after the descent: it aborts, or it
gives the record `leafRecord`. -/
theorem leafStep_spec (M : List Nat) (hM : ∀ m ∈ M, 1 < m) (lv : List Slice)
    (hdepth : 1 ≤ depth M) (hlay : Layout M lv (depth M)) (h : Heap)
    (hI : DescentInv M lv 0 h) (i : Nat) (hi : i < M.length) :
    Outcome (ZeroDivisor M 0) (fun o => o = leafRecord M i)
      (leafStep h (lv.getD 1 []) (lv.getD 0 []) i) := by
  have hi0 : i < levelSize M 0 := hi
  have hk : i / 2 < levelSize M 1 := by rw [levelSize_succ, levelSize_zero]; omega
  rw [leafStep_eq h _ _ i (ptrAt lv 0 i) (ptrAt lv 1 (i / 2))
    (hlay.slot 0 (by omega) i hi0) (hlay.slot 1 (by omega) (i / 2) hk)]
  have hpar : h.cells (ptrAt lv 1 (i / 2)) = remainderValue M 1 (i / 2) :=
    hI.done 1 (by omega) hdepth (i / 2) hk
  by_cases hlast : M.length % 2 = 1 ∧ i + 1 = M.length
  · -- the odd last modulus: its cell is the cell of the last node of level `1`
    have hp := hlay.promo 0 (by omega) hlast.1
    have hlast1 : levelSize M 1 - 1 = i / 2 := by
      rw [levelSize_succ, levelSize_zero]; omega
    have hidx : levelSize M 0 - 1 = i := by rw [levelSize_zero]; omega
    rw [hlast1, hidx] at hp
    rw [← hp, hpar]
    have hleaf : leafRecord M i = none := by unfold leafRecord; rw [if_pos hlast]
    rw [hleaf]
    rcases remainderValue_cases M hM 1 (i / 2) hk with h0 | h2
    · rw [h0, if_pos (Nat.mul_zero 0)]
      have hz : remainderValue M 0 (levelSize M 0 - 1) = 0 := by
        have he : remainderValue M 0 i = remainderValue M 1 (i / 2) := by
          unfold remainderValue
          rw [nodeValue_promoted M 0 i (i / 2) (by rw [levelSize_zero]; omega)
            (by rw [levelSize_succ, levelSize_zero]; omega) hlast.1]
        rw [hidx, he]
        exact h0
      exact ⟨rfl, 0, by omega, le_refl _, hlast.1, hz⟩
    · generalize remainderValue M 1 (i / 2) = r at h2
      have hr : r * r ≠ 0 := by positivity
      have hr0 : r ≠ 0 := by omega
      rw [if_neg hr, if_neg hr0, mod_self_mul_self r h2, Nat.div_self (by omega), Nat.gcd_one_left]
      have : BitLen 1 = 1 := (BitLen_eq_one_iff 1).2 rfl
      simp [this, Outcome]
  · -- a modulus that no node refers to: the cell holds the modulus itself
    have hno : ∀ l', 0 < l' → l' ≤ depth M → ∀ k, k < levelSize M l' →
        ptrAt lv l' k ≠ ptrAt lv 0 i := by
      intro l' h1 h2 k h3 h4
      obtain ⟨k', hk', hkk⟩ := hlay.chain 0 l' h1 h2 i k hi0 h3 h4.symm
      obtain ⟨e1, _, e3⟩ := hlay.adj 0 (by omega) i k' hi0 hk' hkk
      exact hlast ⟨e3, e1⟩
    have hval : h.cells (ptrAt lv 0 i) = M.getD i 0 := by
      rw [hI.todo 0 (le_refl _) i hi0 hno, nodeValue_zero M i hi]
    have hm : 1 < M.getD i 0 := hM _ (getD_mem M i hi)
    have hrem : remainderValue M 1 (i / 2) % (M.getD i 0 * M.getD i 0) =
        (M.getD i 0 * cofactor M i) % (M.getD i 0 * M.getD i 0) := by
      rw [← nodeValue_zero M i hi, remainderValue_child M 0 i]
      unfold remainderValue
      rw [nodeValue_zero M i hi, getD_mul_cofactor M i hi]
    rw [hval, hpar, hrem, leaf_gcd _ _ (by omega)]
    have hmm : M.getD i 0 * M.getD i 0 ≠ 0 := by positivity
    have hg0 : Nat.gcd (M.getD i 0) (cofactor M i) ≠ 0 := by
      intro h0
      have := Nat.eq_zero_of_gcd_eq_zero_left h0
      omega
    rw [if_neg hmm, if_neg (by omega)]
    unfold leafRecord
    rw [if_neg hlast]
    by_cases hg1 : Nat.gcd (M.getD i 0) (cofactor M i) = 1
    · have : BitLen (Nat.gcd (M.getD i 0) (cofactor M i)) = 1 := (BitLen_eq_one_iff _).2 hg1
      rw [if_neg (fun hne => hne hg1), if_neg (fun hne => hne this)]
      rfl
    · have : BitLen (Nat.gcd (M.getD i 0) (cofactor M i)) ≠ 1 := by
        rw [Ne, BitLen_eq_one_iff]; exact hg1
      rw [if_pos this, if_neg hg0, if_pos hg1]
      rfl

/-- The leaf phase after the descent: it aborts, or it sends the records
`leafRecord` of all the indices. -/
theorem leafPhase_spec (M : List Nat) (hM : ∀ m ∈ M, 1 < m) (lv : List Slice)
    (hdepth : 1 ≤ depth M) (hlay : Layout M lv (depth M)) (h : Heap)
    (hI : DescentInv M lv 0 h) (nThreads : Nat) (hK : 0 < nThreads) :
    Outcome (fun e => ZeroDivisor M 0 e.1)
      (fun out => ∀ r, r ∈ out ↔ ∃ i, i < M.length ∧ leafRecord M i = some r)
      (workers (remainderTreeFinal h (lv.getD 1 []) (lv.getD 0 [])) nThreads
        (List.range nThreads) []) := by
  have key := workers_outcome_set (remainderTreeFinal h (lv.getD 1 []) (lv.getD 0 []))
    (remainderTreeFinalBody h (lv.getD 1 []) (lv.getD 0 []))
    (fun e => ZeroDivisor M 0 e.1)
    (fun D out => ∀ r, r ∈ out ↔ ∃ i, i ∈ D ∧ i < M.length ∧ leafRecord M i = some r)
    nThreads M.length hK
    (by
      intro start out
      unfold remainderTreeFinal
      rw [hlay.size 0 (by omega), levelSize_zero])
    [] (by simp)
    (by
      intro D i out hI' hi hD
      have hs := leafStep_spec M hM lv hdepth hlay h hI i hi
      unfold remainderTreeFinalBody
      cases hl : leafStep h (lv.getD 1 []) (lv.getD 0 []) i with
      | error e => rw [hl] at hs; exact hs
      | ok o =>
        rw [hl] at hs
        have hs' : o = leafRecord M i := hs
        cases o with
        | none =>
          show ∀ r, r ∈ out ↔ _
          intro r
          rw [hI' r]
          constructor
          · rintro ⟨j, hj, hj', hr⟩
            exact ⟨j, Or.inr hj, hj', hr⟩
          · rintro ⟨j, hj, hj', hr⟩
            rcases hj with rfl | hj
            · rw [← hs'] at hr; cases hr
            · exact ⟨j, hj, hj', hr⟩
        | some c =>
          show ∀ r, r ∈ out ++ [c] ↔ _
          intro r
          rw [List.mem_append, hI' r, List.mem_singleton]
          constructor
          · rintro (⟨j, hj, hj', hr⟩ | rfl)
            · exact ⟨j, Or.inr hj, hj', hr⟩
            · exact ⟨i, Or.inl rfl, hi, hs'.symm⟩
          · rintro ⟨j, hj, hj', hr⟩
            rcases hj with rfl | hj
            · rw [← hs'] at hr
              injection hr with hr
              exact Or.inr hr.symm
            · exact Or.inl ⟨j, hj, hj', hr⟩)
  refine Outcome.imp key (fun _ hc => hc) ?_
  intro out hout r
  rw [hout r]
  constructor
  · rintro ⟨i, _, hi, hr⟩; exact ⟨i, hi, hr⟩
  · rintro ⟨i, hi, hr⟩; exact ⟨i, hi, hi, hr⟩

/-- A run of `SmoothPartsGCD` on at least two moduli greater than one: it
aborts on a division by zero at a promoted node whose remainder is zero, or it
completes, closes the output and sends exactly the records `leafRecord` of the
indices. -/
theorem SmoothPartsGCD_cases (nThreads : Nat) (hK : 0 < nThreads) (M : List Nat)
    (hn : 2 ≤ M.length) (hM : ∀ m ∈ M, 1 < m) :
    ((SmoothPartsGCD nThreads M).panic = some .divisionByZero ∧ PromotedZero M 0) ∨
    ((SmoothPartsGCD nThreads M).panic = none ∧ (SmoothPartsGCD nThreads M).closed = true ∧
      ∀ r, r ∈ (SmoothPartsGCD nThreads M).out ↔
        ∃ i, i < M.length ∧ leafRecord M i = some r) := by
  have hlen : ¬ (loadModuli M).2.length < 2 := by rw [length_loadModuli]; omega
  have hd := makeTree_spec M hn
  have ht := treePhases_spec M hn hM nThreads hK
  unfold SmoothPartsGCD SmoothPartsGCD.run
  rw [if_neg hlen]
  cases htp : treePhases nThreads (loadModuli M).1 (loadModuli M).2 with
  | error e =>
    rw [htp] at ht
    have ht0 := ZeroDivisor.mono M (Nat.zero_le 1) ht
    exact Or.inl ⟨by rw [ht0.1], ht0.2⟩
  | ok res =>
    obtain ⟨h, tree⟩ := res
    rw [htp] at ht
    obtain ⟨htl, hlay, hI⟩ := ht
    simp only at htl hlay hI ⊢
    have hidx : index tree 0 = .ok (tree.getD 0 []) := index_getD tree 0 (by omega)
    rw [hidx]
    simp only
    have hf := leafPhase_spec M hM ((loadModuli M).2 :: tree) hd.1 hlay h hI nThreads hK
    have e1 : ((loadModuli M).2 :: tree).getD 1 [] = tree.getD 0 [] := rfl
    have e0 : ((loadModuli M).2 :: tree).getD 0 [] = (loadModuli M).2 := rfl
    rw [e1, e0] at hf
    cases hw : workers (remainderTreeFinal h (tree.getD 0 []) (loadModuli M).2) nThreads
        (List.range nThreads) [] with
    | error e =>
      rw [hw] at hf
      have hf0 : ZeroDivisor M 0 e.1 := hf
      exact Or.inl ⟨by simp only; rw [hf0.1], hf0.2⟩
    | ok out =>
      rw [hw] at hf
      exact Or.inr ⟨rfl, rfl, hf⟩

/-- A node whose square divides the product of all the moduli has, below it, a
modulus that divides the product of the others. -/
theorem dvd_cofactor_of_remainder_zero (M : List Nat) (hM : ∀ m ∈ M, 1 < m) :
    ∀ l i, i < levelSize M l → remainderValue M l i = 0 →
      ∃ j, j < M.length ∧ M.getD j 0 ∣ cofactor M j := by
  intro l
  induction l with
  | zero =>
    intro i hi h0
    have hi' : i < M.length := hi
    refine ⟨i, hi', ?_⟩
    unfold remainderValue at h0
    rw [nodeValue_zero M i hi', ← getD_mul_cofactor M i hi'] at h0
    have hm := hM _ (getD_mem M i hi')
    exact Nat.dvd_of_mul_dvd_mul_left (by omega) (Nat.dvd_of_mod_eq_zero h0)
  | succ l ih =>
    intro i hi h0
    apply ih (2 * i) (by rw [levelSize_succ] at hi; omega)
    unfold remainderValue at h0 ⊢
    apply Nat.mod_eq_zero_of_dvd
    refine Dvd.dvd.trans ?_ (Nat.dvd_of_mod_eq_zero h0)
    have hd : nodeValue M l (2 * i) ∣ nodeValue M (l + 1) i := by
      rw [nodeValue_succ]; exact Dvd.intro _ rfl
    exact Nat.mul_dvd_mul hd hd

/-- When no modulus divides the product of the others, the run completes. -/
theorem SmoothPartsGCD_completes (nThreads : Nat) (hK : 0 < nThreads) (M : List Nat)
    (hn : 2 ≤ M.length) (hM : ∀ m ∈ M, 1 < m)
    (hfree : ∀ j, j < M.length → ¬ M.getD j 0 ∣ cofactor M j) :
    (SmoothPartsGCD nThreads M).panic = none := by
  rcases SmoothPartsGCD_cases nThreads hK M hn hM with ⟨_, l, _, _, hodd, h0⟩ | ⟨h, _⟩
  · obtain ⟨j, hj, hd⟩ := dvd_cofactor_of_remainder_zero M hM l (levelSize M l - 1)
      (by omega) h0
    exact absurd hd (hfree j hj)
  · exact h

/-- The records of a run of `SmoothPartsGCD` that completes, on at least two
moduli greater than one: exactly the records `leafRecord` of the indices. -/
theorem SmoothPartsGCD_out (nThreads : Nat) (hK : 0 < nThreads) (M : List Nat)
    (hn : 2 ≤ M.length) (hM : ∀ m ∈ M, 1 < m)
    (hrun : (SmoothPartsGCD nThreads M).panic = none) (r : Collision) :
    r ∈ (SmoothPartsGCD nThreads M).out ↔ ∃ i, i < M.length ∧ leafRecord M i = some r := by
  rcases SmoothPartsGCD_cases nThreads hK M hn hM with ⟨h, _⟩ | ⟨_, _, h⟩
  · rw [h] at hrun; cases hrun
  · exact h r

theorem getD_dvd_cofactor : ∀ (M : List Nat) (i j : Nat), j < M.length → i ≠ j →
    M.getD j 0 ∣ cofactor M i
  | [], _, _, h, _ => by simp at h
  | a :: l, 0, 0, _, h => absurd rfl h
  | a :: l, 0, j + 1, h, _ => by
    unfold cofactor
    rw [List.eraseIdx_cons_zero, List.getD_cons_succ]
    exact List.dvd_prod (getD_mem l j (by simpa using h))
  | a :: l, i + 1, 0, _, _ => by
    unfold cofactor
    rw [List.eraseIdx_cons_succ, List.prod_cons, List.getD_cons_zero]
    exact Dvd.intro _ rfl
  | a :: l, i + 1, j + 1, h, hne => by
    have ih := getD_dvd_cofactor l i j (by simpa using h) (by omega)
    unfold cofactor at ih ⊢
    rw [List.eraseIdx_cons_succ, List.prod_cons, List.getD_cons_succ]
    exact Dvd.dvd.mul_left ih a

/-- The record of an index whose modulus occurs at another index. -/
theorem leafRecord_of_duplicate (M : List Nat) (hM : ∀ m ∈ M, 1 < m) (i j : Nat)
    (hi : i < M.length) (hj : j < M.length) (hne : i ≠ j) (heq : M.getD i 0 = M.getD j 0)
    (hlast : ¬ (M.length % 2 = 1 ∧ i + 1 = M.length)) :
    leafRecord M i = some { Modulus := M.getD i 0, P := some (M.getD i 0), Q := some 1 } := by
  have hd : M.getD i 0 ∣ cofactor M i := by rw [heq]; exact getD_dvd_cofactor M i j hj hne
  have hg : Nat.gcd (M.getD i 0) (cofactor M i) = M.getD i 0 := Nat.gcd_eq_left hd
  have hm := hM _ (getD_mem M i hi)
  unfold leafRecord
  rw [if_neg hlast, if_pos (by rw [hg]; omega), hg, Nat.div_self (by omega)]

theorem ne_of_noModulusDividesRest (M : List Nat) (hfree : NoModulusDividesRest M) (i j : Nat)
    (hi : i < M.length) (hj : j < M.length) (hne : i ≠ j) : M.getD i 0 ≠ M.getD j 0 := by
  intro heq
  apply hfree i hi
  rw [heq]
  exact getD_dvd_cofactor M i j hj hne

/-- For a product of two distinct primes that does not divide the product of
the others, a non-trivial common divisor of the modulus and that product is
their gcd. -/
theorem eq_gcd_cofactor (M : List Nat) (hS : ∀ m ∈ M, TwoPrimes m)
    (hfree : NoModulusDividesRest M) (i : Nat) (hi : i < M.length) (d : Nat)
    (hd1 : d ∣ M.getD i 0) (hd2 : d ∣ cofactor M i) (hne : d ≠ 1) :
    d = Nat.gcd (M.getD i 0) (cofactor M i) ∧ Nat.gcd (M.getD i 0) (cofactor M i) ≠ 1 := by
  have hS' := hS _ (getD_mem M i hi)
  have hdg : d ∣ Nat.gcd (M.getD i 0) (cofactor M i) := Nat.dvd_gcd hd1 hd2
  have hg1 : Nat.gcd (M.getD i 0) (cofactor M i) ≠ 1 := by
    intro h
    rw [h] at hdg
    exact hne (Nat.eq_one_of_dvd_one hdg)
  have hgm : Nat.gcd (M.getD i 0) (cofactor M i) ≠ M.getD i 0 := by
    intro h
    apply hfree i hi
    rw [← h]
    exact Nat.gcd_dvd_right _ _
  have hp := hS'.prime_of_dvd (Nat.gcd_dvd_left _ _) hg1 hgm
  rcases (Nat.dvd_prime hp).1 hdg with h | h
  · exact absurd h hne
  · exact ⟨h, hg1⟩

theorem mulAccumState_dvd_take (M : List Nat) :
    ∀ k, k ≤ M.length → (mulAccumState M k).1 ∣ (M.take k).prod := by
  intro k
  induction k with
  | zero => intro _; simp [mulAccumState]
  | succ n ih =>
    intro hk
    have hn : n < M.length := by omega
    rw [mulAccumState_succ, List.prod_take_succ M n hn, ← List.getD_eq_getElem M 0 hn]
    have := ih (by omega)
    unfold mulAccumStep GCD
    simp only
    split_ifs
    · exact Dvd.dvd.mul_right this _
    · exact Nat.mul_dvd_mul this (dvd_refl _)
    · exact Nat.mul_dvd_mul this (dvd_refl _)

theorem mulAccumState_dvd_cofactor (M : List Nat) (j : Nat) (hj : j < M.length) :
    (mulAccumState M j).1 ∣ cofactor M j := by
  refine Dvd.dvd.trans (mulAccumState_dvd_take M j (by omega)) ?_
  unfold cofactor
  rw [List.eraseIdx_eq_take_drop_succ, List.prod_append]
  exact Dvd.intro _ rfl

/-- On products of two distinct primes none of which divides the product of the
others, every record of the accumulator engine reports a modulus with the gcd
it shares with the product of the others. -/
theorem mem_MulAccumGCD_shared (M : List Nat) (hS : ∀ m ∈ M, TwoPrimes m)
    (hfree : NoModulusDividesRest M) (r : Collision) (hr : r ∈ MulAccumGCD M) :
    ∃ i, i < M.length ∧ Nat.gcd (M.getD i 0) (cofactor M i) ≠ 1 ∧ r = sharedRecord M i := by
  have key : ∀ i, i < M.length → ∀ d, d ∣ M.getD i 0 → d ∣ cofactor M i → d ≠ 1 →
      ({ Modulus := M.getD i 0, P := some d, Q := some (M.getD i 0 / d) } : Collision) =
        sharedRecord M i ∧ Nat.gcd (M.getD i 0) (cofactor M i) ≠ 1 := by
    intro i hi d h1 h2 h3
    obtain ⟨e, hg⟩ := eq_gcd_cofactor M hS hfree i hi d h1 h2 h3
    subst e
    exact ⟨rfl, hg⟩
  obtain ⟨j, hj, h | ⟨hgm, hg1, h⟩⟩ := mem_mulAccumState M _ r hr
  · -- a record of the prefix scan
    unfold findGCD GCD at h
    simp only [List.mem_flatMap, List.mem_range] at h
    obtain ⟨j', hj', h⟩ := h
    have hj'n : j' < M.length := by omega
    have hjj : j' ≠ j := by omega
    rw [if_neg (ne_of_noModulusDividesRest M hfree j' j hj'n hj hjj)] at h
    split_ifs at h with hb
    · have hd1 : Nat.gcd (M.getD j 0) (M.getD j' 0) ≠ 1 := by
        rw [Ne, ← BitLen_eq_one_iff]; exact hb
      simp only [List.mem_cons, List.mem_singleton, List.not_mem_nil, or_false] at h
      rcases h with rfl | rfl
      · obtain ⟨e, hg⟩ := key j hj _ (Nat.gcd_dvd_left _ _)
          (Dvd.dvd.trans (Nat.gcd_dvd_right _ _) (getD_dvd_cofactor M j j' hj'n (Ne.symm hjj))) hd1
        exact ⟨j, hj, hg, e⟩
      · obtain ⟨e, hg⟩ := key j' hj'n _ (Nat.gcd_dvd_right _ _)
          (Dvd.dvd.trans (Nat.gcd_dvd_left _ _) (getD_dvd_cofactor M j' j hj hjj)) hd1
        exact ⟨j', hj'n, hg, e⟩
    · simp at h
  · -- a record of the full scan
    unfold findDivisors at h
    simp only [List.mem_cons, List.mem_flatMap, List.mem_range] at h
    rcases h with rfl | ⟨j', hj', h⟩
    · obtain ⟨e, hg⟩ := key j hj _ (Nat.gcd_dvd_right _ _)
        (Dvd.dvd.trans (Nat.gcd_dvd_left _ _) (mulAccumState_dvd_cofactor M j hj)) hg1
      exact ⟨j, hj, hg, e⟩
    · split_ifs at h with h1 h2 h3
      · simp at h
      · exact absurd h2 (ne_of_noModulusDividesRest M hfree j' j hj' hj h1)
      · rw [List.mem_singleton] at h
        subst h
        rw [BitLen_eq_zero_iff] at h3
        obtain ⟨e, hg⟩ := key j' hj' _ (Nat.dvd_of_mod_eq_zero h3)
          (Dvd.dvd.trans (Nat.gcd_dvd_right _ _) (getD_dvd_cofactor M j' j hj h1)) hg1
        exact ⟨j', hj', hg, e⟩
      · simp at h

/-- On products of two distinct primes none of which divides the product of the
others, the accumulator engine reports every modulus that shares a factor
with the product of the others, with that gcd. -/
theorem sharedRecord_mem_MulAccumGCD (M : List Nat) (hS : ∀ m ∈ M, TwoPrimes m)
    (hfree : NoModulusDividesRest M) (i : Nat) (hi : i < M.length)
    (hg : Nat.gcd (M.getD i 0) (cofactor M i) ≠ 1) : sharedRecord M i ∈ MulAccumGCD M := by
  -- the gcd is a prime, and it divides another modulus
  have hS' := hS _ (getD_mem M i hi)
  have hgm : Nat.gcd (M.getD i 0) (cofactor M i) ≠ M.getD i 0 := by
    intro h
    apply hfree i hi
    rw [← h]
    exact Nat.gcd_dvd_right _ _
  have hp := hS'.prime_of_dvd (Nat.gcd_dvd_left _ _) hg hgm
  have hdc : Nat.gcd (M.getD i 0) (cofactor M i) ∣ (M.eraseIdx i).prod := Nat.gcd_dvd_right _ _
  obtain ⟨x, hx, hpx⟩ := (Prime.dvd_prod_iff hp.prime).1 hdc
  obtain ⟨k, hk, hki, rfl⟩ := List.mem_eraseIdx_iff_getElem.1 hx
  rw [← List.getD_eq_getElem M 0 hk] at hpx
  have hne : M.getD i 0 ≠ M.getD k 0 := ne_of_noModulusDividesRest M hfree i k hi hk (Ne.symm hki)
  have hgcd : 1 < Nat.gcd (M.getD i 0) (M.getD k 0) := by
    have hd : Nat.gcd (M.getD i 0) (cofactor M i) ∣ Nat.gcd (M.getD i 0) (M.getD k 0) :=
      Nat.dvd_gcd (Nat.gcd_dvd_left _ _) hpx
    have hpos : 0 < Nat.gcd (M.getD i 0) (M.getD k 0) :=
      Nat.gcd_pos_of_pos_left _ (by have := hS'.one_lt; omega)
    have := Nat.le_of_dvd hpos hd
    have := hp.two_le
    omega
  have hfact : ProperlyFactored (MulAccumGCD M) (M.getD i 0) := by
    rcases Nat.lt_or_ge i k with h | h
    · exact (MulAccumGCD_complete_lt M hS i k h hk hne hgcd).1
    · exact (MulAccumGCD_complete_lt M hS k i (by omega) hi (Ne.symm hne)
        (by rw [Nat.gcd_comm]; exact hgcd)).2
  obtain ⟨r, hr, hmod, _⟩ := hfact
  obtain ⟨i', hi', _, rfl⟩ := mem_MulAccumGCD_shared M hS hfree r hr
  have : i' = i := by
    by_contra hcon
    exact ne_of_noModulusDividesRest M hfree i' i hi' hi hcon hmod
  subst this
  exact hr

/-- On an even number of products of two distinct primes none of which divides
the product of the others, the two engines send the same records. -/
theorem mem_MulAccumGCD_iff_mem_SmoothPartsGCD (nThreads : Nat) (hK : 0 < nThreads)
    (M : List Nat) (hn : 2 ≤ M.length) (heven : M.length % 2 = 0)
    (hS : ∀ m ∈ M, TwoPrimes m) (hfree : NoModulusDividesRest M) (r : Collision) :
    r ∈ MulAccumGCD M ↔ r ∈ (SmoothPartsGCD nThreads M).out := by
  have hM : ∀ m ∈ M, 1 < m := fun m hm => (hS m hm).one_lt
  have hrun := SmoothPartsGCD_completes nThreads hK M hn hM hfree
  rw [SmoothPartsGCD_out nThreads hK M hn hM hrun r]
  have hleaf : ∀ i, leafRecord M i =
      if Nat.gcd (M.getD i 0) (cofactor M i) ≠ 1 then some (sharedRecord M i) else none := by
    intro i
    unfold leafRecord
    rw [if_neg (by omega)]
    rfl
  constructor
  · intro hr
    obtain ⟨i, hi, hg, rfl⟩ := mem_MulAccumGCD_shared M hS hfree r hr
    exact ⟨i, hi, by rw [hleaf, if_pos hg]⟩
  · rintro ⟨i, hi, h⟩
    rw [hleaf] at h
    split_ifs at h with hg
    injection h with h
    subst h
    exact sharedRecord_mem_MulAccumGCD M hS hfree i hi hg

/-! ## The low-memory engine -/

theorem lowmemLeaf_modulus (y modulus : Nat) (c : Collision)
    (h : lowmemLeaf y modulus = .ok (some c)) : c.Modulus = modulus := by
  unfold lowmemLeaf GCD at h
  simp only [bind_eq_ok] at h
  obtain ⟨t1, _, t2, _, h⟩ := h
  split_ifs at h
  · simp only [bind_eq_ok] at h
    obtain ⟨q, _, h⟩ := h
    simp only [pure, Except.pure, Except.ok.injEq, Option.some.injEq] at h
    rw [← h]
  · simp [pure, Except.pure] at h

theorem stepRem_openInv (s : RaceState) (h : OpenInv s) : OpenInv (stepRem s) := by
  obtain ⟨input, ic, products, pc, pipe, pic, rem, fin, out, oc, panic⟩ := s
  obtain ⟨h1, h2, h3, h4, h5⟩ := h
  simp only at h1 h2 h3 h4 h5
  subst h1 h2 h3
  unfold stepRem OpenInv
  cases panic <;> cases rem <;> cases input <;> cases products <;>
    simp only [Option.isSome_none, Option.isSome_some] <;> (try split_ifs) <;> simp_all

theorem stepFin_openInv (s : RaceState) (h : OpenInv s) : OpenInv (stepFin s) := by
  obtain ⟨input, ic, products, pc, pipe, pic, rem, fin, out, oc, panic⟩ := s
  obtain ⟨h1, h2, h3, h4, h5⟩ := h
  simp only at h1 h2 h3 h4 h5
  subst h1 h2 h3
  unfold stepFin OpenInv
  cases panic <;> cases fin <;> cases pipe <;> cases products <;>
    simp only [Option.isSome_none, Option.isSome_some] <;> (try split_ifs) <;>
    (try split) <;> simp_all

theorem race_openInv (sched : List Bool) : ∀ s, OpenInv s → OpenInv (race sched s) := by
  induction sched with
  | nil => intro s h; exact h
  | cons b rest ih =>
    intro s h
    unfold race
    rw [List.foldl_cons]
    cases b
    · exact ih _ (stepFin_openInv s h)
    · exact ih _ (stepRem_openInv s h)

theorem suffix_of_cons_suffix {x : Nat} {rest T : List Nat} (h : x :: rest <:+ T) :
    rest <:+ T :=
  List.IsSuffix.trans (List.suffix_cons x rest) h

theorem mem_of_cons_suffix {x : Nat} {rest T : List Nat} (h : x :: rest <:+ T) : x ∈ T :=
  List.IsSuffix.subset h (List.mem_cons_self x rest)

theorem stepRem_raceInv (P0 : List Nat) (s : RaceState) (h : RaceInv P0 s) :
    RaceInv P0 (stepRem s) := by
  obtain ⟨input, ic, products, pc, pipe, pic, rem, fin, out, oc, panic⟩ := s
  obtain ⟨hout, hcase⟩ := h
  simp only at hout hcase
  unfold stepRem RaceInv
  cases panic with
  | some e => exact ⟨hout, hcase⟩
  | none =>
    simp only [Option.isSome_none, Bool.false_eq_true, if_false]
    cases rem with
    | recvY =>
      cases input with
      | nil =>
        by_cases hic : ic = true
        · simp only [hic, if_true]
          refine ⟨hout, ?_⟩
          rcases hcase with ⟨h1, h2, h3, _⟩ | h
          · exact Or.inl ⟨h1, h2, h3, by simp⟩
          · exact Or.inr h
        · simp only [hic, if_false]
          exact ⟨hout, hcase⟩
      | cons y rest =>
        refine ⟨hout, ?_⟩
        rcases hcase with ⟨h1, h2, h3, _⟩ | h
        · exact Or.inl ⟨h1, h2, h3, Or.inr (Or.inl ⟨y, rfl⟩)⟩
        · exact Or.inr h
    | recvFirst y =>
      cases products with
      | nil =>
        by_cases hpc : pc = true
        · simp only [hpc, if_true]; exact ⟨hout, hcase⟩
        · simp only [hpc, if_false]; exact ⟨hout, hcase⟩
      | cons x rest =>
        have hs : rest <:+ P0.tail := by
          rcases hcase with ⟨h1, _⟩ | h
          · rw [← h1]; exact List.suffix_refl _
          · exact suffix_of_cons_suffix h
        by_cases hx : x * x = 0
        · simp only [hx, if_true]; exact ⟨hout, Or.inr hs⟩
        · simp only [hx, if_false]; exact ⟨hout, Or.inr hs⟩
    | sendFirst y v =>
      have hs : products <:+ P0.tail := by
        rcases hcase with ⟨_, _, _, h | ⟨_, h⟩ | h⟩ | h
        · cases h
        · cases h
        · cases h
        · exact h
      by_cases hp : pipe.length < 1
      · simp only [hp, if_true]; exact ⟨hout, Or.inr hs⟩
      · simp only [hp, if_false]; exact ⟨hout, Or.inr hs⟩
    | recvSecond y =>
      have hs : products <:+ P0.tail := by
        rcases hcase with ⟨_, _, _, h | ⟨_, h⟩ | h⟩ | h
        · cases h
        · cases h
        · cases h
        · exact h
      cases products with
      | nil =>
        by_cases hpc : pc = true
        · simp only [hpc, if_true]; exact ⟨hout, Or.inr hs⟩
        · simp only [hpc, if_false]; exact ⟨hout, Or.inr hs⟩
      | cons x rest =>
        by_cases hx : x * x = 0
        · simp only [hx, if_true]; exact ⟨hout, Or.inr (suffix_of_cons_suffix hs)⟩
        · simp only [hx, if_false]; exact ⟨hout, Or.inr (suffix_of_cons_suffix hs)⟩
    | sendSecond v =>
      have hs : products <:+ P0.tail := by
        rcases hcase with ⟨_, _, _, h | ⟨_, h⟩ | h⟩ | h
        · cases h
        · cases h
        · cases h
        · exact h
      by_cases hp : pipe.length < 1
      · simp only [hp, if_true]; exact ⟨hout, Or.inr hs⟩
      · simp only [hp, if_false]; exact ⟨hout, Or.inr hs⟩
    | finished => exact ⟨hout, hcase⟩

theorem stepFin_raceInv (P0 : List Nat) (s : RaceState) (h : RaceInv P0 s) :
    RaceInv P0 (stepFin s) := by
  obtain ⟨input, ic, products, pc, pipe, pic, rem, fin, out, oc, panic⟩ := s
  obtain ⟨hout, hcase⟩ := h
  simp only at hout hcase
  unfold stepFin RaceInv
  cases panic with
  | some e => exact ⟨hout, hcase⟩
  | none =>
    simp only [Option.isSome_none, Bool.false_eq_true, if_false]
    cases fin with
    | recvY =>
      cases pipe with
      | nil =>
        by_cases hpc : pic = true
        · simp only [hpc, if_true]
          refine ⟨hout, ?_⟩
          rcases hcase with ⟨h1, h2, _, h4⟩ | h
          · exact Or.inl ⟨h1, by simp, by simp, h4⟩
          · exact Or.inr h
        · simp only [hpc, if_false]; exact ⟨hout, hcase⟩
      | cons y rest =>
        refine ⟨hout, ?_⟩
        rcases hcase with ⟨_, h2, _⟩ | h
        · cases h2
        · exact Or.inr h
    | recvModulus y i =>
      have hs : products <:+ P0.tail := by
        rcases hcase with ⟨_, _, h3, _⟩ | h
        · exact absurd rfl (h3 y i)
        · exact h
      by_cases hi : i < 2
      · simp only [hi, if_true]
        cases products with
        | nil =>
          by_cases hpc : pc = true
          · simp only [hpc, if_true]; exact ⟨hout, Or.inr hs⟩
          · simp only [hpc, if_false]; exact ⟨hout, Or.inr hs⟩
        | cons m rest =>
          simp only
          cases hl : lowmemLeaf y m with
          | error e => exact ⟨hout, Or.inr (suffix_of_cons_suffix hs)⟩
          | ok o =>
            cases o with
            | none => exact ⟨hout, Or.inr (suffix_of_cons_suffix hs)⟩
            | some c =>
              refine ⟨?_, Or.inr (suffix_of_cons_suffix hs)⟩
              intro r hr
              rcases List.mem_append.1 hr with h1 | h1
              · exact hout r h1
              · rw [List.mem_singleton] at h1
                subst h1
                rw [lowmemLeaf_modulus y m r hl]
                exact mem_of_cons_suffix hs
      · simp only [hi, if_false]; exact ⟨hout, Or.inr hs⟩
    | finished => exact ⟨hout, hcase⟩

theorem race_raceInv (P0 : List Nat) (sched : List Bool) :
    ∀ s, RaceInv P0 s → RaceInv P0 (race sched s) := by
  induction sched with
  | nil => intro s h; exact h
  | cons b rest ih =>
    intro s h
    unfold race
    rw [List.foldl_cons]
    cases b
    · exact ih _ (stepFin_raceInv P0 s h)
    · exact ih _ (stepRem_raceInv P0 s h)

theorem remainderStages_closed (sched : List Bool) :
    ∀ (productTree : List Chan) (level : Int) (input : Chan), input.closed = false →
      (remainderStages sched level input productTree).closed = false := by
  intro productTree
  induction productTree with
  | nil => intro level input _; rfl
  | cons products rest ih =>
    intro level input hin
    unfold remainderStages
    split_ifs with h1 h2
    · simp only
      exact ih _ _ (by simp [hin])
    · rfl
    · simp only
      exact (race_openInv sched _ ⟨hin, rfl, rfl, by simp, by simp⟩).2.2.1

/-- The records of the remainder stages name moduli of the first spilled
level, after its first value. -/
theorem remainderStages_out (sched : List Bool) :
    ∀ (productTree : List Chan) (level : Int) (input : Chan) (r : Collision),
      r ∈ (remainderStages sched level input productTree).out →
      ∃ c, productTree.getLast? = some c ∧ r.Modulus ∈ c.vals.tail := by
  intro productTree
  induction productTree with
  | nil => intro level input r hr; simp [remainderStages] at hr
  | cons products rest ih =>
    intro level input r hr
    unfold remainderStages at hr
    split_ifs at hr with h1 h2
    · simp only at hr
      obtain ⟨c, hc, hm⟩ := ih _ _ r hr
      refine ⟨c, ?_, hm⟩
      cases rest with
      | nil => simp at hc
      | cons a l => rw [List.getLast?_cons_cons]; exact hc
    · simp at hr
    · simp only at hr
      have hnil : rest = [] := by
        cases rest with
        | nil => rfl
        | cons a l => simp at h2
      subst hnil
      refine ⟨products, rfl, ?_⟩
      exact (race_raceInv products.vals sched _
        ⟨by simp, Or.inl ⟨rfl, rfl, by simp, Or.inl rfl⟩⟩).1 r hr

theorem lowmemProductTreeLevel_closed (sched : List Bool) :
    ∀ (fuel : Nat) (level : Int) (input : List Nat) (channels : List Chan),
      (lowmemProductTreeLevel sched fuel level input channels).closed = false := by
  intro fuel
  induction fuel with
  | zero => intro level input channels; rfl
  | succ f ih =>
    intro level input channels
    unfold lowmemProductTreeLevel
    split
    · split
      · exact remainderStages_closed sched _ _ _ rfl
      · rfl
    · exact remainderStages_closed sched _ _ _ rfl
    · exact ih _ _ _

theorem lowmemProductTreeLevel_out (sched : List Bool) :
    ∀ (fuel : Nat) (level : Int) (input : List Nat) (channels : List Chan) (c0 : Chan)
      (r : Collision), channels.head? = some c0 →
      r ∈ (lowmemProductTreeLevel sched fuel level input channels).out →
      r.Modulus ∈ c0.vals.tail := by
  intro fuel
  induction fuel with
  | zero => intro level input channels c0 r _ hr; simp [lowmemProductTreeLevel] at hr
  | succ f ih =>
    intro level input channels c0 r hc hr
    have hlast : channels.reverse.getLast? = some c0 := by
      rw [List.getLast?_reverse]; exact hc
    unfold lowmemProductTreeLevel at hr
    split at hr
    · split at hr
      · rename_i heq
        rw [heq] at hlast
        simp at hlast
      · simp at hr
    · obtain ⟨c, hc', hm⟩ := remainderStages_out sched _ _ _ r hr
      rw [hlast] at hc'
      cases hc'
      exact hm
    · refine ih _ _ _ c0 r ?_ hr
      cases channels with
      | nil => simp at hc
      | cons a l => simpa using hc

/-- Every record of the low-memory engine names a modulus after the first
one, whatever the schedule. -/
theorem LowMemSmoothPartsGCD_out (sched : List Bool) (M : List Nat) (r : Collision)
    (hr : r ∈ (LowMemSmoothPartsGCD sched M).out) : r.Modulus ∈ M.tail := by
  unfold LowMemSmoothPartsGCD lowmemProductTreeLevel at hr
  split at hr
  · simp [lowmemRemainderTreeLevel, remainderStages] at hr
  · simp [lowmemRemainderTreeLevel, remainderStages] at hr
  · rename_i a b rest
    exact lowmemProductTreeLevel_out sched _ _ _
      ([] ++ [tmpfileReadWriter { vals := a :: b :: rest, closed := true }])
      (tmpfileReadWriter { vals := a :: b :: rest, closed := true }) r (by simp) hr

theorem length_lowmemProducts : ∀ l : List Nat, (lowmemProducts l).length = (l.length + 1) / 2
  | [] => by simp [lowmemProducts]
  | [_] => by simp [lowmemProducts]
  | a :: b :: rest => by
    simp only [lowmemProducts, List.length_cons, length_lowmemProducts rest]
    omega

/-- More levels than inputs are never needed: the result of the product stages
is the same with any fuel above the number of inputs. -/
theorem lowmemProductTreeLevel_fuel (sched : List Bool) :
    ∀ (fuel fuel' : Nat) (level : Int) (input : List Nat) (channels : List Chan),
      input.length < fuel → input.length < fuel' →
      lowmemProductTreeLevel sched fuel level input channels =
        lowmemProductTreeLevel sched fuel' level input channels := by
  intro fuel
  induction fuel with
  | zero => intro fuel' level input channels h; omega
  | succ f ih =>
    intro fuel' level input channels h h'
    cases fuel' with
    | zero => omega
    | succ f' =>
      unfold lowmemProductTreeLevel
      split
      · rfl
      · rfl
      · rename_i a b rest
        have hl := length_lowmemProducts (a :: b :: rest)
        simp only [List.length_cons] at h h' hl
        exact ih f' _ _ _ (by rw [hl]; omega) (by rw [hl]; omega)

/-! ## The dedup filter -/

theorem firstOccurrences_append_singleton (s : List Collision) (c : Collision) :
    firstOccurrences (s ++ [c]) =
      firstOccurrences s ++ (if c.String ∈ s.map Collision.String then [] else [c]) := by
  unfold firstOccurrences
  rw [List.length_append, List.length_singleton, List.range_succ, List.filterMap_append]
  congr 1
  · apply List.filterMap_congr
    intro i hi
    have hi' : i < s.length := List.mem_range.1 hi
    rw [List.getElem?_append_left hi', List.take_append_of_le_length (le_of_lt hi')]
  · simp only [List.filterMap_cons, List.filterMap_nil]
    rw [List.getElem?_append_right (le_refl _)]
    simp only [Nat.sub_self, List.getElem?_cons_zero, List.take_left']
    split_ifs <;> rfl

theorem firstOccurrences_nil : firstOccurrences [] = [] := rfl

theorem firstOccurrences_sublist (s : List Collision) : (firstOccurrences s).Sublist s := by
  induction s using List.reverseRecOn with
  | nil => simp [firstOccurrences_nil]
  | append_singleton s c ih =>
    rw [firstOccurrences_append_singleton]
    apply List.Sublist.append ih
    split_ifs <;> simp

theorem mem_keys_firstOccurrences (s : List Collision) (k : Except Panic String) :
    k ∈ (firstOccurrences s).map Collision.String ↔ k ∈ s.map Collision.String := by
  induction s using List.reverseRecOn with
  | nil => simp [firstOccurrences_nil]
  | append_singleton s c ih =>
    rw [firstOccurrences_append_singleton, List.map_append, List.map_append, List.mem_append,
      List.mem_append, ih]
    by_cases hc : c.String ∈ s.map Collision.String
    · rw [if_pos hc]
      constructor
      · rintro (h | h)
        · exact Or.inl h
        · simp at h
      · rintro (h | h)
        · exact Or.inl h
        · simp only [List.map_cons, List.map_nil, List.mem_singleton] at h
          rw [h]; exact Or.inl hc
    · rw [if_neg hc]

theorem nodup_keys_firstOccurrences (s : List Collision) :
    ((firstOccurrences s).map Collision.String).Nodup := by
  induction s using List.reverseRecOn with
  | nil => simp [firstOccurrences_nil]
  | append_singleton s c ih =>
    rw [firstOccurrences_append_singleton]
    by_cases hc : c.String ∈ s.map Collision.String
    · rw [if_pos hc, List.append_nil]; exact ih
    · rw [if_neg hc, List.map_append, List.nodup_append]
      refine ⟨ih, by simp, ?_⟩
      intro k hk hk'
      simp only [List.map_cons, List.map_nil, List.mem_singleton] at hk'
      rw [hk'] at hk
      exact hc ((mem_keys_firstOccurrences s _).1 hk)

theorem firstOccurrences_of_nodup (s : List Collision)
    (h : (s.map Collision.String).Nodup) : firstOccurrences s = s := by
  induction s using List.reverseRecOn with
  | nil => rfl
  | append_singleton s c ih =>
    rw [List.map_append, List.nodup_append] at h
    rw [firstOccurrences_append_singleton, ih h.1]
    have hc : c.String ∉ s.map Collision.String := fun hmem =>
      h.2.2 hmem (by simp)
    rw [if_neg hc]

theorem Collision.WellFormed.string_ok (c : Collision) (h : c.WellFormed) :
    ∃ k, c.String = .ok k := by
  unfold Collision.WellFormed at h
  unfold Collision.String Collision.HavePrivate
  rcases c with ⟨N, P, Q⟩
  cases P <;> cases Q <;> simp at h ⊢
  split_ifs <;> simp

/-- The loop of `uniqifyProc` after the records `pre`, on records whose key can
be taken: it sends the first occurrences and closes its output. -/
theorem uniqifyLoop_spec : ∀ (rest pre : List Collision) (seen : List String)
    (out : List Collision),
    (∀ k, k ∈ seen ↔ Except.ok k ∈ pre.map Collision.String) →
    out = firstOccurrences pre →
    (∀ c ∈ rest, ∃ k, c.String = .ok k) →
    uniqifyLoop rest seen out =
      { out := firstOccurrences (pre ++ rest), panic := none, closed := true }
  | [], pre, seen, out, _, hout, _ => by
    rw [List.append_nil, ← hout]; rfl
  | c :: rest, pre, seen, out, hseen, hout, hok => by
    obtain ⟨k, hk⟩ := hok c (List.mem_cons_self _ _)
    have hrest : ∀ c' ∈ rest, ∃ k, c'.String = .ok k := fun c' hc' =>
      hok c' (List.mem_cons_of_mem _ hc')
    have happ : pre ++ c :: rest = (pre ++ [c]) ++ rest := by simp
    unfold uniqifyLoop
    rw [hk]
    simp only
    by_cases hmem : k ∈ seen
    · rw [if_pos hmem, happ]
      apply uniqifyLoop_spec rest (pre ++ [c]) seen out _ _ hrest
      · intro k'
        rw [hseen k', List.map_append, List.mem_append]
        constructor
        · exact Or.inl
        · rintro (h | h)
          · exact h
          · simp only [List.map_cons, List.map_nil, List.mem_singleton] at h
            rw [h, hk]; exact (hseen k).1 hmem
      · rw [firstOccurrences_append_singleton, hk, if_pos ((hseen k).1 hmem), List.append_nil,
          hout]
    · rw [if_neg hmem, happ]
      apply uniqifyLoop_spec rest (pre ++ [c]) (k :: seen) (out ++ [c]) _ _ hrest
      · intro k'
        rw [List.mem_cons, hseen k', List.map_append, List.mem_append]
        simp only [List.map_cons, List.map_nil, List.mem_singleton, hk, Except.ok.injEq]
        tauto
      · rw [firstOccurrences_append_singleton, hk,
          if_neg (fun h => hmem ((hseen k).2 h)), hout]

/-- The loop of `uniqifyProc` on any records: what it sends is the first
occurrences of the records before the first one whose key cannot be taken. -/
theorem uniqifyLoop_out : ∀ (rest pre : List Collision) (seen : List String)
    (out : List Collision),
    (∀ k, k ∈ seen ↔ Except.ok k ∈ pre.map Collision.String) →
    out = firstOccurrences pre →
    ∃ t, t.Sublist rest ∧ (∀ c ∈ t, ∃ k, c.String = .ok k) ∧
      (uniqifyLoop rest seen out).out = firstOccurrences (pre ++ t)
  | [], pre, seen, out, _, hout => ⟨[], List.Sublist.refl _, by simp, by
      rw [List.append_nil, ← hout]; rfl⟩
  | c :: rest, pre, seen, out, hseen, hout => by
    have happ : ∀ t, pre ++ c :: t = (pre ++ [c]) ++ t := by simp
    unfold uniqifyLoop
    cases hk : c.String with
    | error e =>
      refine ⟨[], List.nil_sublist _, by simp, ?_⟩
      simp only [List.append_nil]
      exact hout
    | ok k =>
      simp only
      by_cases hmem : k ∈ seen
      · rw [if_pos hmem]
        obtain ⟨t, ht, hok, hres⟩ := uniqifyLoop_out rest (pre ++ [c]) seen out (by
          intro k'
          rw [hseen k', List.map_append, List.mem_append]
          constructor
          · exact Or.inl
          · rintro (h | h)
            · exact h
            · simp only [List.map_cons, List.map_nil, List.mem_singleton] at h
              rw [h, hk]; exact (hseen k).1 hmem) (by
          rw [firstOccurrences_append_singleton, hk, if_pos ((hseen k).1 hmem),
            List.append_nil, hout])
        refine ⟨c :: t, List.Sublist.cons₂ _ ht, ?_, ?_⟩
        · intro c' hc'
          rcases List.mem_cons.1 hc' with h | h
          · exact ⟨k, by rw [h, hk]⟩
          · exact hok c' h
        · rw [happ]; exact hres
      · rw [if_neg hmem]
        obtain ⟨t, ht, hok, hres⟩ := uniqifyLoop_out rest (pre ++ [c]) (k :: seen)
          (out ++ [c]) (by
          intro k'
          rw [List.mem_cons, hseen k', List.map_append, List.mem_append]
          simp only [List.map_cons, List.map_nil, List.mem_singleton, hk, Except.ok.injEq]
          tauto) (by
          rw [firstOccurrences_append_singleton, hk,
            if_neg (fun h => hmem ((hseen k).2 h)), hout])
        refine ⟨c :: t, List.Sublist.cons₂ _ ht, ?_, ?_⟩
        · intro c' hc'
          rcases List.mem_cons.1 hc' with h | h
          · exact ⟨k, by rw [h, hk]⟩
          · exact hok c' h
        · rw [happ]; exact hres

/-! ## The loader -/

theorem length_arr_DecodeString (s : List Nat) :
    (DecodeString s).arr.length = DecodedLen s.length := by
  simp [DecodeString]

theorem Bytes.slice_cases (b : Bytes) (lo hi : Nat) :
    (b.slice lo hi = .error .indexOutOfRange ∧ ¬ (lo ≤ hi ∧ hi ≤ b.arr.length)) ∨
    (∃ r, b.slice lo hi = .ok r ∧ r.len = hi - lo ∧ lo ≤ hi ∧ hi ≤ b.arr.length) := by
  unfold Bytes.slice
  by_cases h : lo ≤ hi ∧ hi ≤ b.arr.length
  · rw [if_pos h]; exact Or.inr ⟨_, rfl, rfl, h.1, h.2⟩
  · rw [if_neg h]; exact Or.inl ⟨rfl, h⟩

/-- `read_int` gives the offset four bytes on, within the capacity, or it
aborts on a slice out of range. -/
theorem read_int_cases (data : Bytes) (start : Nat) :
    read_int data start = .error .indexOutOfRange ∨
    ∃ n, read_int data start = .ok (n, start + 4) ∧ start + 4 ≤ data.arr.length := by
  unfold read_int
  rcases Bytes.slice_cases data start (start + 4) with ⟨h, _⟩ | ⟨r, h, hlen, _, hcap⟩
  · left; simp only [h, bind, Except.bind]
  · right
    have h4 : 3 < r.len := by omega
    simp only [h, bind, Except.bind, Uint32, if_pos h4, pure, Except.pure]
    exact ⟨_, rfl, hcap⟩

/-- `read_chunk` gives an offset at least four bytes on, within the capacity,
or it aborts on a slice out of range. -/
theorem read_chunk_cases (buffer : Bytes) (i : Nat) :
    read_chunk buffer i = .error .indexOutOfRange ∨
    ∃ s j, read_chunk buffer i = .ok (s, j) ∧ i + 4 ≤ j ∧ j ≤ buffer.arr.length := by
  unfold read_chunk
  rcases read_int_cases buffer i with h | ⟨n, h, _⟩
  · left; simp only [h, bind, Except.bind]
  · rcases Bytes.slice_cases buffer (i + 4) (i + 4 + n) with ⟨h', _⟩ | ⟨r, h', _, _, hcap⟩
    · left; simp only [h, h', bind, Except.bind]
    · right
      simp only [h, h', bind, Except.bind, pure, Except.pure]
      exact ⟨_, _, rfl, by omega, hcap⟩

/-- Three chunks need twelve bytes of capacity for their lengths alone: on a
buffer with less, the three `read_chunk` of `readLine` abort. -/
theorem readLine_aborts_of_cap (st : Loader) (text : List Nat)
    (hnew : text.takeWhile (fun c => c ≠ 44) ∉ st.seen)
    (hcap : (DecodeString (text.takeWhile fun c => c ≠ 44)).arr.length < 12) :
    readLine st text = .error .indexOutOfRange := by
  unfold readLine
  simp only [if_neg hnew]
  generalize DecodeString (text.takeWhile fun c => c ≠ 44) = data at hcap
  rcases read_chunk_cases data 0 with h1 | ⟨s1, i1, h1, hi1, _⟩
  · simp only [h1, bind, Except.bind]
  · rcases read_chunk_cases data i1 with h2 | ⟨s2, i2, h2, hi2, _⟩
    · simp only [h1, h2, bind, Except.bind]
    · rcases read_chunk_cases data i2 with h3 | ⟨s3, i3, h3, hi3, hc3⟩
      · simp only [h1, h2, h3, bind, Except.bind]
      · omega

/-- A record of three chunks is loaded: the metadata `a`, the exponent
`65537` and the modulus `35`, as the line `AAAAAWEAAAADAQABAAAAASM=`. -/
theorem readModuli_example :
    readModuli [[65, 65, 65, 65, 65, 87, 69, 65, 65, 65, 65, 68, 65, 81, 65, 66, 65, 65, 65,
      65, 65, 83, 77, 61]] = .ok [35] := by
  decide

/-! ## When the run aborts -/

theorem PromotedZero.abortCause (M : List Nat) (lo : Nat) (h : PromotedZero M lo) :
    AbortCause M := by
  obtain ⟨l, hl, _, hodd, hz⟩ := h
  exact ⟨l, levelSize M l - 1, by omega, by omega, hz⟩

/-- The cell of a promoted odd last node holds the remainder of the node it is
promoted to, while the level is handled. -/
theorem promoted_cell (M : List Nat) (lv : List Slice) (L : Nat) (hL : L < depth M)
    (hlay : Layout M lv (depth M)) (h : Heap)
    (habove : h.cells (ptrAt lv (L + 1) (levelSize M (L + 1) - 1)) =
      remainderValue M (L + 1) (levelSize M (L + 1) - 1))
    (hodd : levelSize M L % 2 = 1) :
    h.cells (ptrAt lv L (levelSize M L - 1)) = remainderValue M L (levelSize M L - 1) := by
  have hp := hlay.promo L hL hodd
  rw [← hp, habove]
  unfold remainderValue
  rw [nodeValue_promoted M L (levelSize M L - 1) (levelSize M (L + 1) - 1) (by omega)
    (by rw [levelSize_succ]; omega) hodd]

/-- The iteration of `remainderTreeLevel` on a promoted node whose remainder
is zero divides by zero. -/
theorem remainderTreeBody_aborts (M : List Nat) (lv : List Slice) (L : Nat)
    (hL : L < depth M) (hlay : Layout M lv (depth M)) (D : Set Nat) (h : Heap)
    (hI : DescentLevelInv M lv L D h) (hodd : levelSize M L % 2 = 1)
    (hz : remainderValue M L (levelSize M L - 1) = 0) :
    remainderTreeBody (lv.getD (L + 1) []) (lv.getD L []) (levelSize M L - 1) h =
      .error .divisionByZero := by
  have hi : levelSize M L - 1 < levelSize M L := by omega
  have hk : (levelSize M L - 1) / 2 < levelSize M (L + 1) := by rw [levelSize_succ]; omega
  have hk' : levelSize M (L + 1) - 1 < levelSize M (L + 1) := by rw [levelSize_succ]; omega
  rw [remainderTreeBody_eq _ _ _ (ptrAt lv L (levelSize M L - 1))
    (ptrAt lv (L + 1) ((levelSize M L - 1) / 2)) h
    (hlay.slot L (by omega) _ hi) (hlay.slot (L + 1) (by omega) _ hk)]
  have hc := promoted_cell M lv L hL hlay h
    (hI.above (L + 1) (by omega) (by omega) _ hk') hodd
  rw [hc, hz, if_pos (Nat.mul_zero 0)]

/-- The level of a promoted node whose remainder is zero: the workers of
`remainderTreeLevel` abort on a division by zero. -/
theorem remainderLevel_aborts (M : List Nat) (hM : ∀ m ∈ M, 1 < m) (moduli : Slice)
    (tree : List Slice) (hlen : tree.length = depth M)
    (hlay : Layout M (moduli :: tree) (depth M)) (nThreads : Nat) (hK : 0 < nThreads)
    (t : Nat) (ht : t + 1 < depth M) (h : Heap)
    (hI : DescentInv M (moduli :: tree) (t + 1) h)
    (hodd : levelSize M (t + 1) % 2 = 1)
    (hz : remainderValue M (t + 1) (levelSize M (t + 1) - 1) = 0) :
    remainderLevel nThreads tree t h = .error .divisionByZero := by
  unfold remainderLevel
  have hsz : (tree.getD t []).length = levelSize M (t + 1) :=
    hlay.size (t + 1) (by omega)
  have key := workers_outcome_set (remainderTreeLevel tree t)
    (remainderTreeBody ((moduli :: tree).getD (t + 1 + 1) []) ((moduli :: tree).getD (t + 1) []))
    (ZeroDivisor M 1)
    (fun D h' => DescentLevelInv M (moduli :: tree) (t + 1) D h' ∧
      levelSize M (t + 1) - 1 ∉ D)
    nThreads (levelSize M (t + 1)) hK
    (by
      intro start h'
      unfold remainderTreeLevel
      simp only [index_getD tree (t + 1) (by omega), index_getD tree t (by omega), bind,
        Except.bind, hsz]
      rfl)
    h
    ⟨⟨hI.done, fun i hi => absurd hi (by simp),
      fun l hl i hi _ h2 _ => hI.todo l hl i hi h2⟩, by simp⟩
    (by
      intro D i h' hI' hi hD
      by_cases hlast : i = levelSize M (t + 1) - 1
      · rw [hlast, remainderTreeBody_aborts M (moduli :: tree) (t + 1) ht hlay D h' hI'.1
          hodd hz]
        exact ⟨rfl, t + 1, ht, by omega, hodd, hz⟩
      · exact Outcome.imp
          (remainderTreeBody_spec M hM (moduli :: tree) (t + 1) ht hlay D h' hI'.1 i hi hD)
          (fun _ he => ZeroDivisor.mono M (by omega) he)
          (fun _ hs => ⟨hs, fun hmem => by
            rcases hmem with he | hmem
            · exact hlast he.symm
            · exact hI'.2 hmem⟩))
  cases hr : workers (remainderTreeLevel tree t) nThreads (List.range nThreads) h with
  | error e =>
    rw [hr] at key
    have he : ZeroDivisor M 1 e := key
    rw [he.1]
  | ok h' =>
    rw [hr] at key
    have hk : levelSize M (t + 1) - 1 ∉ {i | i < levelSize M (t + 1)} := key.2
    exact absurd (show levelSize M (t + 1) - 1 < levelSize M (t + 1) by omega) hk

/-- The descent aborts on a division by zero when a promoted node of a level
it handles has the remainder zero. -/
theorem remainderLevels_aborts (M : List Nat) (hM : ∀ m ∈ M, 1 < m) (moduli : Slice)
    (tree : List Slice) (hlen : tree.length = depth M)
    (hlay : Layout M (moduli :: tree) (depth M)) (nThreads : Nat) (hK : 0 < nThreads) :
    ∀ k h, k + 1 ≤ depth M → DescentInv M (moduli :: tree) k h →
      (∃ l, 1 ≤ l ∧ l ≤ k ∧ levelSize M l % 2 = 1 ∧
        remainderValue M l (levelSize M l - 1) = 0) →
      remainderLevels nThreads tree (List.range k).reverse h = .error .divisionByZero := by
  intro k
  induction k with
  | zero => intro h _ _ ⟨l, h1, h2, _⟩; omega
  | succ k ih =>
    intro h hk hI ⟨l, h1, h2, hodd, hz⟩
    rw [List.range_succ, List.reverse_append, List.reverse_singleton, List.singleton_append]
    unfold remainderLevels
    by_cases hl : l = k + 1
    · subst hl
      rw [remainderLevel_aborts M hM moduli tree hlen hlay nThreads hK k (by omega) h hI hodd hz]
    · have := remainderLevel_spec M hM moduli tree hlen hlay nThreads hK k (by omega) h hI
      cases hr : remainderLevel nThreads tree k h with
      | error e =>
        rw [hr] at this
        have he : ZeroDivisor M 1 e := this
        simp only
        rw [he.1]
      | ok h' =>
        rw [hr] at this
        exact ih h' (by omega) this ⟨l, h1, by omega, hodd, hz⟩

/-- The first two phases abort on a division by zero exactly when a promoted
node of a level of the tree has the remainder zero. -/
theorem treePhases_aborts_iff (M : List Nat) (hn : 2 ≤ M.length) (hM : ∀ m ∈ M, 1 < m)
    (nThreads : Nat) (hK : 0 < nThreads) :
    (PromotedZero M 1 →
      treePhases nThreads (loadModuli M).1 (loadModuli M).2 = .error .divisionByZero) ∧
    (¬ PromotedZero M 1 →
      ∃ r, treePhases nThreads (loadModuli M).1 (loadModuli M).2 = .ok r) := by
  constructor
  · rintro ⟨l, hl, h1, hodd, hz⟩
    obtain ⟨s, hs, hP⟩ := productPhase_spec M hn nThreads hK
    unfold treePhases
    simp only [hs, bind, Except.bind]
    have hI := descentInv_init M hn hM _ s hP
    have hd := makeTree_spec M hn
    rw [hP.treeLen, remainderLevels_aborts M hM _ s.tree hP.treeLen hP.layout nThreads hK
      (depth M - 1) s.heap (by omega) hI ⟨l, h1, by omega, hodd, hz⟩]
  · intro hno
    have := treePhases_spec M hn hM nThreads hK
    cases hr : treePhases nThreads (loadModuli M).1 (loadModuli M).2 with
    | error e =>
      rw [hr] at this
      have he : ZeroDivisor M 1 e := this
      exact absurd he.2 hno
    | ok r => exact ⟨r, rfl⟩

/-- The leaf step on an odd last modulus whose remainder is zero divides by zero. -/
theorem leafStep_aborts (M : List Nat) (lv : List Slice)
    (hdepth : 1 ≤ depth M) (hlay : Layout M lv (depth M)) (h : Heap)
    (hI : DescentInv M lv 0 h) (hodd : levelSize M 0 % 2 = 1)
    (hz : remainderValue M 0 (levelSize M 0 - 1) = 0) :
    leafStep h (lv.getD 1 []) (lv.getD 0 []) (levelSize M 0 - 1) = .error .divisionByZero := by
  have hi : levelSize M 0 - 1 < levelSize M 0 := by omega
  have hk : (levelSize M 0 - 1) / 2 < levelSize M 1 := by rw [levelSize_succ]; omega
  have hk' : levelSize M 1 - 1 < levelSize M 1 := by rw [levelSize_succ]; omega
  rw [leafStep_eq h _ _ _ (ptrAt lv 0 (levelSize M 0 - 1))
    (ptrAt lv 1 ((levelSize M 0 - 1) / 2))
    (hlay.slot 0 (by omega) _ hi) (hlay.slot 1 (by omega) _ hk)]
  have hc := promoted_cell M lv 0 (by omega) hlay h
    (hI.done 1 (by omega) hdepth _ hk') hodd
  rw [hc, hz, if_pos (Nat.mul_zero 0)]

/-- The leaf phase on an odd last modulus whose remainder is zero aborts on a
division by zero. -/
theorem leafPhase_aborts (M : List Nat) (hM : ∀ m ∈ M, 1 < m) (lv : List Slice)
    (hdepth : 1 ≤ depth M) (hlay : Layout M lv (depth M)) (h : Heap)
    (hI : DescentInv M lv 0 h) (nThreads : Nat) (hK : 0 < nThreads)
    (hodd : levelSize M 0 % 2 = 1)
    (hz : remainderValue M 0 (levelSize M 0 - 1) = 0) :
    ∃ out, workers (remainderTreeFinal h (lv.getD 1 []) (lv.getD 0 [])) nThreads
      (List.range nThreads) [] = .error (.divisionByZero, out) := by
  have key := workers_outcome_set (remainderTreeFinal h (lv.getD 1 []) (lv.getD 0 []))
    (remainderTreeFinalBody h (lv.getD 1 []) (lv.getD 0 []))
    (fun e => e.1 = Panic.divisionByZero)
    (fun D _ => levelSize M 0 - 1 ∉ D)
    nThreads M.length hK
    (by
      intro start out
      unfold remainderTreeFinal
      rw [hlay.size 0 (by omega), levelSize_zero])
    [] (by simp)
    (by
      intro D i out hI' hi hD
      unfold remainderTreeFinalBody
      by_cases hlast : i = levelSize M 0 - 1
      · rw [hlast, leafStep_aborts M lv hdepth hlay h hI hodd hz]
        rfl
      · have hs := leafStep_spec M hM lv hdepth hlay h hI i hi
        have hnot : levelSize M 0 - 1 ∉ insert i D := by
          intro hmem
          rcases hmem with he | hmem
          · exact hlast he.symm
          · exact hI' hmem
        cases hl : leafStep h (lv.getD 1 []) (lv.getD 0 []) i with
        | error e =>
          rw [hl] at hs
          have he : ZeroDivisor M 0 e := hs
          exact he.1
        | ok o =>
          cases o with
          | none => exact hnot
          | some c => exact hnot)
  cases hr : workers (remainderTreeFinal h (lv.getD 1 []) (lv.getD 0 [])) nThreads
      (List.range nThreads) [] with
  | error e =>
    rw [hr] at key
    obtain ⟨p, out⟩ := e
    have he : p = Panic.divisionByZero := key
    exact ⟨out, by rw [he]⟩
  | ok out =>
    rw [hr] at key
    have hk : levelSize M 0 - 1 ∉ {i | i < M.length} := key
    rw [levelSize_zero] at hodd
    exact absurd (show levelSize M 0 - 1 < M.length by rw [levelSize_zero]; omega) hk

/-- A run of `SmoothPartsGCD` on at least two moduli greater than one aborts on
a division by zero when a promoted node has the remainder zero. -/
theorem SmoothPartsGCD_aborts (nThreads : Nat) (hK : 0 < nThreads) (M : List Nat)
    (hn : 2 ≤ M.length) (hM : ∀ m ∈ M, 1 < m) (hz : PromotedZero M 0) :
    (SmoothPartsGCD nThreads M).panic = some .divisionByZero ∧
    (SmoothPartsGCD nThreads M).closed = false := by
  have hlen : ¬ (loadModuli M).2.length < 2 := by rw [length_loadModuli]; omega
  have hd := makeTree_spec M hn
  have ht := treePhases_spec M hn hM nThreads hK
  unfold SmoothPartsGCD SmoothPartsGCD.run
  rw [if_neg hlen]
  cases htp : treePhases nThreads (loadModuli M).1 (loadModuli M).2 with
  | error e =>
    rw [htp] at ht
    have he : ZeroDivisor M 1 e := ht
    rw [he.1]
    exact ⟨rfl, rfl⟩
  | ok res =>
    obtain ⟨h, tree⟩ := res
    rw [htp] at ht
    obtain ⟨htl, hlay, hI⟩ := ht
    simp only at htl hlay hI ⊢
    have hidx : index tree 0 = .ok (tree.getD 0 []) := index_getD tree 0 (by omega)
    rw [hidx]
    simp only
    obtain ⟨l, hl, _, hodd, hzl⟩ := hz
    by_cases hl0 : l = 0
    · subst hl0
      obtain ⟨out, hout⟩ := leafPhase_aborts M hM ((loadModuli M).2 :: tree) hd.1 hlay h hI
        nThreads hK hodd hzl
      have e1 : ((loadModuli M).2 :: tree).getD 1 [] = tree.getD 0 [] := rfl
      have e0 : ((loadModuli M).2 :: tree).getD 0 [] = (loadModuli M).2 := rfl
      rw [e1, e0] at hout
      rw [hout]
      exact ⟨rfl, rfl⟩
    · have hab := (treePhases_aborts_iff M hn hM nThreads hK).1 ⟨l, hl, by omega, hodd, hzl⟩
      rw [hab] at htp
      cases htp

/-- A run of `SmoothPartsGCD` on at least two moduli greater than one divides
by zero exactly when a promoted node has the remainder zero; otherwise it
completes. -/
theorem SmoothPartsGCD_panic_iff (nThreads : Nat) (hK : 0 < nThreads) (M : List Nat)
    (hn : 2 ≤ M.length) (hM : ∀ m ∈ M, 1 < m) :
    ((SmoothPartsGCD nThreads M).panic = some .divisionByZero ↔ PromotedZero M 0) ∧
    ((SmoothPartsGCD nThreads M).panic = none ↔ ¬ PromotedZero M 0) := by
  constructor
  · constructor
    · intro hp
      rcases SmoothPartsGCD_cases nThreads hK M hn hM with ⟨_, h⟩ | ⟨h, _⟩
      · exact h
      · rw [h] at hp; cases hp
    · intro hz
      exact (SmoothPartsGCD_aborts nThreads hK M hn hM hz).1
  · constructor
    · intro hp hz
      rw [(SmoothPartsGCD_aborts nThreads hK M hn hM hz).1] at hp
      cases hp
    · intro hz
      rcases SmoothPartsGCD_cases nThreads hK M hn hM with ⟨_, h⟩ | ⟨h, _⟩
      · exact absurd h hz
      · exact h

/-! ## The values of the nodes as products of moduli, and the memory after the run -/

/-- A node of the product tree is the product of the moduli below it. -/
theorem nodeValue_eq_subtreeProduct (M : List Nat) :
    ∀ l i, nodeValue M l i = subtreeProduct M l i := by
  intro l
  induction l with
  | zero =>
    intro i
    unfold nodeValue subtreeProduct levelValues
    simp only [pow_zero, Nat.mul_one, Function.iterate_zero, id_eq]
    by_cases hi : i < M.length
    · have hd : M.drop i = M[i] :: M.drop (i + 1) := List.drop_eq_getElem_cons hi
      rw [List.getD_eq_getElem _ _ hi, hd]
      show M[i] = (M[i] :: List.take 0 (List.drop (i + 1) M)).prod
      rw [List.take_zero, List.prod_singleton]
    · rw [List.getD_eq_default _ _ (by omega), List.drop_eq_nil_of_le (by omega)]
      simp
  | succ l ih =>
    intro i
    rw [nodeValue_succ, ih, ih]
    unfold subtreeProduct
    have e1 : i * 2 ^ (l + 1) = 2 * i * 2 ^ l := by rw [pow_succ]; ring
    have e2 : (2 : Nat) ^ (l + 1) = 2 ^ l + 2 ^ l := by rw [pow_succ]; ring
    have e3 : (2 * i + 1) * 2 ^ l = 2 * i * 2 ^ l + 2 ^ l := by ring
    rw [e1, e2, List.take_add, List.prod_append, List.drop_drop, e3]

/-- The first two phases are the product phase followed by the descent. -/
theorem treePhases_eq_productPhase (nThreads : Nat) (h : Heap) (moduli : Slice) :
    treePhases nThreads h moduli =
      (productPhase nThreads h moduli).bind fun s =>
        (remainderLevels nThreads s.tree (List.range (s.tree.length - 1)).reverse s.heap).bind
          fun h' => .ok (h', s.tree) := rfl

/-- The product phase as `productPhase`. -/
theorem productPhase_ok (M : List Nat) (hn : 2 ≤ M.length) (nThreads : Nat)
    (hK : 0 < nThreads) :
    ∃ s, productPhase nThreads (loadModuli M).1 (loadModuli M).2 = .ok s ∧
      ProductInv M (loadModuli M).2 (depth M) s :=
  productPhase_spec M hn nThreads hK

theorem getD_loadModuli (M : List Nat) (i : Nat) (hi : i < M.length) :
    (loadModuli M).2.getD i none = some i := by
  have h := getElem?_loadModuli M i hi
  rw [List.getD_eq_getElem?_getD, h]
  rfl

/-- The moduli after the descent: a modulus that is not an odd last one is
unchanged, and the cell of an odd last modulus holds the product of all the
moduli modulo its square. -/
theorem moduli_after_descent (M : List Nat) (lv : List Slice)
    (hdepth : 1 ≤ depth M) (hlay : Layout M lv (depth M)) (h : Heap)
    (hI : DescentInv M lv 0 h) :
    (∀ i, i < M.length → ¬ (M.length % 2 = 1 ∧ i + 1 = M.length) →
      h.cells (ptrAt lv 0 i) = M.getD i 0) ∧
    (M.length % 2 = 1 → h.cells (ptrAt lv 0 (M.length - 1)) =
      M.prod % (M.getD (M.length - 1) 0 * M.getD (M.length - 1) 0)) := by
  constructor
  · intro i hi hlast
    have hi0 : i < levelSize M 0 := hi
    have hno : ∀ l', 0 < l' → l' ≤ depth M → ∀ k, k < levelSize M l' →
        ptrAt lv l' k ≠ ptrAt lv 0 i := by
      intro l' h1 h2 k h3 h4
      obtain ⟨k', hk', hkk⟩ := hlay.chain 0 l' h1 h2 i k hi0 h3 h4.symm
      obtain ⟨e1, _, e3⟩ := hlay.adj 0 (by omega) i k' hi0 hk' hkk
      exact hlast ⟨e3, e1⟩
    rw [hI.todo 0 (le_refl _) i hi0 hno, nodeValue_zero M i hi]
  · intro hodd
    have hk' : levelSize M 1 - 1 < levelSize M 1 := by
      rw [levelSize_succ, levelSize_zero]; omega
    have hc := promoted_cell M lv 0 (by omega) hlay h (hI.done 1 (by omega) hdepth _ hk') hodd
    rw [levelSize_zero] at hc
    rw [hc]
    unfold remainderValue
    rw [nodeValue_zero M _ (by omega)]

/-- The memory of a run is the memory after the descent, and there is one
exactly when the run completes. -/
theorem SmoothPartsGCD_memory_eq (nThreads : Nat) (M : List Nat) (hn : 2 ≤ M.length) :
    ((SmoothPartsGCD nThreads M).panic = none →
      ∃ h tree, treePhases nThreads (loadModuli M).1 (loadModuli M).2 = .ok (h, tree) ∧
        SmoothPartsGCD.memory nThreads (loadModuli M).1 (loadModuli M).2 = .ok h) ∧
    (∀ h, SmoothPartsGCD.memory nThreads (loadModuli M).1 (loadModuli M).2 = .ok h →
      ∃ tree, treePhases nThreads (loadModuli M).1 (loadModuli M).2 = .ok (h, tree)) := by
  have hlen : ¬ (loadModuli M).2.length < 2 := by rw [length_loadModuli]; omega
  unfold SmoothPartsGCD SmoothPartsGCD.run SmoothPartsGCD.memory
  rw [if_neg hlen, if_neg hlen]
  cases htp : treePhases nThreads (loadModuli M).1 (loadModuli M).2 with
  | error e => simp
  | ok res =>
    obtain ⟨h, tree⟩ := res
    simp only
    cases hidx : index tree 0 with
    | error e => simp
    | ok lastLevel =>
      simp only
      cases hw : workers (remainderTreeFinal h lastLevel (loadModuli M).2) nThreads
          (List.range nThreads) [] with
      | error e => simp
      | ok out => simp

/-! # The claims -/

/-- C1, at the failing input `[15, 22, 21]`: with any positive number of
workers the run completes and the only record sent is `{15, 3, 5}`. The
last modulus `21` shares the factor `3` with `15` and gets no record: tree
level `0` holds the pointer of the odd last modulus itself, and the
remainder descent overwrites that cell. -/
theorem SmoothPartsGCD_odd_last_unreported (nThreads : Nat) (hK : 0 < nThreads) :
    (SmoothPartsGCD nThreads [15, 22, 21]).panic = none ∧
    (∀ r, r ∈ (SmoothPartsGCD nThreads [15, 22, 21]).out ↔
      r = { Modulus := 15, P := some 3, Q := some 5 }) ∧
    Nat.gcd 21 (15 * 22) = 3 := by
  have hM : ∀ m ∈ ([15, 22, 21] : List Nat), 1 < m := by decide
  have hrun := SmoothPartsGCD_completes nThreads hK [15, 22, 21] (by decide) hM
    (by
      intro j hj
      have hj' : j < 3 := hj
      interval_cases j <;> decide)
  refine ⟨hrun, ?_, by decide⟩
  intro r
  rw [SmoothPartsGCD_out nThreads hK [15, 22, 21] (by decide) hM hrun r]
  constructor
  · rintro ⟨i, hi, h⟩
    have hi' : i < 3 := hi
    interval_cases i
    · have : leafRecord [15, 22, 21] 0 = some { Modulus := 15, P := some 3, Q := some 5 } := by
        decide
      rw [this] at h
      injection h with h
      exact h.symm
    · have : leafRecord [15, 22, 21] 1 = none := by decide
      rw [this] at h
      cases h
    · have : leafRecord [15, 22, 21] 2 = none := by decide
      rw [this] at h
      cases h
  · rintro rfl
    exact ⟨0, by decide, by decide⟩

theorem SmoothPartsGCD_odd_last_unreported_witness :
    SmoothPartsGCD 4 [15, 22, 21] =
      { out := [{ Modulus := 15, P := some 3, Q := some 5 }], panic := none, closed := true } ∧
    (SmoothPartsGCD 4 [15, 22, 21]).panic = none :=
  ⟨by decide, (SmoothPartsGCD_odd_last_unreported 4 (by decide)).1⟩

/-- C2: for every list of moduli that are each a product of two distinct
primes, and every two indices whose moduli differ and share a factor, the
records of `MulAccumGCD` hold one for each of the two moduli with
`P * Q = Modulus` and `1 < P < Modulus`. -/
theorem MulAccumGCD_complete (M : List Nat) (hM : ∀ m ∈ M, TwoPrimes m) (i j : Nat)
    (hi : i < M.length) (hj : j < M.length) (hne : M.getD i 0 ≠ M.getD j 0)
    (hg : 1 < Nat.gcd (M.getD i 0) (M.getD j 0)) :
    ProperlyFactored (MulAccumGCD M) (M.getD i 0) ∧
      ProperlyFactored (MulAccumGCD M) (M.getD j 0) := by
  rcases Nat.lt_trichotomy i j with h | h | h
  · exact MulAccumGCD_complete_lt M hM i j h hj hne hg
  · subst h; exact absurd rfl hne
  · exact (MulAccumGCD_complete_lt M hM j i h hi (Ne.symm hne)
      (by rw [Nat.gcd_comm]; exact hg)).symm

theorem MulAccumGCD_complete_witness :
    ProperlyFactored (MulAccumGCD [15, 21, 22]) 15 ∧
      ProperlyFactored (MulAccumGCD [15, 21, 22]) 21 :=
  MulAccumGCD_complete [15, 21, 22]
    (by
      intro m hm
      simp only [List.mem_cons, List.mem_singleton, List.not_mem_nil, or_false] at hm
      rcases hm with rfl | rfl | rfl
      · exact ⟨3, 5, by norm_num, by norm_num, by decide, by norm_num⟩
      · exact ⟨3, 7, by norm_num, by norm_num, by decide, by norm_num⟩
      · exact ⟨2, 11, by norm_num, by norm_num, by decide, by norm_num⟩)
    0 1 (by decide) (by decide) (by decide) (by decide)

/-- C3: for every list of positive moduli, a record sent by `MulAccumGCD` or by
`SmoothPartsGCD` (with any number of workers, in a run that completes or not)
that has `P` and `Q` present satisfies `P * Q = Modulus`, and `Collision.Test`
returns true on it. -/
theorem emitted_records_verify (nThreads : Nat) (M : List Nat) (_hM : ∀ m ∈ M, 0 < m)
    (r : Collision) (hr : r ∈ MulAccumGCD M ∨ r ∈ (SmoothPartsGCD nThreads M).out) :
    (∀ p q, r.P = some p → r.Q = some q → p * q = r.Modulus) ∧ r.Test = .ok true := by
  have hs : r.Sound := by
    rcases hr with h | h
    · exact MulAccumGCD_sound M r h
    · obtain ⟨p, q, hp, hq, hpq, _⟩ := SmoothPartsGCD_run_leaf nThreads _ _ r h
      exact Or.inr ⟨p, q, hp, hq, hpq⟩
  refine ⟨?_, hs.test⟩
  intro p q hp hq
  rcases hs with ⟨hp', _⟩ | ⟨p', q', hp', hq', hpq⟩
  · rw [hp] at hp'; cases hp'
  · rw [hp] at hp'; rw [hq] at hq'
    cases hp'; cases hq'
    exact hpq

theorem emitted_records_verify_witness :
    (∀ p q, (⟨15, some 3, some 5⟩ : Collision).P = some p →
      (⟨15, some 3, some 5⟩ : Collision).Q = some q →
      p * q = (⟨15, some 3, some 5⟩ : Collision).Modulus) ∧
    (⟨15, some 3, some 5⟩ : Collision).Test = .ok true :=
  emitted_records_verify 2 [15, 21, 22]
    (by
      intro m hm
      simp only [List.mem_cons, List.mem_singleton, List.not_mem_nil, or_false] at hm
      rcases hm with rfl | rfl | rfl <;> decide)
    ⟨15, some 3, some 5⟩ (Or.inr (by decide))

/-- C4: for every list of moduli greater than one and every `i < j` with equal
moduli, every earlier modulus divides the accumulator when index `j` is
reached, and `MulAccumGCD` sends a record for that modulus with `P` and `Q`
absent. -/
theorem MulAccumGCD_reports_duplicates (M : List Nat) (hM : ∀ m ∈ M, 1 < m) (i j : Nat)
    (hij : i < j) (hj : j < M.length) (heq : M.getD i 0 = M.getD j 0) :
    (∀ k, k < j → M.getD k 0 ∣ (mulAccumState M j).1) ∧
    ∃ r ∈ MulAccumGCD M, r.Modulus = M.getD j 0 ∧ r.P = none ∧ r.Q = none := by
  refine ⟨fun k hk => dvd_mulAccumState M j k hk, ?_⟩
  have hdvd : M.getD j 0 ∣ (mulAccumState M j).1 := by
    rw [← heq]; exact dvd_mulAccumState M j i hij
  have h1 : Nat.gcd (mulAccumState M j).1 (M.getD j 0) = M.getD j 0 := Nat.gcd_eq_right hdvd
  have h2 : M.getD j 0 ≠ 1 := by
    have := hM _ (getD_mem M j hj)
    omega
  refine ⟨{ Modulus := M.getD j 0, P := none, Q := none }, ?_, rfl, rfl, rfl⟩
  apply findGCD_sent M j hj h1 h2
  unfold findGCD
  simp only [List.mem_flatMap]
  refine ⟨i, ?_, ?_⟩
  · rw [List.mem_range]; omega
  · rw [if_pos heq]; exact List.mem_singleton.2 rfl

theorem MulAccumGCD_reports_duplicates_witness :
    (∀ k, k < 1 → ([35, 35, 77] : List Nat).getD k 0 ∣ (mulAccumState [35, 35, 77] 1).1) ∧
    ∃ r ∈ MulAccumGCD [35, 35, 77], r.Modulus = 35 ∧ r.P = none ∧ r.Q = none :=
  MulAccumGCD_reports_duplicates [35, 35, 77]
    (by
      intro m hm
      simp only [List.mem_cons, List.mem_singleton, List.not_mem_nil, or_false] at hm
      rcases hm with rfl | rfl | rfl <;> decide)
    0 1 (by decide) (by decide) (by decide)

/-- C5, refuted at `[35, 35]`: the two records sent have `P` and `Q` present,
and none is a duplicate report. -/
theorem SmoothPartsGCD_no_duplicate_record :
    (SmoothPartsGCD 2 [35, 35]).out =
      [{ Modulus := 35, P := some 35, Q := some 1 }, { Modulus := 35, P := some 35, Q := some 1 }] ∧
    ¬ ∃ r ∈ (SmoothPartsGCD 2 [35, 35]).out, r.Modulus = 35 ∧ r.P = none ∧ r.Q = none := by
  decide

/-- C5 as amended: for every list of at least two moduli greater than one on
which the run of `SmoothPartsGCD` completes, and every two indices `i ≠ j` with
equal moduli, the engine sends the record `{M_i, M_i, 1}`, with `P` and `Q`
present, and no record it sends is a duplicate report. -/
theorem SmoothPartsGCD_reports_duplicates_degenerate (nThreads : Nat) (hK : 0 < nThreads)
    (M : List Nat) (hn : 2 ≤ M.length) (hM : ∀ m ∈ M, 1 < m)
    (hrun : (SmoothPartsGCD nThreads M).panic = none) (i j : Nat) (hi : i < M.length)
    (hj : j < M.length) (hne : i ≠ j) (heq : M.getD i 0 = M.getD j 0) :
    { Modulus := M.getD i 0, P := some (M.getD i 0), Q := some 1 } ∈
        (SmoothPartsGCD nThreads M).out ∧
    ∀ r ∈ (SmoothPartsGCD nThreads M).out, r.HavePrivate = true := by
  constructor
  · rw [SmoothPartsGCD_out nThreads hK M hn hM hrun]
    by_cases hlast : M.length % 2 = 1 ∧ i + 1 = M.length
    · refine ⟨j, hj, ?_⟩
      rw [heq]
      exact leafRecord_of_duplicate M hM j i hj hi (Ne.symm hne) heq.symm (by omega)
    · exact ⟨i, hi, leafRecord_of_duplicate M hM i j hi hj hne heq hlast⟩
  · intro r hr
    obtain ⟨p, q, hp, _⟩ := SmoothPartsGCD_run_leaf nThreads _ _ r hr
    simp [Collision.HavePrivate, hp]

theorem SmoothPartsGCD_reports_duplicates_degenerate_witness :
    { Modulus := 35, P := some 35, Q := some 1 } ∈ (SmoothPartsGCD 2 [35, 35, 77, 13]).out ∧
    ∀ r ∈ (SmoothPartsGCD 2 [35, 35, 77, 13]).out, r.HavePrivate = true :=
  SmoothPartsGCD_reports_duplicates_degenerate 2 (by decide) [35, 35, 77, 13] (by decide)
    (by decide) (by decide) 0 1 (by decide) (by decide) (by decide) (by decide)

/-- C6, refuted at `[35, 35, 77, 13]`: the record `{35, 35, 1}` is sent, whose
`P` is the whole modulus and whose `Q` is `1`. -/
theorem SmoothPartsGCD_improper_factor :
    ¬ ∀ r ∈ (SmoothPartsGCD 2 [35, 35, 77, 13]).out, ∀ p q, r.P = some p → r.Q = some q →
      (1 < p ∧ p < r.Modulus) ∧ (1 < q ∧ q < r.Modulus) := by
  intro h
  have := h { Modulus := 35, P := some 35, Q := some 1 } (by decide) 35 1 rfl rfl
  omega

/-- C6 as amended: for every list of at least two moduli greater than one,
every record sent by `SmoothPartsGCD` has `1 < P <= Modulus`,
`1 <= Q < Modulus` and `P * Q = Modulus`: `P` may be the whole modulus and `Q`
may be `1`. -/
theorem SmoothPartsGCD_factor_bounds (nThreads : Nat) (M : List Nat) (_hn : 2 ≤ M.length)
    (_hM : ∀ m ∈ M, 1 < m) (r : Collision) (hr : r ∈ (SmoothPartsGCD nThreads M).out)
    (p q : Nat) (hp : r.P = some p) (hq : r.Q = some q) :
    (1 < p ∧ p ≤ r.Modulus) ∧ (1 ≤ q ∧ q < r.Modulus) ∧ p * q = r.Modulus := by
  obtain ⟨p', q', hp', hq', h1, h2, h3, h4, h5⟩ := SmoothPartsGCD_run_leaf nThreads _ _ r hr
  rw [hp] at hp'
  rw [hq] at hq'
  cases hp'
  cases hq'
  exact ⟨⟨h2, h3⟩, ⟨h4, h5⟩, h1⟩

theorem SmoothPartsGCD_factor_bounds_witness :
    { Modulus := 77, P := some 7, Q := some 11 } ∈ (SmoothPartsGCD 2 [35, 35, 77, 13]).out ∧
    (1 < 7 ∧ 7 ≤ 77) ∧ (1 ≤ 11 ∧ 11 < 77) ∧ 7 * 11 = 77 :=
  ⟨by decide, SmoothPartsGCD_factor_bounds 2 [35, 35, 77, 13] (by decide) (by decide)
    { Modulus := 77, P := some 7, Q := some 11 } (by decide) 7 11 rfl rfl⟩

/-- C7, refuted at `[15, 21, 35, 143]`: the accumulator engine sends the key
of `{15, 3, 5}`, and the smooth-parts engine, which reports `15` with the gcd
`15` it shares with the product of the others, does not. -/
theorem key_sets_differ :
    ¬ ∀ k, k ∈ keys (MulAccumGCD [15, 21, 35, 143]) ↔
      k ∈ keys (SmoothPartsGCD 2 [15, 21, 35, 143]).out := by
  intro h
  have h1 : Except.ok "COLLISION: N=f \nP=3 \nQ=5" ∈ keys (MulAccumGCD [15, 21, 35, 143]) := by
    decide
  have h2 := (h _).1 h1
  revert h2
  decide

/-- C7 as amended: for every list of an even number of moduli, at least two,
each a product of two distinct primes and none dividing the product of the
others, the two engines send the same records, hence the same set of
canonical keys, with any positive number of workers. -/
theorem key_sets_agree (nThreads : Nat) (hK : 0 < nThreads)
    (M : List Nat) (hn : 2 ≤ M.length) (heven : M.length % 2 = 0)
    (hS : ∀ m ∈ M, TwoPrimes m) (hfree : NoModulusDividesRest M) :
    (∀ r, r ∈ MulAccumGCD M ↔ r ∈ (SmoothPartsGCD nThreads M).out) ∧
    ∀ k, k ∈ keys (MulAccumGCD M) ↔ k ∈ keys (SmoothPartsGCD nThreads M).out := by
  have hrec := mem_MulAccumGCD_iff_mem_SmoothPartsGCD nThreads hK M hn heven hS hfree
  refine ⟨hrec, ?_⟩
  intro k
  unfold keys
  simp only [List.mem_map]
  constructor
  · rintro ⟨r, hr, rfl⟩
    exact ⟨r, (hrec r).1 hr, rfl⟩
  · rintro ⟨r, hr, rfl⟩
    exact ⟨r, (hrec r).2 hr, rfl⟩

theorem key_sets_agree_witness :
    (∀ r, r ∈ MulAccumGCD [15, 21, 22, 221] ↔ r ∈ (SmoothPartsGCD 2 [15, 21, 22, 221]).out) ∧
    ∀ k, k ∈ keys (MulAccumGCD [15, 21, 22, 221]) ↔
      k ∈ keys (SmoothPartsGCD 2 [15, 21, 22, 221]).out :=
  key_sets_agree 2 (by decide) [15, 21, 22, 221] (by decide) (by decide)
    (by
      intro m hm
      simp only [List.mem_cons, List.mem_singleton, List.not_mem_nil, or_false] at hm
      rcases hm with rfl | rfl | rfl | rfl
      · exact ⟨3, 5, by norm_num, by norm_num, by decide, by norm_num⟩
      · exact ⟨3, 7, by norm_num, by norm_num, by decide, by norm_num⟩
      · exact ⟨2, 11, by norm_num, by norm_num, by decide, by norm_num⟩
      · exact ⟨13, 17, by norm_num, by norm_num, by decide, by norm_num⟩)
    (by
      intro j hj
      have hj' : j < 4 := hj
      interval_cases j <;> decide)

/-- C8, at the failing input `[15, 21, 22, 13]`: `SmoothPartsGCD` sends
`{15, 3, 5}`, and `LowMemSmoothPartsGCD` sends it under no schedule, because
the remainder stage of level `1` receives the first spilled modulus itself;
under one schedule it sends `{22, 2, 11}`, which `SmoothPartsGCD` does not. -/
theorem LowMemSmoothPartsGCD_differs :
    { Modulus := 15, P := some 3, Q := some 5 } ∈ (SmoothPartsGCD 2 [15, 21, 22, 13]).out ∧
    (¬ ∃ sched, { Modulus := 15, P := some 3, Q := some 5 } ∈
      (LowMemSmoothPartsGCD sched [15, 21, 22, 13]).out) ∧
    { Modulus := 22, P := some 2, Q := some 11 } ∈
      (LowMemSmoothPartsGCD [true, true, true, false, false, false] [15, 21, 22, 13]).out ∧
    { Modulus := 22, P := some 2, Q := some 11 } ∉ (SmoothPartsGCD 2 [15, 21, 22, 13]).out := by
  refine ⟨by decide, ?_, by decide, by decide⟩
  rintro ⟨sched, h⟩
  have := LowMemSmoothPartsGCD_out sched _ _ h
  revert this
  decide

/-- C9, at the failing inputs: on an empty stream and on a stream of one
modulus, under every schedule, the first remainder stage is started with an
empty list of spilled levels and aborts on `productTree[len(productTree)-1]`. -/
theorem LowMemSmoothPartsGCD_short_input_aborts (sched : List Bool) (n : Nat) :
    LowMemSmoothPartsGCD sched [] =
      { out := [], panic := some .indexOutOfRange, closed := false } ∧
    LowMemSmoothPartsGCD sched [n] =
      { out := [], panic := some .indexOutOfRange, closed := false } :=
  ⟨rfl, rfl⟩

/-- C10, refuted for every input and every schedule: the output channel is not
closed. The top-of-tree stage returns without closing the channel that feeds
the first remainder stage, so no stage leaves its `for y := range input`. The
number of product levels allowed is enough: more would change nothing. -/
theorem LowMemSmoothPartsGCD_never_closes (sched : List Bool) (M : List Nat) :
    (LowMemSmoothPartsGCD sched M).closed = false ∧
    ∀ fuel, M.length < fuel →
      lowmemProductTreeLevel sched fuel 1 M [] = LowMemSmoothPartsGCD sched M := by
  refine ⟨lowmemProductTreeLevel_closed sched _ _ _ _, ?_⟩
  intro fuel hf
  exact lowmemProductTreeLevel_fuel sched _ _ _ _ _ hf (Nat.lt_succ_self _)

/-- C11: on a finite sequence of records that each have both or neither of `P`
and `Q`, `uniqifyProc` sends exactly the first occurrences by canonical key and
then closes its output: the records sent are a subsequence of the input, in the
order of the input, no two of them have the same `Collision.String` key, and
every key of the input is the key of a record sent. -/
theorem uniqifyProc_first_occurrences (s : List Collision) (hs : ∀ c ∈ s, c.WellFormed) :
    uniqifyProc s = { out := firstOccurrences s, panic := none, closed := true } ∧
    (uniqifyProc s).out.Sublist s ∧
    ((uniqifyProc s).out.map Collision.String).Nodup ∧
    ∀ c ∈ s, ∃ c' ∈ (uniqifyProc s).out, c'.String = c.String := by
  have h : uniqifyProc s = { out := firstOccurrences s, panic := none, closed := true } := by
    have := uniqifyLoop_spec s [] [] [] (by simp) rfl
      (fun c hc => Collision.WellFormed.string_ok c (hs c hc))
    simpa [uniqifyProc] using this
  refine ⟨h, ?_, ?_, ?_⟩
  · rw [h]; exact firstOccurrences_sublist s
  · rw [h]; exact nodup_keys_firstOccurrences s
  · intro c hc
    rw [h]
    have hk : c.String ∈ (firstOccurrences s).map Collision.String :=
      (mem_keys_firstOccurrences s _).2 (List.mem_map_of_mem _ hc)
    obtain ⟨c', hc', he⟩ := List.mem_map.1 hk
    exact ⟨c', hc', he⟩

theorem uniqifyProc_first_occurrences_witness :
    (∀ c ∈ [Collision.mk 15 (some 3) (some 5), Collision.mk 15 (some 5) (some 3),
        Collision.mk 35 none none, Collision.mk 21 (some 3) (some 7),
        Collision.mk 35 none none], c.WellFormed) ∧
    (uniqifyProc [Collision.mk 15 (some 3) (some 5), Collision.mk 15 (some 5) (some 3),
        Collision.mk 35 none none, Collision.mk 21 (some 3) (some 7),
        Collision.mk 35 none none]).out =
      [Collision.mk 15 (some 3) (some 5), Collision.mk 35 none none,
        Collision.mk 21 (some 3) (some 7)] ∧
    (uniqifyProc [Collision.mk 15 (some 3) (some 5), Collision.mk 15 (some 5) (some 3),
        Collision.mk 35 none none, Collision.mk 21 (some 3) (some 7),
        Collision.mk 35 none none]).closed = true := by
  have hw : ∀ c ∈ [Collision.mk 15 (some 3) (some 5), Collision.mk 15 (some 5) (some 3),
        Collision.mk 35 none none, Collision.mk 21 (some 3) (some 7),
        Collision.mk 35 none none], c.WellFormed := by
    intro c hc
    simp only [List.mem_cons, List.mem_singleton, List.not_mem_nil, or_false] at hc
    rcases hc with rfl | rfl | rfl | rfl | rfl <;> rfl
  have h := (uniqifyProc_first_occurrences _ hw).1
  refine ⟨hw, ?_, ?_⟩
  · rw [h]; decide
  · rw [h]

/-- C12: the dedup filter is idempotent. For every finite sequence `s` of
records, `uniqifyProc` on the records that `uniqifyProc` sends for `s` sends
the same sequence again, without an abort, and closes its output. -/
theorem uniqifyProc_idempotent (s : List Collision) :
    uniqifyProc (uniqifyProc s).out =
      { out := (uniqifyProc s).out, panic := none, closed := true } := by
  obtain ⟨t, _, hok, hout⟩ := uniqifyLoop_out s [] [] [] (by simp) rfl
  have hout' : (uniqifyProc s).out = firstOccurrences t := by
    simpa [uniqifyProc] using hout
  rw [hout']
  have h2 := uniqifyLoop_spec (firstOccurrences t) [] [] [] (by simp) rfl
    (fun c hc => hok c ((firstOccurrences_sublist t).subset hc))
  rw [List.nil_append, firstOccurrences_of_nodup _ (nodup_keys_firstOccurrences t)] at h2
  exact h2

/-- C13: for a record with both factors, `Collision.String` and `Collision.Csv`
render the smaller of `P` and `Q` first and the larger second, so the records
`{N, P, Q}` and `{N, Q, P}` have the same key and the same Csv line. -/
theorem rendering_is_canonical (N p q : Nat) :
    (Collision.mk N (some p) (some q)).String =
      .ok ("COLLISION: N=" ++ hex N ++ " \nP=" ++ hex (min p q) ++ " \nQ=" ++ hex (max p q)) ∧
    (Collision.mk N (some p) (some q)).Csv =
      .ok (hex N ++ "," ++ hex (min p q) ++ "," ++ hex (max p q)) ∧
    (Collision.mk N (some p) (some q)).String = (Collision.mk N (some q) (some p)).String ∧
    (Collision.mk N (some p) (some q)).Csv = (Collision.mk N (some q) (some p)).Csv := by
  have hS : ∀ a b : Nat, (Collision.mk N (some a) (some b)).String =
      .ok ("COLLISION: N=" ++ hex N ++ " \nP=" ++ hex (min a b) ++ " \nQ=" ++
        hex (max a b)) := by
    intro a b
    simp only [Collision.String, Collision.HavePrivate, Option.isSome_some, Bool.or_self,
      if_true]
    by_cases h : a < b
    · rw [if_pos h, min_eq_left (le_of_lt h), max_eq_right (le_of_lt h)]
    · rw [if_neg h, min_eq_right (not_lt.1 h), max_eq_left (not_lt.1 h)]
  have hC : ∀ a b : Nat, (Collision.mk N (some a) (some b)).Csv =
      .ok (hex N ++ "," ++ hex (min a b) ++ "," ++ hex (max a b)) := by
    intro a b
    simp only [Collision.Csv]
    by_cases h : a < b
    · rw [if_pos h, min_eq_left (le_of_lt h), max_eq_right (le_of_lt h)]
    · rw [if_neg h, min_eq_right (not_lt.1 h), max_eq_left (not_lt.1 h)]
  refine ⟨hS p q, hC p q, ?_, ?_⟩
  · rw [hS p q, hS q p, min_comm, max_comm]
  · rw [hC p q, hC q p, min_comm, max_comm]

/-- C14: `Collision.Test` is the verification predicate. On a record with both
factors it returns true if and only if `P * Q = Modulus`, and on a duplicate
record, with neither factor, it returns true. -/
theorem Test_is_verification (N p q : Nat) :
    (Collision.mk N (some p) (some q)).Test = .ok (decide (p * q = N)) ∧
    ((Collision.mk N (some p) (some q)).Test = .ok true ↔ p * q = N) ∧
    (Collision.mk N none none).Test = .ok true := by
  refine ⟨?_, ?_, ?_⟩
  · simp [Collision.Test, Collision.HavePrivate]
  · simp [Collision.Test, Collision.HavePrivate]
  · simp [Collision.Test, Collision.HavePrivate]

/-- C15: the loader aborts on malformed lines instead of skipping them. For
every line whose modulus field (the text before the first comma) was not seen
before and has fewer than 16 characters, so that the decoded buffer has a
capacity below the twelve bytes of three chunk lengths, the iteration of
`readModuli` aborts with a slice out of range in `read_int` or `read_chunk`.
This holds for the empty line, for a field that does not decode, and for a
field that decodes to fewer than three chunks. -/
theorem readLine_short_field_aborts (st : Loader) (text : List Nat)
    (hnew : text.takeWhile (fun c => c ≠ 44) ∉ st.seen)
    (hshort : (text.takeWhile fun c => c ≠ 44).length < 16) :
    readLine st text = .error .indexOutOfRange := by
  apply readLine_aborts_of_cap st text hnew
  rw [length_arr_DecodeString]
  unfold DecodedLen
  omega

theorem readLine_short_field_aborts_witness :
    readLine { seen := [], sent := [] } [] = .error .indexOutOfRange ∧
    readLine { seen := [], sent := [] } [33, 33, 33, 33] = .error .indexOutOfRange ∧
    readLine { seen := [], sent := [] } [65, 65, 65, 65, 65, 65, 61, 61] =
      .error .indexOutOfRange ∧
    (DecodeString [65, 65, 65, 65, 65, 65, 61, 61]).len = 4 ∧
    readModuli [[]] = .error .indexOutOfRange :=
  ⟨readLine_short_field_aborts _ _ (by decide) (by decide),
   readLine_short_field_aborts _ _ (by decide) (by decide),
   readLine_short_field_aborts _ _ (by decide) (by decide),
   by decide, by decide⟩

/-- C16, refuted at odd lengths: the moduli are not read-only. After a run of
`SmoothPartsGCD` that completes on at least two moduli greater than one, every
`moduli[i]` holds its value of before the run except the last modulus of a
list of odd length: its pointer is copied into level 0 of the tree, the
descent writes through it, and `moduli[n-1]` then holds the product of all the
moduli modulo its square. -/
theorem SmoothPartsGCD_overwrites_odd_last (nThreads : Nat) (hK : 0 < nThreads)
    (M : List Nat) (hn : 2 ≤ M.length) (hM : ∀ m ∈ M, 1 < m) (h : Heap)
    (hrun : SmoothPartsGCD.memory nThreads (loadModuli M).1 (loadModuli M).2 = .ok h) :
    (∀ i, i < M.length → ¬ (M.length % 2 = 1 ∧ i + 1 = M.length) →
      h.load ((loadModuli M).2.getD i none) = .ok (M.getD i 0)) ∧
    (M.length % 2 = 1 →
      h.load ((loadModuli M).2.getD (M.length - 1) none) =
        .ok (M.prod % (M.getD (M.length - 1) 0 * M.getD (M.length - 1) 0))) := by
  obtain ⟨tree, htp⟩ := (SmoothPartsGCD_memory_eq nThreads M hn).2 h hrun
  have ht := treePhases_spec M hn hM nThreads hK
  rw [htp] at ht
  obtain ⟨_, hlay, hI⟩ := ht
  simp only at hlay hI
  have hd := makeTree_spec M hn
  obtain ⟨h1, h2⟩ := moduli_after_descent M ((loadModuli M).2 :: tree) hd.1 hlay h hI
  have hptr : ∀ i, i < M.length → ptrAt ((loadModuli M).2 :: tree) 0 i = i := by
    intro i hi
    show (((loadModuli M).2.getD i none).getD 0) = i
    rw [getD_loadModuli M i hi]
    rfl
  constructor
  · intro i hi hlast
    rw [getD_loadModuli M i hi]
    show Except.ok (h.cells i) = _
    rw [← h1 i hi hlast, hptr i hi]
  · intro hodd
    rw [getD_loadModuli M _ (by omega)]
    show Except.ok (h.cells (M.length - 1)) = _
    rw [← h2 hodd, hptr _ (by omega)]

theorem SmoothPartsGCD_overwrites_odd_last_witness :
    ∃ h, SmoothPartsGCD.memory 4 (loadModuli [15, 22, 21]).1 (loadModuli [15, 22, 21]).2 =
        .ok h ∧
      (loadModuli [15, 22, 21]).1.load ((loadModuli [15, 22, 21]).2.getD 2 none) = .ok 21 ∧
      h.load ((loadModuli [15, 22, 21]).2.getD 2 none) = .ok 315 := by
  have hp := ((SmoothPartsGCD_panic_iff 4 (by decide) [15, 22, 21] (by decide)
    (by decide)).2).2 (by decide)
  obtain ⟨h, _, _, hmem⟩ := (SmoothPartsGCD_memory_eq 4 [15, 22, 21] (by decide)).1 hp
  have h2 := (SmoothPartsGCD_overwrites_odd_last 4 (by decide) [15, 22, 21] (by decide)
    (by decide) h hmem).2 (by decide)
  exact ⟨h, hmem, rfl, h2⟩

/-- C17, refuted at `[15, 21]`: in the iteration `i = 1` the accumulator is
`15` and `g = gcd(15, 21) = 3` is a proper factor of `21`, and after the
iteration the accumulator is `15 * 21 = 315`, not `15`. -/
theorem accumulator_changed_on_proper_factor :
    (mulAccumState [15, 21] 1).1 = 15 ∧
    GCD (mulAccumState [15, 21] 1).1 ([15, 21].getD 1 0) = 3 ∧
    (mulAccumState [15, 21] 2).1 = 315 := by
  decide

/-- C17 as amended: in `MulAccumGCD`, when `g = gcd(acc, M_i)` is a proper
factor of `M_i` (`1 < g < M_i`), the iteration launches `findDivisors` and then
multiplies `M_i` into the accumulator: `acc` becomes `acc * M_i`. -/
theorem accumulator_folds_proper_factor (M : List Nat) (i : Nat)
    (h1 : 1 < GCD (mulAccumState M i).1 (M.getD i 0))
    (h2 : GCD (mulAccumState M i).1 (M.getD i 0) < M.getD i 0) :
    (mulAccumState M (i + 1)).1 = (mulAccumState M i).1 * M.getD i 0 ∧
    (mulAccumState M (i + 1)).2 = (mulAccumState M i).2 ++
      findDivisors M i (GCD (mulAccumState M i).1 (M.getD i 0)) := by
  rw [mulAccumState_succ]
  unfold mulAccumStep
  simp only
  have hb : BitLen (GCD (mulAccumState M i).1 (M.getD i 0)) ≠ 1 := by
    rw [Ne, BitLen_eq_one_iff]; omega
  rw [if_pos hb, if_neg (by omega)]
  exact ⟨rfl, rfl⟩

theorem accumulator_folds_proper_factor_witness :
    1 < GCD (mulAccumState [15, 21] 1).1 ([15, 21].getD 1 0) ∧
    GCD (mulAccumState [15, 21] 1).1 ([15, 21].getD 1 0) < [15, 21].getD 1 0 ∧
    (mulAccumState [15, 21] 2).1 = (mulAccumState [15, 21] 1).1 * [15, 21].getD 1 0 :=
  ⟨by decide, by decide,
    (accumulator_folds_proper_factor [15, 21] 1 (by decide) (by decide)).1⟩

/-- C18: for every list `M` of at least two moduli, the product-tree phase of
`SmoothPartsGCD` completes; level 0 of the tree has `ceil(n/2)` nodes and every
higher level `ceil(k/2)` nodes for the `k` nodes of the level below; every node
holds the product of the moduli in its subtree; an odd last node of a level
(of the moduli, for level 0) is promoted as it is, the slot above holding the
same pointer; and the last level is the single root, the product of all the
moduli. -/
theorem product_tree_invariant (nThreads : Nat) (hK : 0 < nThreads) (M : List Nat)
    (hn : 2 ≤ M.length) :
    ∃ s, productPhase nThreads (loadModuli M).1 (loadModuli M).2 = .ok s ∧
      (s.tree.getD 0 []).length = (M.length + 1) / 2 ∧
      (∀ l, l + 1 < s.tree.length →
        (s.tree.getD (l + 1) []).length = ((s.tree.getD l []).length + 1) / 2) ∧
      (∀ l, l < s.tree.length → ∀ i, i < (s.tree.getD l []).length →
        ∃ p, (s.tree.getD l [])[i]? = some (some p) ∧
          s.heap.cells p = subtreeProduct M (l + 1) i) ∧
      (∀ l, l < s.tree.length → (((loadModuli M).2 :: s.tree).getD l []).length % 2 = 1 →
        (s.tree.getD l [])[(s.tree.getD l []).length - 1]? =
          (((loadModuli M).2 :: s.tree).getD l [])[
            (((loadModuli M).2 :: s.tree).getD l []).length - 1]?) ∧
      (∃ p, s.tree.getLast? = some [some p] ∧ s.heap.cells p = M.prod) := by
  obtain ⟨s, hs, hP⟩ := productPhase_ok M hn nThreads hK
  have hd := makeTree_spec M hn
  have hsz : ∀ l, l < depth M → (s.tree.getD l []).length = levelSize M (l + 1) := hP.treeSize
  refine ⟨s, hs, ?_, ?_, ?_, ?_, ?_⟩
  · rw [hsz 0 (by omega), levelSize_succ, levelSize_zero]
  · intro l hl
    rw [hP.treeLen] at hl
    rw [hsz (l + 1) hl, hsz l (by omega), levelSize_succ]
  · intro l hl i hi
    rw [hP.treeLen] at hl
    rw [hsz l hl] at hi
    refine ⟨ptrAt ((loadModuli M).2 :: s.tree) (l + 1) i, ?_, ?_⟩
    · exact hP.layout.slot (l + 1) (by omega) i hi
    · rw [hP.value (l + 1) (by omega) i hi, nodeValue_eq_subtreeProduct]
  · intro l hl hodd
    rw [hP.treeLen] at hl
    rw [hP.layout.size l (by omega)] at hodd ⊢
    rw [hsz l hl]
    have h1 := hP.layout.slot (l + 1) (by omega) (levelSize M (l + 1) - 1)
      (by rw [levelSize_succ]; omega)
    have h2 := hP.layout.slot l (by omega) (levelSize M l - 1) (by omega)
    have h3 := hP.layout.promo l hl hodd
    rw [h2, ← h3]
    exact h1
  · have hlast : s.tree.getLast? = some (s.tree.getD (depth M - 1) []) := by
      rw [List.getLast?_eq_getElem?, hP.treeLen, List.getD_eq_getElem?_getD]
      have : depth M - 1 < s.tree.length := by rw [hP.treeLen]; omega
      rw [List.getElem?_eq_getElem this]
      rfl
    have hlen : (s.tree.getD (depth M - 1) []).length = 1 := by
      rw [hsz _ (by omega)]
      have : depth M - 1 + 1 = depth M := by omega
      rw [this]; exact hd.2.2
    have hslot := hP.layout.slot (depth M) (le_refl _) 0 (by rw [hd.2.2]; omega)
    have hlv : ((loadModuli M).2 :: s.tree).getD (depth M) [] =
        s.tree.getD (depth M - 1) [] := by
      have : depth M = depth M - 1 + 1 := by omega
      rw [this, List.getD_cons_succ]
      rfl
    rw [hlv] at hslot
    refine ⟨ptrAt ((loadModuli M).2 :: s.tree) (depth M) 0, ?_, ?_⟩
    · rw [hlast]
      obtain ⟨x, hx⟩ := List.length_eq_one.1 hlen
      rw [hx] at hslot ⊢
      simp only [List.getElem?_cons_zero, Option.some.injEq] at hslot
      rw [hslot]
    · rw [hP.value (depth M) (le_refl _) 0 (by rw [hd.2.2]; omega), nodeValue_root M _ hd.2.2]

theorem product_tree_invariant_witness :
    ∃ s, productPhase 4 (loadModuli [15, 22, 21]).1 (loadModuli [15, 22, 21]).2 = .ok s ∧
      (s.tree.getD 0 []).length = 2 ∧
      (∃ p, s.tree.getLast? = some [some p] ∧ s.heap.cells p = 6930) := by
  obtain ⟨s, hs, h0, _, _, _, hroot⟩ :=
    product_tree_invariant 4 (by decide) [15, 22, 21] (by decide)
  exact ⟨s, hs, h0, hroot⟩

/-- C19: for every list `M` of at least two moduli greater than one, the
remainder descent of `SmoothPartsGCD` completes unless a promoted odd last node
of a level of the tree has the remainder zero, and after it every node of every
level of the tree, promoted odd last nodes included, holds the product of all
the moduli modulo the square of the product of the moduli in its subtree,
which is the value of its parent modulo that square. -/
theorem remainder_tree_invariant (nThreads : Nat) (hK : 0 < nThreads) (M : List Nat)
    (hn : 2 ≤ M.length) (hM : ∀ m ∈ M, 1 < m) :
    ((∃ r, treePhases nThreads (loadModuli M).1 (loadModuli M).2 = .ok r) ↔
      ¬ PromotedZero M 1) ∧
    ∀ h tree, treePhases nThreads (loadModuli M).1 (loadModuli M).2 = .ok (h, tree) →
      ∀ l, l < tree.length → ∀ i, i < (tree.getD l []).length →
        ∃ p, (tree.getD l [])[i]? = some (some p) ∧
          h.cells p = M.prod % (subtreeProduct M (l + 1) i * subtreeProduct M (l + 1) i) ∧
          (l + 1 < tree.length → ∃ q, (tree.getD (l + 1) [])[i / 2]? = some (some q) ∧
            h.cells p =
              h.cells q % (subtreeProduct M (l + 1) i * subtreeProduct M (l + 1) i)) := by
  have hab := treePhases_aborts_iff M hn hM nThreads hK
  constructor
  · constructor
    · rintro ⟨r, hr⟩ hz
      rw [hab.1 hz] at hr
      cases hr
    · exact hab.2
  · intro h tree htp l hl i hi
    have ht := treePhases_spec M hn hM nThreads hK
    rw [htp] at ht
    obtain ⟨htl, hlay, hI⟩ := ht
    simp only at htl hlay hI
    rw [htl] at hl
    have hsz : ∀ k, k < depth M → (tree.getD k []).length = levelSize M (k + 1) :=
      fun k hk => hlay.size (k + 1) (by omega)
    rw [hsz l hl] at hi
    refine ⟨ptrAt ((loadModuli M).2 :: tree) (l + 1) i,
      hlay.slot (l + 1) (by omega) i hi, ?_, ?_⟩
    · rw [hI.done (l + 1) (by omega) (by omega) i hi]
      unfold remainderValue
      rw [nodeValue_eq_subtreeProduct]
    · intro hl'
      rw [htl] at hl'
      have hk : i / 2 < levelSize M (l + 1 + 1) := by rw [levelSize_succ]; omega
      refine ⟨ptrAt ((loadModuli M).2 :: tree) (l + 1 + 1) (i / 2),
        hlay.slot (l + 1 + 1) (by omega) (i / 2) hk, ?_⟩
      rw [hI.done (l + 1) (by omega) (by omega) i hi,
        hI.done (l + 1 + 1) (by omega) (by omega) (i / 2) hk,
        ← nodeValue_eq_subtreeProduct, remainderValue_child]

theorem remainder_tree_invariant_witness :
    ¬ PromotedZero [15, 22, 21] 1 ∧
    ∃ r, treePhases 4 (loadModuli [15, 22, 21]).1 (loadModuli [15, 22, 21]).2 = .ok r :=
  ⟨by decide,
    (remainder_tree_invariant 4 (by decide) [15, 22, 21] (by decide) (by decide)).1.2
      (by decide)⟩

/-- C20, refuted: `SmoothPartsGCD` divides by zero. On at least two moduli
greater than one, with any positive number of workers, the run aborts on a
division by zero exactly when an odd last node of a level below the root (of
the moduli, for the lowest level) has a square that divides the product of all
the moduli: the node is stored by reference in two levels, the descent leaves
the remainder zero in its cell, and the cell is then squared into a divisor.
Otherwise the run completes. -/
theorem SmoothPartsGCD_divides_by_zero (nThreads : Nat) (hK : 0 < nThreads) (M : List Nat)
    (hn : 2 ≤ M.length) (hM : ∀ m ∈ M, 1 < m) :
    ((SmoothPartsGCD nThreads M).panic = some .divisionByZero ↔ PromotedZero M 0) ∧
    ((SmoothPartsGCD nThreads M).panic = none ↔ ¬ PromotedZero M 0) :=
  SmoothPartsGCD_panic_iff nThreads hK M hn hM

theorem SmoothPartsGCD_divides_by_zero_witness :
    (SmoothPartsGCD 4 [35, 35, 35]).panic = some .divisionByZero ∧
    (SmoothPartsGCD 4 [15, 77, 15, 77, 15, 77]).panic = some .divisionByZero :=
  ⟨(SmoothPartsGCD_divides_by_zero 4 (by decide) [35, 35, 35] (by decide)
      (by decide)).1.2 (by decide),
   (SmoothPartsGCD_divides_by_zero 4 (by decide) [15, 77, 15, 77, 15, 77] (by decide)
      (by decide)).1.2 (by decide)⟩

end batchgcd
